import Mathlib

/-!
# Open-addressing hash table `Dict<T>` (hashtable.cpp)

A shallow embedding of the class `Dict<T>`: a flat array of cells probed
linearly, tombstone deletion, growth at 3/4 load and shrink at 1/8 load.

Conventions of the embedding

* `u_int32_t` and `u_int64_t` values are natural numbers; every operation that
  can wrap carries its `% 2^32` or `% 2^64`.
* `std::string` is a list of bytes; plain `char` is signed (x86-64), so a byte
  `b ≥ 128` stands for the character `b - 256`.
* The array `table` is a list of cells; `new DictCell[n]` is `n` copies of the
  value-initialised cell.
* Every `while` loop takes a fuel argument (a bound on its iterations): a loop
  that uses it up yields `Fault.fuel`.  Undefined behaviour (`% 0`) yields
  `Fault.undefined`.
-/

namespace Hashtable

/-- The bytes of a `std::string`. -/
abbrev Key := List UInt8

/-- Ways in which a call fails to return a value. -/
inductive Fault where
  | fuel
  | undefined
  deriving DecidableEq, Repr

/-- The struct `DictCell`: `hash = 0`, `key{}`, `value{}` when value-initialised. -/
structure DictCell (T : Type) where
  hash : Nat
  key : Key
  value : T
  deriving DecidableEq, Repr

/-- The value-initialised cell produced by `new DictCell[n]`. -/
def DictCell.empty {T : Type} [Inhabited T] : DictCell T := ⟨0, [], default⟩

/-- The data members of `Dict<T>`: `length`, `size`, `table`. -/
structure Dict (T : Type) where
  length : Nat
  size : Nat
  table : List (DictCell T)
  deriving DecidableEq, Repr

/-- The constant `default_size`. -/
def default_size : Nat := 8

/-- The cell `table[index]`. -/
def cellAt {T : Type} [Inhabited T] (table : List (DictCell T)) (index : Nat) : DictCell T :=
  table.getD index DictCell.empty

/-- The array `new DictCell[n]`. -/
def new_table {T : Type} [Inhabited T] (n : Nat) : List (DictCell T) :=
  List.replicate n DictCell.empty

/-- The constructor `Dict()`. -/
def Dict.new {T : Type} [Inhabited T] : Dict T :=
  ⟨0, default_size, new_table default_size⟩

/-- The constructor `Dict(u_int32_t start_size)`. -/
def Dict.new_sized {T : Type} [Inhabited T] (start_size : Nat) : Dict T :=
  ⟨0, start_size, new_table start_size⟩

/-- Conversion of a (signed) `char`, given by its byte, to `u_int64_t`. -/
def char_u64 (ch : UInt8) : Nat :=
  if ch.toNat < 128 then ch.toNat else ch.toNat + (2 ^ 64 - 256)

/-- The multiplier `static_cast<u_int64_t>(ch << 1) + 1`. -/
def multiplier (ch : UInt8) : Nat :=
  ((2 * char_u64 ch) % 2 ^ 64 + 1) % 2 ^ 64

/-- The rotation `(hash<<7) | (hash>>((-7)&63))` of a 64-bit value. -/
def rotl7 (hash : Nat) : Nat :=
  ((hash <<< 7) % 2 ^ 64) ||| (hash >>> 57)

/-- One iteration of the loop of `get_hash`. -/
def hash_step (hash : Nat) (ch : UInt8) : Nat :=
  rotl7 ((hash * multiplier ch) % 2 ^ 64) ^^^ char_u64 ch

/-- The method `get_hash`. -/
def get_hash (key : Key) : Nat :=
  key.foldl hash_step 17

/-- A linear probe: starting at `index`, advance by `++index %= size` until the
cell satisfies `stop`; the result is the index of that cell. -/
def probe {T : Type} [Inhabited T] (stop : DictCell T → Bool)
    (table : List (DictCell T)) (size : Nat) : Nat → Nat → Except Fault Nat
  | 0, _ => .error .fuel
  | fuel + 1, index =>
    if stop (cellAt table index) then .ok index
    else probe stop table size fuel ((index + 1) % size)

/-- Exit test of the loop of `copy_in_table`: `key.length()` is zero. -/
def stop_copy {T : Type} (c : DictCell T) : Bool :=
  c.key.length == 0

/-- Exit test of the loop of `insert`: same hash, or `key.length() == 0`. -/
def stop_insert {T : Type} (hash : Nat) (c : DictCell T) : Bool :=
  c.hash == hash || c.key.length == 0

/-- Exit test of the loops of `get` and `remove`: the loop condition
`hash != 0` fails, or the inner test `hash == hash` succeeds. -/
def stop_lookup {T : Type} (hash : Nat) (c : DictCell T) : Bool :=
  c.hash == 0 || c.hash == hash

/-- The loop of `copy_in_table` over the old cells, in index order. -/
def copy_cells {T : Type} [Inhabited T] (fuel : Nat) (dest_size : Nat) :
    List (DictCell T) → List (DictCell T) → Except Fault (List (DictCell T))
  | [], dest_table => .ok dest_table
  | cell :: rest, dest_table =>
    if cell.key.length == 0 then copy_cells fuel dest_size rest dest_table
    else if dest_size = 0 then .error .undefined
    else
      match probe stop_copy dest_table dest_size fuel (cell.hash % dest_size) with
      | .error e => .error e
      | .ok new_index =>
        copy_cells fuel dest_size rest
          (dest_table.set new_index ⟨cell.hash, cell.key, cell.value⟩)

/-- The method `copy_in_table`. -/
def copy_in_table {T : Type} [Inhabited T] (fuel : Nat) (d : Dict T)
    (dest_table : List (DictCell T)) (dest_size : Nat) : Except Fault (List (DictCell T)) :=
  copy_cells fuel dest_size d.table dest_table

/-- The method `change_size`. -/
def change_size {T : Type} [Inhabited T] (fuel : Nat) (d : Dict T) (new_size : Nat) :
    Except Fault (Dict T) :=
  match copy_in_table fuel d (new_table new_size) new_size with
  | .error e => .error e
  | .ok table => .ok ⟨d.length, new_size, table⟩

/-- The part of `insert` after the growth test: probe, write, `length++`. -/
def insert_place {T : Type} [Inhabited T] (fuel : Nat) (d : Dict T) (key : Key) (value : T) :
    Except Fault (Dict T) :=
  if d.size = 0 then .error .undefined
  else
    match probe (stop_insert (get_hash key)) d.table d.size fuel (get_hash key % d.size) with
    | .error e => .error e
    | .ok index =>
      .ok ⟨(d.length + 1) % 2 ^ 32, d.size, d.table.set index ⟨get_hash key, key, value⟩⟩

/-- The method `insert`. -/
def insert {T : Type} [Inhabited T] (fuel : Nat) (d : Dict T) (key : Key) (value : T) :
    Except Fault (Dict T) :=
  if d.length ≥ (3 * d.size) % 2 ^ 32 / 4 then
    match change_size fuel d ((d.size * 2) % 2 ^ 32) with
    | .error e => .error e
    | .ok d1 => insert_place fuel d1 key value
  else insert_place fuel d key value

/-- The method `get`. -/
def get {T : Type} [Inhabited T] (fuel : Nat) (d : Dict T) (key : Key) : Except Fault T :=
  if d.size = 0 then .error .undefined
  else
    match probe (stop_lookup (get_hash key)) d.table d.size fuel (get_hash key % d.size) with
    | .error e => .error e
    | .ok index =>
      if (cellAt d.table index).hash = 0 then .ok default
      else if (cellAt d.table index).key.length = 0 then .ok default
      else .ok (cellAt d.table index).value

/-- The body of the hash match in `remove`: `key = {}` and `value = {}` at the
cell where the loop stopped, when that cell has a non-zero hash. -/
def clear_cell {T : Type} [Inhabited T] (table : List (DictCell T)) (index : Nat) :
    List (DictCell T) :=
  if (cellAt table index).hash = 0 then table
  else table.set index ⟨(cellAt table index).hash, [], default⟩

/-- The method `remove`. -/
def remove {T : Type} [Inhabited T] (fuel : Nat) (d : Dict T) (key : Key) :
    Except Fault (Dict T) :=
  if d.size = 0 then .error .undefined
  else
    match probe (stop_lookup (get_hash key)) d.table d.size fuel (get_hash key % d.size) with
    | .error e => .error e
    | .ok index =>
      if (d.length + (2 ^ 32 - 1)) % 2 ^ 32 ≤ d.size / 8 ∧ d.size > default_size then
        change_size fuel ⟨(d.length + (2 ^ 32 - 1)) % 2 ^ 32, d.size, clear_cell d.table index⟩
          (d.size / 2)
      else .ok ⟨(d.length + (2 ^ 32 - 1)) % 2 ^ 32, d.size, clear_cell d.table index⟩

/-- A call of the public interface. -/
inductive Op (T : Type) where
  | ins (key : Key) (value : T)
  | rem (key : Key)
  deriving DecidableEq, Repr

/-- Perform one call. -/
def Op.run {T : Type} [Inhabited T] (fuel : Nat) (d : Dict T) : Op T → Except Fault (Dict T)
  | .ins key value => insert fuel d key value
  | .rem key => remove fuel d key

/-- Perform a sequence of calls, stopping at the first that does not return. -/
def run_ops {T : Type} [Inhabited T] (fuel : Nat) : Dict T → List (Op T) → Except Fault (Dict T)
  | d, [] => .ok d
  | d, op :: ops =>
    match op.run fuel d with
    | .error e => .error e
    | .ok d1 => run_ops fuel d1 ops

/-- The states a table goes through: `d0`, and every state a returning call
with a key satisfying `P` produces from such a state. -/
inductive ReachableFrom {T : Type} [Inhabited T] (P : Key → Prop) (d0 : Dict T) : Dict T → Prop where
  | init : ReachableFrom P d0 d0
  | insert (fuel : Nat) (d d2 : Dict T) (key : Key) (value : T) :
      ReachableFrom P d0 d → P key → insert fuel d key value = .ok d2 → ReachableFrom P d0 d2
  | remove (fuel : Nat) (d d2 : Dict T) (key : Key) :
      ReachableFrom P d0 d → P key → remove fuel d key = .ok d2 → ReachableFrom P d0 d2

/-- The states reachable from a table built by `Dict()`. -/
def Reachable {T : Type} [Inhabited T] (P : Key → Prop) (d : Dict T) : Prop :=
  ReachableFrom P Dict.new d

/-- Every cell holding a key has a non-zero hash. -/
def NonZero {T : Type} [Inhabited T] (table : List (DictCell T)) : Prop :=
  ∀ j, (cellAt table j).key ≠ [] → (cellAt table j).hash ≠ 0

/-- The field `size` is the number of cells of `table`. -/
def Shape {T : Type} (d : Dict T) : Prop :=
  d.size = d.table.length


/-- The cell holds a key: `key.length()` is not zero. -/
def is_live {T : Type} (c : DictCell T) : Bool :=
  c.key.length != 0

/-- The number of cells of the table that hold a key. -/
def live_count {T : Type} (table : List (DictCell T)) : Nat :=
  table.countP is_live

/-- The lookup loop, started from the hash of the cell at index `j`, stops at `j`. -/
def Finds {T : Type} [Inhabited T] (table : List (DictCell T)) (size j : Nat) : Prop :=
  ∃ fuel, probe (stop_lookup (cellAt table j).hash) table size fuel
    ((cellAt table j).hash % size) = .ok j

/-- No two cells holding a key have the same hash. -/
def Distinct {T : Type} [Inhabited T] (table : List (DictCell T)) : Prop :=
  ∀ i j, (cellAt table i).key ≠ [] → (cellAt table j).key ≠ [] →
    (cellAt table i).hash = (cellAt table j).hash → i = j

/-- The representation invariant kept by calls that insert keys not stored and
remove keys that are stored, for keys of pairwise distinct non-zero hashes. -/
structure Inv {T : Type} [Inhabited T] (d : Dict T) : Prop where
  shape : Shape d
  size_pos : 0 < d.size
  size_lt : d.size < 2 ^ 32
  nonZero : NonZero d.table
  finds : ∀ j, (cellAt d.table j).key ≠ [] → Finds d.table d.size j
  distinct : Distinct d.table
  length_eq : d.length = live_count d.table

/-- The table has a cell with this key, its hash and this value. -/
def Stored {T : Type} (d : Dict T) (key : Key) (value : T) : Prop :=
  (⟨get_hash key, key, value⟩ : DictCell T) ∈ d.table

/-- No two cells of the list that hold a key have the same hash. -/
def DistinctList {T : Type} (cells : List (DictCell T)) : Prop :=
  cells.Pairwise (fun a b => a.key ≠ [] → b.key ≠ [] → a.hash ≠ b.hash)

/-- The calls `insert(k, v)` for the pairs of a list, in order. -/
def ins_ops {T : Type} (ps : List (Key × T)) : List (Op T) :=
  ps.map (fun kv => Op.ins kv.1 kv.2)

/-- The calls `remove(k)` for the keys of a list, in order. -/
def rem_ops {T : Type} (rs : List Key) : List (Op T) :=
  rs.map Op.rem

/-- The cell that `insert(k, v)` writes. -/
def cell_of {T : Type} (kv : Key × T) : DictCell T :=
  ⟨get_hash kv.1, kv.1, kv.2⟩

/-- The key passed by a call. -/
def Op.key {T : Type} : Op T → Key
  | .ins key _ => key
  | .rem key => key

/-- A capacity of the form `8 * 2^j` that fits in 32 bits. -/
def PowCap (n : Nat) : Prop :=
  ∃ j, n = 8 * 2 ^ j ∧ n < 2 ^ 32

/-- The seven pairs inserted by the demonstration program: "cat", "dog", "penguin",
"coyote", "tiger", "lion", "dolphin", with the values 1 to 7. -/
def demo_pairs : List (Key × Nat) :=
  [([99, 97, 116], 1), ([100, 111, 103], 2), ([112, 101, 110, 103, 117, 105, 110], 3),
    ([99, 111, 121, 111, 116, 101], 4), ([116, 105, 103, 101, 114], 5),
    ([108, 105, 111, 110], 6), ([100, 111, 108, 112, 104, 105, 110], 7)]

/-- The five keys removed by the demonstration program: "cat", "penguin", "coyote",
"lion", "dolphin". -/
def demo_removed : List Key :=
  [[99, 97, 116], [112, 101, 110, 103, 117, 105, 110], [99, 111, 121, 111, 116, 101],
    [108, 105, 111, 110], [100, 111, 108, 112, 104, 105, 110]]

/-- Eight rounds of `insert(k)`, `remove(k)` for the keys "a" to "h". -/
def tombstone_ops : List (Op Nat) :=
  [.ins [97] 1, .rem [97], .ins [98] 2, .rem [98], .ins [99] 3, .rem [99],
    .ins [100] 4, .rem [100], .ins [101] 5, .rem [101], .ins [102] 6, .rem [102],
    .ins [103] 7, .rem [103], .ins [104] 8, .rem [104]]

/-- The inserts of "a" to "h", each but the last followed by `remove("z")` of a key
that is not stored. -/
def full_ops : List (Op Nat) :=
  [.ins [97] 1, .rem [122], .ins [98] 2, .rem [122], .ins [99] 3, .rem [122],
    .ins [100] 4, .rem [122], .ins [101] 5, .rem [122], .ins [102] 6, .rem [122],
    .ins [103] 7, .rem [122], .ins [104] 8]

/-- The table after `full_ops`: every cell holds a key, and `length` is 1. -/
def full_state : Dict Nat :=
  ⟨1, 8, [⟨454888, [104], 8⟩, ⟨424417, [97], 1⟩, ⟨428770, [98], 2⟩, ⟨433123, [99], 3⟩,
    ⟨437476, [100], 4⟩, ⟨441829, [101], 5⟩, ⟨446182, [102], 6⟩, ⟨450535, [103], 7⟩]⟩

/-- Calls that store "i" in two cells: "i" is inserted behind "a", "a" is removed, "i"
is inserted again; then "b" to "f" are inserted (the last insert grows the table to
16 cells) and "b" to "e" are removed. -/
def stale_ops : List (Op Nat) :=
  [.ins [97] 1, .ins [105] 10, .rem [97], .ins [105] 20, .ins [98] 2, .ins [99] 3,
    .ins [100] 4, .ins [101] 5, .ins [102] 6, .rem [98], .rem [99], .rem [100], .rem [101]]

/-- The table of the demonstration program after its first six inserts. -/
def demo_six : Dict Nat :=
  ⟨6, 8, [⟨1601911315965825335, [99, 111, 121, 111, 116, 101], 4⟩,
    ⟨2530302478628448217, [112, 101, 110, 103, 117, 105, 110], 3⟩, ⟨0, [], 0⟩, ⟨0, [], 0⟩,
    ⟨322419813278964, [99, 97, 116], 1⟩, ⟨12642645919489944821, [116, 105, 103, 101, 114], 5⟩,
    ⟨10299768182572755438, [108, 105, 111, 110], 6⟩, ⟨330863899697383, [100, 111, 103], 2⟩]⟩

/-- The table of the demonstration program after its seven inserts. -/
def demo_seven : Dict Nat :=
  ⟨7, 16, [⟨0, [], 0⟩, ⟨0, [], 0⟩, ⟨0, [], 0⟩, ⟨0, [], 0⟩, ⟨322419813278964, [99, 97, 116], 1⟩,
    ⟨12642645919489944821, [116, 105, 103, 101, 114], 5⟩, ⟨0, [], 0⟩,
    ⟨1601911315965825335, [99, 111, 121, 111, 116, 101], 4⟩,
    ⟨330863899697383, [100, 111, 103], 2⟩,
    ⟨2530302478628448217, [112, 101, 110, 103, 117, 105, 110], 3⟩,
    ⟨8298432977291567608, [100, 111, 108, 112, 104, 105, 110], 7⟩, ⟨0, [], 0⟩, ⟨0, [], 0⟩,
    ⟨0, [], 0⟩, ⟨10299768182572755438, [108, 105, 111, 110], 6⟩, ⟨0, [], 0⟩]⟩

/-- The table of the demonstration program after its seven inserts and the first four
of its removes. -/
def demo_four_removed : Dict Nat :=
  ⟨3, 16, [⟨0, [], 0⟩, ⟨0, [], 0⟩, ⟨0, [], 0⟩, ⟨0, [], 0⟩, ⟨322419813278964, [], 0⟩,
    ⟨12642645919489944821, [116, 105, 103, 101, 114], 5⟩, ⟨0, [], 0⟩,
    ⟨1601911315965825335, [], 0⟩, ⟨330863899697383, [100, 111, 103], 2⟩,
    ⟨2530302478628448217, [], 0⟩,
    ⟨8298432977291567608, [100, 111, 108, 112, 104, 105, 110], 7⟩, ⟨0, [], 0⟩, ⟨0, [], 0⟩,
    ⟨0, [], 0⟩, ⟨10299768182572755438, [], 0⟩, ⟨0, [], 0⟩]⟩

/-- The table of the demonstration program after its seven inserts and five removes. -/
def demo_state : Dict Nat :=
  ⟨2, 8, [⟨0, [], 0⟩, ⟨0, [], 0⟩, ⟨0, [], 0⟩, ⟨0, [], 0⟩, ⟨0, [], 0⟩,
    ⟨12642645919489944821, [116, 105, 103, 101, 114], 5⟩, ⟨0, [], 0⟩,
    ⟨330863899697383, [100, 111, 103], 2⟩]⟩

/-- The table after `tombstone_ops`: every cell is a tombstone. -/
def tombstone_state : Dict Nat :=
  ⟨0, 8, [⟨454888, [], 0⟩, ⟨424417, [], 0⟩, ⟨428770, [], 0⟩, ⟨433123, [], 0⟩,
    ⟨437476, [], 0⟩, ⟨441829, [], 0⟩, ⟨446182, [], 0⟩, ⟨450535, [], 0⟩]⟩

/-- The table after `stale_ops`: "i" is stored in the cells 9 and 10. -/
def stale_state : Dict Nat :=
  ⟨3, 16, [⟨0, [], 0⟩, ⟨0, [], 0⟩, ⟨428770, [], 0⟩, ⟨433123, [], 0⟩, ⟨437476, [], 0⟩,
    ⟨441829, [], 0⟩, ⟨446182, [102], 6⟩, ⟨0, [], 0⟩, ⟨0, [], 0⟩, ⟨459241, [105], 20⟩,
    ⟨459241, [105], 10⟩, ⟨0, [], 0⟩, ⟨0, [], 0⟩, ⟨0, [], 0⟩, ⟨0, [], 0⟩, ⟨0, [], 0⟩]⟩

/-- The table after `remove("i")` on `stale_state`: "i" is still stored. -/
def stale_removed : Dict Nat :=
  ⟨2, 8, [⟨0, [], 0⟩, ⟨459241, [105], 10⟩, ⟨0, [], 0⟩, ⟨0, [], 0⟩, ⟨0, [], 0⟩,
    ⟨0, [], 0⟩, ⟨446182, [102], 6⟩, ⟨0, [], 0⟩]⟩

/-- The call is an `insert`. -/
def Op.is_ins {T : Type} : Op T → Bool
  | .ins _ _ => true
  | .rem _ => false

/-- The number of `insert` calls of a sequence. -/
def count_ins {T : Type} (ops : List (Op T)) : Nat :=
  ops.countP Op.is_ins

/-- The number of `remove` calls of a sequence. -/
def count_rem {T : Type} (ops : List (Op T)) : Nat :=
  ops.countP (fun op => !op.is_ins)

/-- Two inserts of "cat" and a remove of "dog", which is not stored. -/
def bookkeeping_ops : List (Op Nat) :=
  [.ins [99, 97, 116] 1, .ins [99, 97, 116] 2, .rem [100, 111, 103]]

/-- The table after `bookkeeping_ops`: one cell holds a key, `length` is 1. -/
def bookkeeping_state : Dict Nat :=
  ⟨1, 8, [⟨0, [], 0⟩, ⟨0, [], 0⟩, ⟨0, [], 0⟩, ⟨0, [], 0⟩, ⟨322419813278964, [99, 97, 116], 2⟩,
    ⟨0, [], 0⟩, ⟨0, [], 0⟩, ⟨0, [], 0⟩]⟩

/-- The number of Occupied cells (non-zero hash, this key) that hold the key. -/
def holders {T : Type} (table : List (DictCell T)) (key : Key) : Nat :=
  table.countP (fun c => c.hash != 0 && c.key == key)

/-- Calls after which "i" is stored in two cells: "i" is inserted behind "a", "a" is
removed, and "i" is inserted again. -/
def duplicate_ops : List (Op Nat) :=
  [.ins [97] 1, .ins [105] 10, .rem [97], .ins [105] 20]

/-- The table after `duplicate_ops`. -/
def duplicate_state : Dict Nat :=
  ⟨2, 8, [⟨0, [], 0⟩, ⟨459241, [105], 20⟩, ⟨459241, [105], 10⟩, ⟨0, [], 0⟩, ⟨0, [], 0⟩,
    ⟨0, [], 0⟩, ⟨0, [], 0⟩, ⟨0, [], 0⟩]⟩

/-- The table after `duplicate_ops` and `remove("i")`: a tombstone of "i" in cell 1,
the older cell of "i" behind it. -/
def removed_state : Dict Nat :=
  ⟨1, 8, [⟨0, [], 0⟩, ⟨459241, [], 0⟩, ⟨459241, [105], 10⟩, ⟨0, [], 0⟩, ⟨0, [], 0⟩,
    ⟨0, [], 0⟩, ⟨0, [], 0⟩, ⟨0, [], 0⟩]⟩

/-- The table after `insert("a", 5)` on `removed_state`: "a" took the tombstone. -/
def resurrected_state : Dict Nat :=
  ⟨2, 8, [⟨0, [], 0⟩, ⟨424417, [97], 5⟩, ⟨459241, [105], 10⟩, ⟨0, [], 0⟩, ⟨0, [], 0⟩,
    ⟨0, [], 0⟩, ⟨0, [], 0⟩, ⟨0, [], 0⟩]⟩

/-- The table after `insert("a", 1)` and `remove("a")` on a fresh table: a tombstone in
cell 1. -/
def one_tombstone : Dict Nat :=
  ⟨0, 8, [⟨0, [], 0⟩, ⟨424417, [], 0⟩, ⟨0, [], 0⟩, ⟨0, [], 0⟩, ⟨0, [], 0⟩, ⟨0, [], 0⟩,
    ⟨0, [], 0⟩, ⟨0, [], 0⟩]⟩

/-- The table after `insert("i", 2)` on `one_tombstone`. -/
def tombstone_reused : Dict Nat :=
  ⟨1, 8, [⟨0, [], 0⟩, ⟨459241, [105], 2⟩, ⟨0, [], 0⟩, ⟨0, [], 0⟩, ⟨0, [], 0⟩, ⟨0, [], 0⟩,
    ⟨0, [], 0⟩, ⟨0, [], 0⟩]⟩

/-- The table after `remove("a")` on a fresh table. -/
def underflow_state : Dict Nat :=
  ⟨4294967295, 8, [⟨0, [], 0⟩, ⟨0, [], 0⟩, ⟨0, [], 0⟩, ⟨0, [], 0⟩, ⟨0, [], 0⟩, ⟨0, [], 0⟩,
    ⟨0, [], 0⟩, ⟨0, [], 0⟩]⟩

/-- The table built by `Dict(16)` after `insert("i", 1)`. -/
def sixteen_one : Dict Nat :=
  ⟨1, 16, [⟨0, [], 0⟩, ⟨0, [], 0⟩, ⟨0, [], 0⟩, ⟨0, [], 0⟩, ⟨0, [], 0⟩, ⟨0, [], 0⟩, ⟨0, [], 0⟩,
    ⟨0, [], 0⟩, ⟨0, [], 0⟩, ⟨459241, [105], 1⟩, ⟨0, [], 0⟩, ⟨0, [], 0⟩, ⟨0, [], 0⟩, ⟨0, [], 0⟩,
    ⟨0, [], 0⟩, ⟨0, [], 0⟩]⟩

/-- The table after `remove("z")` on `sixteen_one`. -/
def sixteen_halved : Dict Nat :=
  ⟨0, 8, [⟨0, [], 0⟩, ⟨459241, [105], 1⟩, ⟨0, [], 0⟩, ⟨0, [], 0⟩, ⟨0, [], 0⟩, ⟨0, [], 0⟩,
    ⟨0, [], 0⟩, ⟨0, [], 0⟩]⟩

/-- The table of the demonstration program after its seven inserts and `remove("cat")`. -/
def demo_cat_removed : Dict Nat :=
  ⟨6, 16, [⟨0, [], 0⟩, ⟨0, [], 0⟩, ⟨0, [], 0⟩, ⟨0, [], 0⟩, ⟨322419813278964, [], 0⟩,
    ⟨12642645919489944821, [116, 105, 103, 101, 114], 5⟩, ⟨0, [], 0⟩,
    ⟨1601911315965825335, [99, 111, 121, 111, 116, 101], 4⟩,
    ⟨330863899697383, [100, 111, 103], 2⟩,
    ⟨2530302478628448217, [112, 101, 110, 103, 117, 105, 110], 3⟩,
    ⟨8298432977291567608, [100, 111, 108, 112, 104, 105, 110], 7⟩, ⟨0, [], 0⟩, ⟨0, [], 0⟩,
    ⟨0, [], 0⟩, ⟨10299768182572755438, [108, 105, 111, 110], 6⟩, ⟨0, [], 0⟩]⟩

/-- The number of Occupied cells: non-zero hash and non-empty key. -/
def occupied_count {T : Type} (table : List (DictCell T)) : Nat :=
  table.countP (fun c => c.hash != 0 && c.key.length != 0)

/-- The states of a table under well-formed use: starting from `Dict()`, every insert
is of a key that is not stored and every remove of a key that is stored, with keys
satisfying `P`. -/
inductive WellFormed {T : Type} [Inhabited T] (P : Key → Prop) : Dict T → Prop where
  | init : WellFormed P Dict.new
  | insert (fuel : Nat) (d d2 : Dict T) (key : Key) (value : T) :
      WellFormed P d → P key → (∀ c, c ∈ d.table → c.key ≠ key) →
      insert fuel d key value = .ok d2 → WellFormed P d2
  | remove (fuel : Nat) (d d2 : Dict T) (key : Key) :
      WellFormed P d → P key → (∃ c, c ∈ d.table ∧ c.key = key) →
      remove fuel d key = .ok d2 → WellFormed P d2

/-- Every stored key satisfies `P` and sits in a cell with its hash. -/
def KeysFrom {T : Type} (P : Key → Prop) (table : List (DictCell T)) : Prop :=
  ∀ c, c ∈ table → c.key ≠ [] → P c.key ∧ c.hash = get_hash c.key

/-- The table after `insert("cat", 1)` on a fresh table. -/
def cat_state : Dict Nat :=
  ⟨1, 8, [⟨0, [], 0⟩, ⟨0, [], 0⟩, ⟨0, [], 0⟩, ⟨0, [], 0⟩, ⟨322419813278964, [99, 97, 116], 1⟩,
    ⟨0, [], 0⟩, ⟨0, [], 0⟩, ⟨0, [], 0⟩]⟩

/-- The table after `insert("cat", 1)` and `insert("dog", 2)`. -/
def cat_dog_state : Dict Nat :=
  ⟨2, 8, [⟨0, [], 0⟩, ⟨0, [], 0⟩, ⟨0, [], 0⟩, ⟨0, [], 0⟩, ⟨322419813278964, [99, 97, 116], 1⟩,
    ⟨0, [], 0⟩, ⟨0, [], 0⟩, ⟨330863899697383, [100, 111, 103], 2⟩]⟩

/-- The table after `insert("cat", 1)`, `insert("dog", 2)` and `remove("cat")`. -/
def dog_state : Dict Nat :=
  ⟨1, 8, [⟨0, [], 0⟩, ⟨0, [], 0⟩, ⟨0, [], 0⟩, ⟨0, [], 0⟩, ⟨322419813278964, [], 0⟩,
    ⟨0, [], 0⟩, ⟨0, [], 0⟩, ⟨330863899697383, [100, 111, 103], 2⟩]⟩

/-- The inserts of "a" to "i" (the seventh grows the table to 16 cells) and six removes
of "z", which is not stored. -/
def hang_ops : List (Op Nat) :=
  [.ins [97] 1, .ins [98] 2, .ins [99] 3, .ins [100] 4, .ins [101] 5, .ins [102] 6,
    .ins [103] 7, .ins [104] 8, .ins [105] 9, .rem [122], .rem [122], .rem [122], .rem [122],
    .rem [122], .rem [122]]

/-- The table after `hang_ops`: nine cells hold a key, `length` is 3. -/
def hang_state : Dict Nat :=
  ⟨3, 16, [⟨0, [], 0⟩, ⟨424417, [97], 1⟩, ⟨428770, [98], 2⟩, ⟨433123, [99], 3⟩,
    ⟨437476, [100], 4⟩, ⟨441829, [101], 5⟩, ⟨446182, [102], 6⟩, ⟨450535, [103], 7⟩,
    ⟨454888, [104], 8⟩, ⟨459241, [105], 9⟩, ⟨0, [], 0⟩, ⟨0, [], 0⟩, ⟨0, [], 0⟩, ⟨0, [], 0⟩,
    ⟨0, [], 0⟩, ⟨0, [], 0⟩]⟩

/-! ## Cells of a table -/

section Basic

variable {T : Type} [Inhabited T]

theorem cellAt_eq (t : List (DictCell T)) (j : Nat) :
    cellAt t j = (t[j]?).getD DictCell.empty := by
  unfold cellAt
  exact List.getD_eq_getElem?_getD t j _

theorem cellAt_of_le (t : List (DictCell T)) (j : Nat) (h : t.length ≤ j) :
    cellAt t j = DictCell.empty := by
  unfold cellAt
  exact List.getD_eq_default t _ h

theorem cellAt_set (t : List (DictCell T)) (p j : Nat) (c : DictCell T) :
    cellAt (t.set p c) j = if j = p ∧ p < t.length then c else cellAt t j := by
  rw [cellAt_eq, cellAt_eq, List.getElem?_set]
  by_cases hj : p = j
  · subst hj
    by_cases hp : p < t.length
    · simp [hp]
    · simp [hp, List.getElem?_eq_none (Nat.le_of_not_lt hp)]
  · have hj2 : ¬ j = p := fun h => hj h.symm
    simp [hj, hj2]

theorem cellAt_set_self (t : List (DictCell T)) (p : Nat) (c : DictCell T)
    (hp : p < t.length) : cellAt (t.set p c) p = c := by
  rw [cellAt_set]; simp [hp]

theorem cellAt_set_ne (t : List (DictCell T)) (p j : Nat) (c : DictCell T) (h : j ≠ p) :
    cellAt (t.set p c) j = cellAt t j := by
  rw [cellAt_set]; simp [h]

theorem cellAt_new_table (n j : Nat) : cellAt (new_table n : List (DictCell T)) j = DictCell.empty := by
  rw [cellAt_eq]
  unfold new_table
  rw [List.getElem?_replicate]
  split <;> rfl

theorem cellAt_cons_zero (c : DictCell T) (t : List (DictCell T)) : cellAt (c :: t) 0 = c := rfl

theorem cellAt_cons_succ (c : DictCell T) (t : List (DictCell T)) (j : Nat) :
    cellAt (c :: t) (j + 1) = cellAt t j := rfl

theorem cellAt_mem (t : List (DictCell T)) (j : Nat) (h : j < t.length) : cellAt t j ∈ t := by
  rw [cellAt_eq, List.getElem?_eq_getElem h]
  exact List.getElem_mem h

theorem key_empty_of_le (t : List (DictCell T)) (j : Nat) (h : t.length ≤ j) :
    (cellAt t j).key = [] := by
  rw [cellAt_of_le t j h]; rfl

theorem lt_of_key_ne (t : List (DictCell T)) (j : Nat) (h : (cellAt t j).key ≠ []) :
    j < t.length := by
  by_contra hc
  exact h (key_empty_of_le t j (Nat.le_of_not_lt hc))

/-! ## The probe loop -/

theorem probe_zero (stop : DictCell T → Bool) (t : List (DictCell T)) (size i : Nat) :
    probe stop t size 0 i = .error .fuel := rfl

theorem probe_succ (stop : DictCell T → Bool) (t : List (DictCell T)) (size fuel i : Nat) :
    probe stop t size (fuel + 1) i =
      if stop (cellAt t i) then .ok i else probe stop t size fuel ((i + 1) % size) := rfl

theorem probe_ok_stop (stop : DictCell T → Bool) (t : List (DictCell T)) (size : Nat) :
    ∀ (fuel i p : Nat), probe stop t size fuel i = .ok p → stop (cellAt t p) = true := by
  intro fuel
  induction fuel with
  | zero => intro i p h; simp [probe_zero] at h
  | succ n ih =>
    intro i p h
    rw [probe_succ] at h
    by_cases hs : stop (cellAt t i) = true
    · simp [hs] at h; subst h; exact hs
    · simp [hs] at h; exact ih _ _ h

theorem probe_ok_lt (stop : DictCell T → Bool) (t : List (DictCell T)) (size : Nat) :
    ∀ (fuel i p : Nat), probe stop t size fuel i = .ok p → i < size → p < size := by
  intro fuel
  induction fuel with
  | zero => intro i p h; simp [probe_zero] at h
  | succ n ih =>
    intro i p h hi
    rw [probe_succ] at h
    by_cases hs : stop (cellAt t i) = true
    · simp [hs] at h; subst h; exact hi
    · simp [hs] at h
      exact ih _ _ h (Nat.mod_lt _ (Nat.lt_of_le_of_lt (Nat.zero_le _) hi))

theorem probe_error (stop : DictCell T → Bool) (t : List (DictCell T)) (size : Nat) :
    ∀ (fuel i : Nat) (e : Fault), probe stop t size fuel i = .error e → e = .fuel := by
  intro fuel
  induction fuel with
  | zero => intro i e h; simp [probe_zero] at h; exact h.symm
  | succ n ih =>
    intro i e h
    rw [probe_succ] at h
    by_cases hs : stop (cellAt t i) = true
    · simp [hs] at h
    · simp [hs] at h; exact ih _ _ h

/-- A probe that stops at `p` also stops at `p` for another exit test and
another table, provided that `p` passes the new test and every cell the old
probe walked over fails it. -/
theorem probe_transfer (stop stop2 : DictCell T → Bool) (t t2 : List (DictCell T)) (size : Nat)
    (p : Nat) (hp : stop2 (cellAt t2 p) = true)
    (hstep : ∀ j, stop (cellAt t j) = false → stop2 (cellAt t2 j) = false) :
    ∀ (fuel i : Nat), probe stop t size fuel i = .ok p → probe stop2 t2 size fuel i = .ok p := by
  intro fuel
  induction fuel with
  | zero => intro i h; simp [probe_zero] at h
  | succ n ih =>
    intro i h
    rw [probe_succ] at h
    rw [probe_succ]
    by_cases hs : stop (cellAt t i) = true
    · simp [hs] at h; subst h; simp [hp]
    · simp [hs] at h
      have h2 : stop2 (cellAt t2 i) = false := hstep i (by simpa using hs)
      simp [h2]
      exact ih _ h

theorem probe_mono (stop : DictCell T → Bool) (t : List (DictCell T)) (size : Nat) :
    ∀ (fuel fuel2 i p : Nat), probe stop t size fuel i = .ok p → fuel ≤ fuel2 →
      probe stop t size fuel2 i = .ok p := by
  intro fuel
  induction fuel with
  | zero => intro f2 i p h; simp [probe_zero] at h
  | succ n ih =>
    intro f2 i p h hle
    obtain ⟨m, rfl⟩ : ∃ m, f2 = m + 1 := ⟨f2 - 1, by omega⟩
    rw [probe_succ] at h
    rw [probe_succ]
    by_cases hs : stop (cellAt t i) = true
    · simp [hs] at h; subst h; simp [hs]
    · simp [hs] at h
      simp [hs]
      exact ih _ _ _ h (by omega)

/-- A probe that runs out of fuel has seen `fuel` cells in a row fail the test. -/
theorem probe_fuel_visits (stop : DictCell T → Bool) (t : List (DictCell T)) (size : Nat) :
    ∀ (fuel i : Nat), probe stop t size fuel i = .error .fuel → i < size →
      ∀ m, m < fuel → stop (cellAt t ((i + m) % size)) = false := by
  intro fuel
  induction fuel with
  | zero => intro i _ _ m hm; omega
  | succ n ih =>
    intro i h hi m hm
    rw [probe_succ] at h
    by_cases hs : stop (cellAt t i) = true
    · simp [hs] at h
    · simp [hs] at h
      cases m with
      | zero => simpa [Nat.mod_eq_of_lt hi] using hs
      | succ k =>
        have hpos : 0 < size := Nat.lt_of_le_of_lt (Nat.zero_le _) hi
        have := ih _ h (Nat.mod_lt _ hpos) k (by omega)
        rw [Nat.mod_add_mod] at this
        rw [show i + (k + 1) = i + 1 + k by omega]
        exact this

/-- With at least `size` units of fuel the probe finds a cell passing the test
whenever the table has one. -/
theorem probe_terminates (stop : DictCell T → Bool) (t : List (DictCell T)) (size : Nat)
    (fuel i j : Nat) (hj : j < size) (hs : stop (cellAt t j) = true) (hi : i < size)
    (hfuel : size ≤ fuel) : ∃ p, probe stop t size fuel i = .ok p := by
  cases h : probe stop t size fuel i with
  | ok p => exact ⟨p, rfl⟩
  | error e =>
    have he := probe_error stop t size fuel i e h
    subst he
    have hv := probe_fuel_visits stop t size fuel i h hi ((j + size - i) % size)
      (Nat.lt_of_lt_of_le (Nat.mod_lt _ (by omega)) hfuel)
    have hidx : (i + (j + size - i) % size) % size = j := by
      rw [Nat.add_mod_mod, show i + (j + size - i) = j + size by omega, Nat.add_mod_right,
        Nat.mod_eq_of_lt hj]
    rw [hidx, hs] at hv
    cases hv

/-- The probe never stops when no cell of the table passes the test. -/
theorem probe_never (stop : DictCell T → Bool) (t : List (DictCell T)) (size : Nat)
    (hall : ∀ j, j < size → stop (cellAt t j) = false) :
    ∀ (fuel i : Nat), i < size → probe stop t size fuel i = .error .fuel := by
  intro fuel
  induction fuel with
  | zero => intro i _; rfl
  | succ n ih =>
    intro i hi
    rw [probe_succ, hall i hi]
    simp
    exact ih _ (Nat.mod_lt _ (by omega))

/-- The result of a probe does not depend on the fuel. -/
theorem probe_det (stop : DictCell T → Bool) (t : List (DictCell T)) (size : Nat)
    (fuel fuel2 i p q : Nat) (h1 : probe stop t size fuel i = .ok p)
    (h2 : probe stop t size fuel2 i = .ok q) : p = q := by
  have a := probe_mono stop t size fuel (max fuel fuel2) i p h1 (le_max_left _ _)
  have b := probe_mono stop t size fuel2 (max fuel fuel2) i q h2 (le_max_right _ _)
  rw [a] at b
  injection b

/-- A probe that stops for some fuel stops for every fuel of at least `size`. -/
theorem probe_ok_of_size_le (stop : DictCell T → Bool) (t : List (DictCell T)) (size : Nat)
    (fuel fuel2 i p : Nat) (h : probe stop t size fuel i = .ok p) (hi : i < size)
    (hfuel : size ≤ fuel2) : probe stop t size fuel2 i = .ok p := by
  have hp := probe_ok_lt stop t size fuel i p h hi
  have hs := probe_ok_stop stop t size fuel i p h
  obtain ⟨q, hq⟩ := probe_terminates stop t size fuel2 i p hp hs hi hfuel
  rw [hq, probe_det stop t size fuel fuel2 i p q h hq]

/-! ## Unfolding the methods -/

theorem copy_cells_nil (fuel n : Nat) (dest : List (DictCell T)) :
    copy_cells fuel n [] dest = .ok dest := rfl

theorem copy_cells_cons_ok (fuel n : Nat) (c : DictCell T) (rest dest r : List (DictCell T))
    (h : copy_cells fuel n (c :: rest) dest = .ok r) :
    (c.key = [] ∧ copy_cells fuel n rest dest = .ok r) ∨
    (c.key ≠ [] ∧ n ≠ 0 ∧ ∃ p, probe stop_copy dest n fuel (c.hash % n) = .ok p ∧
      copy_cells fuel n rest (dest.set p c) = .ok r) := by
  unfold copy_cells at h
  by_cases hk : c.key = []
  · left
    simp [hk] at h
    exact ⟨hk, h⟩
  · right
    have hk2 : ¬ c.key.length = 0 := by
      intro hl; exact hk (List.length_eq_zero.mp hl)
    simp only [beq_iff_eq, hk2, if_false] at h
    by_cases hn : n = 0
    · simp [hn] at h
    · simp only [hn, if_false] at h
      cases hp : probe stop_copy dest n fuel (c.hash % n) with
      | error e => rw [hp] at h; simp at h
      | ok p =>
        rw [hp] at h
        exact ⟨hk, hn, p, rfl, h⟩

theorem copy_cells_cons_skip (fuel n : Nat) (c : DictCell T) (rest dest : List (DictCell T))
    (hk : c.key = []) : copy_cells fuel n (c :: rest) dest = copy_cells fuel n rest dest := by
  conv => lhs; unfold copy_cells
  simp [hk]

theorem copy_cells_cons_place (fuel n : Nat) (c : DictCell T) (rest dest : List (DictCell T))
    (p : Nat) (hk : c.key ≠ []) (hn : n ≠ 0)
    (hp : probe stop_copy dest n fuel (c.hash % n) = .ok p) :
    copy_cells fuel n (c :: rest) dest = copy_cells fuel n rest (dest.set p c) := by
  conv => lhs; unfold copy_cells
  have hk2 : ¬ c.key.length = 0 := by
    intro hl; exact hk (List.length_eq_zero.mp hl)
  simp only [beq_iff_eq, hk2, if_false, hn, hp]

theorem change_size_ok (fuel : Nat) (d d1 : Dict T) (n : Nat)
    (h : change_size fuel d n = .ok d1) :
    ∃ t, copy_cells fuel n d.table (new_table n) = .ok t ∧ d1 = ⟨d.length, n, t⟩ := by
  unfold change_size copy_in_table at h
  cases hc : copy_cells fuel n d.table (new_table n) with
  | error e => rw [hc] at h; simp at h
  | ok t =>
    rw [hc] at h
    simp at h
    exact ⟨t, rfl, h.symm⟩

theorem change_size_of_copy (fuel : Nat) (d : Dict T) (n : Nat) (t : List (DictCell T))
    (h : copy_cells fuel n d.table (new_table n) = .ok t) :
    change_size fuel d n = .ok ⟨d.length, n, t⟩ := by
  unfold change_size copy_in_table
  rw [h]

theorem insert_place_ok (fuel : Nat) (d d2 : Dict T) (key : Key) (value : T)
    (h : insert_place fuel d key value = .ok d2) :
    d.size ≠ 0 ∧ ∃ p, probe (stop_insert (get_hash key)) d.table d.size fuel
        (get_hash key % d.size) = .ok p ∧
      d2 = ⟨(d.length + 1) % 2 ^ 32, d.size, d.table.set p ⟨get_hash key, key, value⟩⟩ := by
  unfold insert_place at h
  by_cases hz : d.size = 0
  · simp [hz] at h
  · simp only [hz, if_false] at h
    refine ⟨hz, ?_⟩
    cases hp : probe (stop_insert (get_hash key)) d.table d.size fuel (get_hash key % d.size) with
    | error e => rw [hp] at h; simp at h
    | ok p =>
      rw [hp] at h
      simp at h
      exact ⟨p, rfl, h.symm⟩

theorem insert_place_of_probe (fuel : Nat) (d : Dict T) (key : Key) (value : T) (p : Nat)
    (hz : d.size ≠ 0)
    (hp : probe (stop_insert (get_hash key)) d.table d.size fuel (get_hash key % d.size) = .ok p) :
    insert_place fuel d key value =
      .ok ⟨(d.length + 1) % 2 ^ 32, d.size, d.table.set p ⟨get_hash key, key, value⟩⟩ := by
  unfold insert_place
  simp only [hz, if_false, hp]

theorem insert_ok (fuel : Nat) (d d2 : Dict T) (key : Key) (value : T)
    (h : insert fuel d key value = .ok d2) :
    ∃ d1, insert_place fuel d1 key value = .ok d2 ∧
      ((d.length ≥ (3 * d.size) % 2 ^ 32 / 4 ∧
          change_size fuel d ((d.size * 2) % 2 ^ 32) = .ok d1) ∨
       (¬ d.length ≥ (3 * d.size) % 2 ^ 32 / 4 ∧ d1 = d)) := by
  unfold insert at h
  by_cases hg : d.length ≥ (3 * d.size) % 2 ^ 32 / 4
  · simp only [hg, if_true] at h
    cases hc : change_size fuel d ((d.size * 2) % 2 ^ 32) with
    | error e => rw [hc] at h; simp at h
    | ok d1 =>
      rw [hc] at h
      exact ⟨d1, h, Or.inl ⟨hg, rfl⟩⟩
  · simp only [hg, if_false] at h
    exact ⟨d, h, Or.inr ⟨hg, rfl⟩⟩

theorem insert_of_grow (fuel : Nat) (d d1 : Dict T) (key : Key) (value : T)
    (hg : d.length ≥ (3 * d.size) % 2 ^ 32 / 4)
    (hc : change_size fuel d ((d.size * 2) % 2 ^ 32) = .ok d1) :
    insert fuel d key value = insert_place fuel d1 key value := by
  unfold insert
  simp only [hg, if_true, hc]

theorem insert_of_no_grow (fuel : Nat) (d : Dict T) (key : Key) (value : T)
    (hg : ¬ d.length ≥ (3 * d.size) % 2 ^ 32 / 4) :
    insert fuel d key value = insert_place fuel d key value := by
  unfold insert
  simp only [hg, if_false]

theorem remove_ok (fuel : Nat) (d d2 : Dict T) (key : Key)
    (h : remove fuel d key = .ok d2) :
    d.size ≠ 0 ∧ ∃ p, probe (stop_lookup (get_hash key)) d.table d.size fuel
        (get_hash key % d.size) = .ok p ∧
      (((d.length + (2 ^ 32 - 1)) % 2 ^ 32 ≤ d.size / 8 ∧ d.size > default_size) ∧
          change_size fuel ⟨(d.length + (2 ^ 32 - 1)) % 2 ^ 32, d.size, clear_cell d.table p⟩
            (d.size / 2) = .ok d2 ∨
       ¬ ((d.length + (2 ^ 32 - 1)) % 2 ^ 32 ≤ d.size / 8 ∧ d.size > default_size) ∧
          d2 = ⟨(d.length + (2 ^ 32 - 1)) % 2 ^ 32, d.size, clear_cell d.table p⟩) := by
  unfold remove at h
  by_cases hz : d.size = 0
  · simp [hz] at h
  · simp only [hz, if_false] at h
    refine ⟨hz, ?_⟩
    cases hp : probe (stop_lookup (get_hash key)) d.table d.size fuel (get_hash key % d.size) with
    | error e => rw [hp] at h; simp at h
    | ok p =>
      rw [hp] at h
      refine ⟨p, rfl, ?_⟩
      by_cases hc : (d.length + (2 ^ 32 - 1)) % 2 ^ 32 ≤ d.size / 8 ∧ d.size > default_size
      · left
        simp only [hc, and_self, if_true] at h
        exact ⟨hc, h⟩
      · right
        simp only [hc, if_false] at h
        simp at h
        exact ⟨hc, h.symm⟩

theorem remove_of_probe (fuel : Nat) (d : Dict T) (key : Key) (p : Nat) (hz : d.size ≠ 0)
    (hp : probe (stop_lookup (get_hash key)) d.table d.size fuel (get_hash key % d.size) = .ok p) :
    remove fuel d key =
      if (d.length + (2 ^ 32 - 1)) % 2 ^ 32 ≤ d.size / 8 ∧ d.size > default_size then
        change_size fuel ⟨(d.length + (2 ^ 32 - 1)) % 2 ^ 32, d.size, clear_cell d.table p⟩
          (d.size / 2)
      else .ok ⟨(d.length + (2 ^ 32 - 1)) % 2 ^ 32, d.size, clear_cell d.table p⟩ := by
  unfold remove
  simp only [hz, if_false, hp]

theorem get_of_probe (fuel : Nat) (d : Dict T) (key : Key) (p : Nat) (hz : d.size ≠ 0)
    (hp : probe (stop_lookup (get_hash key)) d.table d.size fuel (get_hash key % d.size) = .ok p) :
    get fuel d key =
      if (cellAt d.table p).hash = 0 then .ok default
      else if (cellAt d.table p).key.length = 0 then .ok default
      else .ok (cellAt d.table p).value := by
  unfold get
  simp only [hz, if_false, hp]

/-! ## Shape of the table and non-zero hashes of stored keys -/

theorem cellAt_of_mem (t : List (DictCell T)) (c : DictCell T) (h : c ∈ t) :
    ∃ j, j < t.length ∧ cellAt t j = c := by
  obtain ⟨j, hj, hc⟩ := List.mem_iff_getElem.mp h
  refine ⟨j, hj, ?_⟩
  rw [cellAt_eq, List.getElem?_eq_getElem hj]
  simpa using hc

theorem length_clear_cell (t : List (DictCell T)) (p : Nat) :
    (clear_cell t p).length = t.length := by
  unfold clear_cell
  split
  · rfl
  · exact List.length_set _ _ _

theorem cellAt_clear_cell (t : List (DictCell T)) (p j : Nat) :
    cellAt (clear_cell t p) j =
      if j = p ∧ (cellAt t p).hash ≠ 0 then ⟨(cellAt t p).hash, [], default⟩ else cellAt t j := by
  unfold clear_cell
  by_cases hz : (cellAt t p).hash = 0
  · simp [hz]
  · have hp : p < t.length := by
      by_contra hc
      apply hz
      rw [cellAt_of_le t p (Nat.le_of_not_lt hc)]
      rfl
    simp only [hz, if_false, cellAt_set, hp, and_true, ne_eq, not_false_eq_true]

theorem hash_clear_cell (t : List (DictCell T)) (p j : Nat) :
    (cellAt (clear_cell t p) j).hash = (cellAt t j).hash := by
  rw [cellAt_clear_cell]
  split
  · rename_i h; rw [h.1]
  · rfl

theorem cellAt_clear_cell_of_key (t : List (DictCell T)) (p j : Nat)
    (h : (cellAt (clear_cell t p) j).key ≠ []) :
    cellAt (clear_cell t p) j = cellAt t j := by
  rw [cellAt_clear_cell] at h ⊢
  split
  · rename_i hc; rw [if_pos hc] at h; exact absurd rfl h
  · rfl

theorem cellAt_clear_cell_ne (t : List (DictCell T)) (p j : Nat) (h : j ≠ p) :
    cellAt (clear_cell t p) j = cellAt t j := by
  rw [cellAt_clear_cell]; simp [h]

theorem copy_cells_length (fuel n : Nat) :
    ∀ (src dest r : List (DictCell T)), copy_cells fuel n src dest = .ok r →
      r.length = dest.length := by
  intro src
  induction src with
  | nil => intro dest r h; rw [copy_cells_nil] at h; injection h with h; rw [h]
  | cons c rest ih =>
    intro dest r h
    rcases copy_cells_cons_ok fuel n c rest dest r h with ⟨_, h2⟩ | ⟨_, _, p, _, h2⟩
    · exact ih dest r h2
    · rw [ih _ r h2, List.length_set]

/-- A property of cells that holds in the destination and of every copied cell
holds throughout the result of the copy. -/
theorem copy_cells_forall (P : DictCell T → Prop) (fuel n : Nat) :
    ∀ (src dest r : List (DictCell T)), copy_cells fuel n src dest = .ok r →
      (∀ c, c ∈ src → c.key ≠ [] → P c) → (∀ j, P (cellAt dest j)) → ∀ j, P (cellAt r j) := by
  intro src
  induction src with
  | nil => intro dest r h _ hd; rw [copy_cells_nil] at h; injection h with h; rw [← h]; exact hd
  | cons c rest ih =>
    intro dest r h hs hd
    have hrest : ∀ c2, c2 ∈ rest → c2.key ≠ [] → P c2 :=
      fun c2 hm => hs c2 (List.mem_cons_of_mem _ hm)
    rcases copy_cells_cons_ok fuel n c rest dest r h with ⟨_, h2⟩ | ⟨hk, _, p, _, h2⟩
    · exact ih dest r h2 hrest hd
    · refine ih _ r h2 hrest ?_
      intro j
      rw [cellAt_set]
      split
      · exact hs c (List.mem_cons_self _ _) hk
      · exact hd j

theorem change_size_fields (fuel : Nat) (d d1 : Dict T) (n : Nat)
    (h : change_size fuel d n = .ok d1) :
    d1.size = n ∧ d1.length = d.length ∧ d1.table.length = n := by
  obtain ⟨t, ht, rfl⟩ := change_size_ok fuel d d1 n h
  refine ⟨rfl, rfl, ?_⟩
  show t.length = n
  rw [copy_cells_length fuel n _ _ t ht]
  exact List.length_replicate _ _

theorem change_size_shape (fuel : Nat) (d d1 : Dict T) (n : Nat)
    (h : change_size fuel d n = .ok d1) : Shape d1 := by
  obtain ⟨h1, _, h3⟩ := change_size_fields fuel d d1 n h
  unfold Shape
  rw [h1, h3]

theorem nonZero_new_table (n : Nat) : NonZero (new_table n : List (DictCell T)) := by
  intro j hk
  rw [cellAt_new_table] at hk
  exact absurd rfl hk

theorem change_size_nonZero (fuel : Nat) (d d1 : Dict T) (n : Nat)
    (hnz : NonZero d.table) (h : change_size fuel d n = .ok d1) : NonZero d1.table := by
  obtain ⟨t, ht, rfl⟩ := change_size_ok fuel d d1 n h
  show NonZero t
  refine copy_cells_forall (fun c => c.key ≠ [] → c.hash ≠ 0) fuel n _ _ t ht ?_ ?_
  · intro c hc hk _
    obtain ⟨j, _, hj⟩ := cellAt_of_mem _ c hc
    have := hnz j
    rw [hj] at this
    exact this hk
  · exact nonZero_new_table n

theorem nonZero_set (t : List (DictCell T)) (p : Nat) (c : DictCell T)
    (hnz : NonZero t) (hc : c.hash ≠ 0) : NonZero (t.set p c) := by
  intro j hk
  rw [cellAt_set] at hk ⊢
  split
  · exact hc
  · rename_i hne; rw [if_neg hne] at hk; exact hnz j hk

theorem nonZero_clear_cell (t : List (DictCell T)) (p : Nat) (hnz : NonZero t) :
    NonZero (clear_cell t p) := by
  intro j hk
  have e := cellAt_clear_cell_of_key t p j hk
  rw [e] at hk ⊢
  exact hnz j hk

theorem insert_place_shape (fuel : Nat) (d d2 : Dict T) (key : Key) (value : T)
    (hs : Shape d) (h : insert_place fuel d key value = .ok d2) : Shape d2 := by
  obtain ⟨_, p, _, rfl⟩ := insert_place_ok fuel d d2 key value h
  unfold Shape at hs ⊢
  show d.size = (d.table.set p _).length
  rw [List.length_set]; exact hs

theorem insert_place_nonZero (fuel : Nat) (d d2 : Dict T) (key : Key) (value : T)
    (hnz : NonZero d.table) (hk : get_hash key ≠ 0)
    (h : insert_place fuel d key value = .ok d2) : NonZero d2.table := by
  obtain ⟨_, p, _, rfl⟩ := insert_place_ok fuel d d2 key value h
  exact nonZero_set _ _ _ hnz hk

theorem insert_shape (fuel : Nat) (d d2 : Dict T) (key : Key) (value : T)
    (hs : Shape d) (h : insert fuel d key value = .ok d2) : Shape d2 := by
  obtain ⟨d1, hp, hg | hg⟩ := insert_ok fuel d d2 key value h
  · exact insert_place_shape fuel d1 d2 key value (change_size_shape fuel d d1 _ hg.2) hp
  · rw [hg.2] at hp; exact insert_place_shape fuel d d2 key value hs hp

theorem insert_nonZero (fuel : Nat) (d d2 : Dict T) (key : Key) (value : T)
    (hnz : NonZero d.table) (hk : get_hash key ≠ 0)
    (h : insert fuel d key value = .ok d2) : NonZero d2.table := by
  obtain ⟨d1, hp, hg | hg⟩ := insert_ok fuel d d2 key value h
  · exact insert_place_nonZero fuel d1 d2 key value (change_size_nonZero fuel d d1 _ hnz hg.2) hk hp
  · rw [hg.2] at hp; exact insert_place_nonZero fuel d d2 key value hnz hk hp

theorem remove_shape (fuel : Nat) (d d2 : Dict T) (key : Key)
    (hs : Shape d) (h : remove fuel d key = .ok d2) : Shape d2 := by
  obtain ⟨_, p, _, hc | hc⟩ := remove_ok fuel d d2 key h
  · exact change_size_shape fuel _ d2 _ hc.2
  · rw [hc.2]
    unfold Shape at hs ⊢
    show d.size = (clear_cell d.table p).length
    rw [length_clear_cell]; exact hs

theorem remove_nonZero (fuel : Nat) (d d2 : Dict T) (key : Key)
    (hnz : NonZero d.table) (h : remove fuel d key = .ok d2) : NonZero d2.table := by
  obtain ⟨_, p, _, hc | hc⟩ := remove_ok fuel d d2 key h
  · exact change_size_nonZero fuel _ d2 _ (nonZero_clear_cell _ p hnz) hc.2
  · rw [hc.2]; exact nonZero_clear_cell _ p hnz

theorem shape_new_sized (n : Nat) : Shape (Dict.new_sized n : Dict T) := by
  unfold Shape Dict.new_sized new_table
  simp

theorem shape_new : Shape (Dict.new : Dict T) := shape_new_sized 8

theorem reachableFrom_shape (P : Key → Prop) (d0 d : Dict T) (h0 : Shape d0)
    (h : ReachableFrom P d0 d) : Shape d := by
  induction h with
  | init => exact h0
  | insert fuel d d2 key value _ _ hi ih => exact insert_shape fuel d d2 key value ih hi
  | remove fuel d d2 key _ _ hr ih => exact remove_shape fuel d d2 key ih hr

theorem reachableFrom_nonZero (P : Key → Prop) (hP : ∀ k, P k → get_hash k ≠ 0)
    (d0 d : Dict T) (h0 : NonZero d0.table) (h : ReachableFrom P d0 d) : NonZero d.table := by
  induction h with
  | init => exact h0
  | insert fuel d d2 key value _ hk hi ih =>
    exact insert_nonZero fuel d d2 key value ih (hP key hk) hi
  | remove fuel d d2 key _ _ hr ih => exact remove_nonZero fuel d d2 key ih hr

/-! ## Looking up the key just inserted -/

omit [Inhabited T] in
theorem stop_insert_false {h : Nat} {c : DictCell T} (hs : stop_insert h c = false) :
    c.hash ≠ h ∧ c.key ≠ [] := by
  unfold stop_insert at hs
  simp only [Bool.or_eq_false_iff, beq_eq_false_iff_ne, ne_eq] at hs
  exact ⟨hs.1, fun hk => hs.2 (by rw [hk]; rfl)⟩

omit [Inhabited T] in
theorem stop_lookup_false_iff {h : Nat} {c : DictCell T} :
    stop_lookup h c = false ↔ c.hash ≠ 0 ∧ c.hash ≠ h := by
  unfold stop_lookup
  simp only [Bool.or_eq_false_iff, beq_eq_false_iff_ne, ne_eq]

/-- After the probe-and-write part of `insert` the key is found by `get`. -/
theorem get_insert_place (fuel : Nat) (d d2 : Dict T) (key : Key) (value : T)
    (hs : Shape d) (hnz : NonZero d.table) (hk : key ≠ []) (hh : get_hash key ≠ 0)
    (h : insert_place fuel d key value = .ok d2) : get fuel d2 key = .ok value := by
  obtain ⟨hz, p, hp, rfl⟩ := insert_place_ok fuel d d2 key value h
  have hlt : p < d.table.length := by
    rw [← hs]
    exact probe_ok_lt _ _ _ _ _ _ hp (Nat.mod_lt _ (Nat.pos_of_ne_zero hz))
  have hstop := probe_ok_stop _ _ _ _ _ _ hp
  have hp2 : probe (stop_lookup (get_hash key)) (d.table.set p ⟨get_hash key, key, value⟩)
      d.size fuel (get_hash key % d.size) = .ok p := by
    refine probe_transfer _ _ _ _ _ p ?_ ?_ fuel _ hp
    · rw [cellAt_set_self _ _ _ hlt]
      simp [stop_lookup]
    · intro j hj
      have hjp : j ≠ p := by
        intro e; rw [e, hstop] at hj; cases hj
      rw [cellAt_set_ne _ _ _ _ hjp, stop_lookup_false_iff]
      obtain ⟨h1, h2⟩ := stop_insert_false hj
      exact ⟨hnz j h2, h1⟩
  rw [get_of_probe fuel ⟨_, d.size, d.table.set p ⟨get_hash key, key, value⟩⟩ key p hz hp2]
  show (if (cellAt (d.table.set p _) p).hash = 0 then _ else _) = _
  rw [cellAt_set_self _ _ _ hlt]
  have hkl : ¬ key.length = 0 := fun hl => hk (List.length_eq_zero.mp hl)
  simp [hh, hkl]

/-- After `insert` returns, `get` of the same key returns the inserted value,
for a non-empty key of non-zero hash on a table whose stored keys have
non-zero hashes. -/
theorem get_insert (fuel : Nat) (d d2 : Dict T) (key : Key) (value : T)
    (hs : Shape d) (hnz : NonZero d.table) (hk : key ≠ []) (hh : get_hash key ≠ 0)
    (h : insert fuel d key value = .ok d2) : get fuel d2 key = .ok value := by
  obtain ⟨d1, hp, hg | hg⟩ := insert_ok fuel d d2 key value h
  · exact get_insert_place fuel d1 d2 key value (change_size_shape fuel d d1 _ hg.2)
      (change_size_nonZero fuel d d1 _ hnz hg.2) hk hh hp
  · rw [hg.2] at hp
    exact get_insert_place fuel d d2 key value hs hnz hk hh hp

/-! ## Counting the cells that hold a key -/

omit [Inhabited T] in
theorem is_live_iff (c : DictCell T) : is_live c = true ↔ c.key ≠ [] := by
  unfold is_live
  simp [List.length_eq_zero]

omit [Inhabited T] in
theorem is_live_false_iff (c : DictCell T) : is_live c = false ↔ c.key = [] := by
  unfold is_live
  simp [List.length_eq_zero]

omit [Inhabited T] in
theorem live_count_le (t : List (DictCell T)) : live_count t ≤ t.length :=
  List.countP_le_length _

omit [Inhabited T] in
theorem live_count_cons (c : DictCell T) (t : List (DictCell T)) :
    live_count (c :: t) = live_count t + if c.key = [] then 0 else 1 := by
  unfold live_count
  rw [List.countP_cons]
  by_cases hk : c.key = []
  · simp [hk, (is_live_false_iff c).mpr hk]
  · simp [hk, (is_live_iff c).mpr hk]

theorem live_count_new_table (n : Nat) : live_count (new_table n : List (DictCell T)) = 0 := by
  unfold live_count new_table
  rw [List.countP_replicate]
  simp [is_live, DictCell.empty]

theorem cellAt_eq_getElem (t : List (DictCell T)) (p : Nat) (hp : p < t.length) :
    cellAt t p = t[p] := by
  rw [cellAt_eq, List.getElem?_eq_getElem hp]
  rfl

theorem live_count_set (t : List (DictCell T)) (p : Nat) (c : DictCell T) (hp : p < t.length) :
    live_count (t.set p c) =
      live_count t - (if (cellAt t p).key = [] then 0 else 1) + (if c.key = [] then 0 else 1) := by
  unfold live_count
  rw [List.countP_set _ _ _ _ hp, cellAt_eq_getElem t p hp]
  by_cases h1 : t[p].key = [] <;> by_cases h2 : c.key = [] <;>
    simp [h1, h2, is_live]

/-- A table with fewer keys than cells has a cell without a key. -/
theorem exists_free (t : List (DictCell T)) (h : live_count t < t.length) :
    ∃ j, j < t.length ∧ (cellAt t j).key = [] := by
  by_contra hc
  have hall : ∀ a ∈ t, is_live a = true := by
    intro a ha
    obtain ⟨j, hj, rfl⟩ := cellAt_of_mem t a ha
    rw [is_live_iff]
    intro hk
    exact hc ⟨j, hj, hk⟩
  have := List.countP_eq_length.mpr hall
  unfold live_count at h
  omega

theorem live_count_clear_cell (t : List (DictCell T)) (p : Nat) :
    live_count (clear_cell t p) =
      live_count t - (if (cellAt t p).hash = 0 ∨ (cellAt t p).key = [] then 0 else 1) := by
  unfold clear_cell
  by_cases hz : (cellAt t p).hash = 0
  · simp [hz]
  · have hp : p < t.length := by
      by_contra hc
      apply hz
      rw [cellAt_of_le t p (Nat.le_of_not_lt hc)]
      rfl
    simp only [hz, if_false, false_or]
    rw [live_count_set t p _ hp]
    simp

theorem live_count_pos_of_key (t : List (DictCell T)) (j : Nat) (h : (cellAt t j).key ≠ []) :
    0 < live_count t := by
  have hj := lt_of_key_ne t j h
  unfold live_count
  rw [List.countP_pos_iff]
  exact ⟨cellAt t j, cellAt_mem t j hj, (is_live_iff _).mpr h⟩

/-! ## Probe chains -/

theorem finds_of_hash_eq (t t2 : List (DictCell T)) (size j : Nat)
    (hh : ∀ x, (cellAt t2 x).hash = (cellAt t x).hash) (h : Finds t size j) :
    Finds t2 size j := by
  obtain ⟨fuel, hf⟩ := h
  refine ⟨fuel, ?_⟩
  rw [hh j]
  refine probe_transfer _ _ t t2 size j ?_ ?_ fuel _ hf
  · have := probe_ok_stop _ _ _ _ _ _ hf
    unfold stop_lookup at this ⊢
    rw [hh j]; exact this
  · intro x hx
    unfold stop_lookup at hx ⊢
    rw [hh x]; exact hx

theorem finds_set (t : List (DictCell T)) (size j p : Nat) (c : DictCell T)
    (h : Finds t size j) (hjp : j ≠ p) (hc0 : c.hash ≠ 0) (hcj : c.hash ≠ (cellAt t j).hash) :
    Finds (t.set p c) size j := by
  obtain ⟨fuel, hf⟩ := h
  refine ⟨fuel, ?_⟩
  rw [cellAt_set_ne _ _ _ _ hjp]
  refine probe_transfer _ _ t (t.set p c) size j ?_ ?_ fuel _ hf
  · rw [cellAt_set_ne _ _ _ _ hjp]
    simp [stop_lookup]
  · intro x hx
    rw [cellAt_set]
    split
    · rw [stop_lookup_false_iff]; exact ⟨hc0, hcj⟩
    · exact hx

/-- The cell written where a probe for a free or matching cell stopped is found by
the lookup loop. -/
theorem finds_written (stop : DictCell T → Bool) (t : List (DictCell T)) (size fuel p : Nat)
    (c : DictCell T) (hp : probe stop t size fuel (c.hash % size) = .ok p) (hlt : p < t.length)
    (hstep : ∀ x, stop (cellAt t x) = false → (cellAt t x).hash ≠ 0 ∧ (cellAt t x).hash ≠ c.hash) :
    Finds (t.set p c) size p := by
  refine ⟨fuel, ?_⟩
  rw [cellAt_set_self _ _ _ hlt]
  have hstop := probe_ok_stop _ _ _ _ _ _ hp
  refine probe_transfer _ _ t (t.set p c) size p ?_ ?_ fuel _ hp
  · rw [cellAt_set_self _ _ _ hlt]
    simp [stop_lookup]
  · intro x hx
    have hxp : x ≠ p := by
      intro e; rw [e, hstop] at hx; cases hx
    rw [cellAt_set_ne _ _ _ _ hxp, stop_lookup_false_iff]
    exact hstep x hx

omit [Inhabited T] in
theorem stop_copy_false {c : DictCell T} (hs : stop_copy c = false) : c.key ≠ [] := by
  unfold stop_copy at hs
  intro hk
  rw [hk] at hs
  cases hs

omit [Inhabited T] in
theorem stop_copy_true {c : DictCell T} (hs : stop_copy c = true) : c.key = [] := by
  unfold stop_copy at hs
  exact List.length_eq_zero.mp (by simpa using hs)

/-- Under the invariant `get` returns the value of a stored key. -/
theorem get_of_cell (fuel : Nat) (d : Dict T) (key : Key) (value : T) (j : Nat)
    (hinv : Inv d) (hj : cellAt d.table j = ⟨get_hash key, key, value⟩) (hk : key ≠ [])
    (hfuel : d.size ≤ fuel) : get fuel d key = .ok value := by
  have hkj : (cellAt d.table j).key ≠ [] := by rw [hj]; exact hk
  obtain ⟨f0, hf⟩ := hinv.finds j hkj
  have hz : d.size ≠ 0 := Nat.pos_iff_ne_zero.mp hinv.size_pos
  have hnz := hinv.nonZero j hkj
  rw [hj] at hf hnz
  have hp := probe_ok_of_size_le _ _ _ f0 fuel _ j hf (Nat.mod_lt _ hinv.size_pos) hfuel
  rw [get_of_probe fuel d key j hz hp, hj]
  have hkl : ¬ key.length = 0 := fun hl => hk (List.length_eq_zero.mp hl)
  simp only [hkl, if_false]
  rw [if_neg hnz]

theorem get_of_stored (fuel : Nat) (d : Dict T) (key : Key) (value : T)
    (hinv : Inv d) (hst : Stored d key value) (hk : key ≠ [])
    (hfuel : d.size ≤ fuel) : get fuel d key = .ok value := by
  obtain ⟨j, _, hj⟩ := cellAt_of_mem _ _ hst
  exact get_of_cell fuel d key value j hinv hj hk hfuel

/-! ## Resizing rebuilds the invariant -/

theorem mem_set_iff_of_free (t : List (DictCell T)) (p : Nat) (c c2 : DictCell T)
    (hp : p < t.length) (hfree : (cellAt t p).key = []) (hk : c2.key ≠ []) :
    c2 ∈ t.set p c ↔ c2 = c ∨ c2 ∈ t := by
  constructor
  · intro h
    obtain ⟨j, hj, hc⟩ := cellAt_of_mem _ _ h
    rw [List.length_set] at hj
    by_cases hjp : j = p
    · subst hjp
      rw [cellAt_set_self _ _ _ hp] at hc
      exact Or.inl hc.symm
    · rw [cellAt_set_ne _ _ _ _ hjp] at hc
      right; rw [← hc]; exact cellAt_mem t j hj
  · rintro (h | h)
    · have hm := cellAt_mem (t.set p c) p (by rw [List.length_set]; exact hp)
      rw [cellAt_set_self _ _ _ hp] at hm
      rw [h]; exact hm
    · obtain ⟨j, hj, hc⟩ := cellAt_of_mem _ _ h
      have hjp : j ≠ p := by
        intro e; rw [e, ] at hc; rw [hc] at hfree; exact hk hfree
      rw [← hc, ← cellAt_set_ne t p j c hjp]
      exact cellAt_mem _ j (by rw [List.length_set]; exact hj)

theorem distinct_set (t : List (DictCell T)) (p : Nat) (c : DictCell T) (hd : Distinct t)
    (hnew : ∀ j, j ≠ p → (cellAt t j).key ≠ [] → (cellAt t j).hash ≠ c.hash) :
    Distinct (t.set p c) := by
  by_cases hpl : p < t.length
  · have key : ∀ x, cellAt (t.set p c) x = if x = p then c else cellAt t x := by
      intro x; rw [cellAt_set]; simp [hpl]
    intro i j hi hj hij
    rw [key] at hi hj hij
    rw [key] at hij
    by_cases hip : i = p <;> by_cases hjp : j = p
    · rw [hip, hjp]
    · exfalso
      simp only [hip, hjp, if_true, if_false] at hi hj hij
      exact hnew j hjp hj hij.symm
    · exfalso
      simp only [hip, hjp, if_true, if_false] at hi hj hij
      exact hnew i hip hi hij
    · simp only [hip, hjp, if_false] at hi hj hij
      exact hd i j hi hj hij
  · have key : ∀ x, cellAt (t.set p c) x = cellAt t x := by
      intro x; rw [cellAt_set]; simp [hpl]
    intro i j hi hj hij
    rw [key] at hi hj hij
    rw [key] at hij
    exact hd i j hi hj hij

/-- Copying cells of pairwise distinct non-zero hashes into a table that has room
for them returns, and the result satisfies the table part of the invariant and
holds the keys of both tables. -/
theorem copy_cells_inv (fuel n : Nat) (hn : 0 < n) (hfuel : n ≤ fuel) :
    ∀ (src dest : List (DictCell T)), dest.length = n → NonZero dest →
      (∀ j, (cellAt dest j).key ≠ [] → Finds dest n j) → Distinct dest →
      (∀ c, c ∈ src → c.key ≠ [] → c.hash ≠ 0) → DistinctList src →
      (∀ c, c ∈ src → c.key ≠ [] → ∀ j, (cellAt dest j).key ≠ [] →
        (cellAt dest j).hash ≠ c.hash) →
      live_count dest + live_count src ≤ n →
      ∃ r, copy_cells fuel n src dest = .ok r ∧ r.length = n ∧ NonZero r ∧
        (∀ j, (cellAt r j).key ≠ [] → Finds r n j) ∧ Distinct r ∧
        live_count r = live_count dest + live_count src ∧
        ∀ c, c.key ≠ [] → (c ∈ r ↔ c ∈ dest ∨ c ∈ src) := by
  intro src
  induction src with
  | nil =>
    intro dest hlen hnz hf hd _ _ _ _
    refine ⟨dest, rfl, hlen, hnz, hf, hd, ?_, ?_⟩
    · simp [live_count]
    · intro c _; simp
  | cons c rest ih =>
    intro dest hlen hnz hf hd hs0 hdl hdisj hcount
    have hrest0 : ∀ c2, c2 ∈ rest → c2.key ≠ [] → c2.hash ≠ 0 :=
      fun c2 hm => hs0 c2 (List.mem_cons_of_mem _ hm)
    have hpw := List.pairwise_cons.mp hdl
    by_cases hk : c.key = []
    · rw [copy_cells_cons_skip fuel n c rest dest hk]
      have hlc : live_count (c :: rest) = live_count rest := by
        rw [live_count_cons]; simp [hk]
      obtain ⟨r, hr, h1, h2, h3, h4, h5, h6⟩ := ih dest hlen hnz hf hd hrest0 hpw.2
        (fun c2 hm => hdisj c2 (List.mem_cons_of_mem _ hm)) (by omega)
      refine ⟨r, hr, h1, h2, h3, h4, by omega, ?_⟩
      intro c2 hk2
      rw [h6 c2 hk2, List.mem_cons]
      constructor
      · rintro (h | h)
        · exact Or.inl h
        · exact Or.inr (Or.inr h)
      · rintro (h | h | h)
        · exact Or.inl h
        · rw [h] at hk2; exact absurd hk hk2
        · exact Or.inr h
    · have hlc : live_count (c :: rest) = live_count rest + 1 := by
        rw [live_count_cons]; simp [hk]
      have hc0 : c.hash ≠ 0 := hs0 c (List.mem_cons_self _ _) hk
      obtain ⟨j0, hj0, hk0⟩ := exists_free dest (by omega)
      obtain ⟨p, hp⟩ := probe_terminates stop_copy dest n fuel (c.hash % n) j0
        (by omega) (by simp [stop_copy, hk0]) (Nat.mod_lt _ hn) hfuel
      have hpn : p < dest.length := by
        rw [hlen]; exact probe_ok_lt _ _ _ _ _ _ hp (Nat.mod_lt _ hn)
      have hpk : (cellAt dest p).key = [] := stop_copy_true (probe_ok_stop _ _ _ _ _ _ hp)
      rw [copy_cells_cons_place fuel n c rest dest p hk (Nat.pos_iff_ne_zero.mp hn) hp]
      have hdc := hdisj c (List.mem_cons_self _ _) hk
      obtain ⟨r, hr, h1, h2, h3, h4, h5, h6⟩ := ih (dest.set p c)
        (by rw [List.length_set]; exact hlen)
        (nonZero_set dest p c hnz hc0)
        (by
          intro j hkj
          by_cases hjp : j = p
          · rw [hjp]
            exact finds_written stop_copy dest n fuel p c hp hpn
              (fun x hx => ⟨hnz x (stop_copy_false hx), hdc x (stop_copy_false hx)⟩)
          · rw [cellAt_set_ne _ _ _ _ hjp] at hkj
            exact finds_set dest n j p c (hf j hkj) hjp hc0 (Ne.symm (hdc j hkj)))
        (distinct_set dest p c hd (fun j _ hkj => hdc j hkj))
        hrest0 hpw.2
        (by
          intro c2 hm hk2 j hkj
          by_cases hjp : j = p
          · rw [hjp, cellAt_set_self _ _ _ hpn]
            exact hpw.1 c2 hm hk hk2
          · rw [cellAt_set_ne _ _ _ _ hjp] at hkj ⊢
            exact hdisj c2 (List.mem_cons_of_mem _ hm) hk2 j hkj)
        (by
          rw [live_count_set dest p c hpn]
          simp only [hpk, hk, if_true, if_false]
          omega)
      have hls : live_count (dest.set p c) = live_count dest + 1 := by
        rw [live_count_set dest p c hpn]
        simp only [hpk, hk, if_true, if_false]
        omega
      refine ⟨r, hr, h1, h2, h3, h4, by omega, ?_⟩
      intro c2 hk2
      rw [h6 c2 hk2, mem_set_iff_of_free dest p c c2 hpn hpk hk2, List.mem_cons]
      constructor
      · rintro ((h | h) | h)
        · exact Or.inr (Or.inl h)
        · exact Or.inl h
        · exact Or.inr (Or.inr h)
      · rintro (h | h | h)
        · exact Or.inl (Or.inr h)
        · exact Or.inl (Or.inl h)
        · exact Or.inr h

theorem distinctList_of_distinct (t : List (DictCell T)) (hd : Distinct t) : DistinctList t := by
  unfold DistinctList
  rw [List.pairwise_iff_getElem]
  intro i j hi hj hij ki kj he
  rw [← cellAt_eq_getElem t i hi] at ki he
  rw [← cellAt_eq_getElem t j hj] at kj he
  have := hd i j ki kj he
  omega

/-- The method `change_size` returns and re-establishes the invariant when the new
size has room for the stored keys. -/
theorem change_size_inv (fuel : Nat) (d : Dict T) (n : Nat)
    (hnz : NonZero d.table) (hd : Distinct d.table) (hlen : d.length = live_count d.table)
    (hn : 0 < n) (hn32 : n < 2 ^ 32) (hfuel : n ≤ fuel) (hroom : live_count d.table ≤ n) :
    ∃ d1, change_size fuel d n = .ok d1 ∧ Inv d1 ∧ d1.size = n ∧ d1.length = d.length ∧
      ∀ c, c.key ≠ [] → (c ∈ d1.table ↔ c ∈ d.table) := by
  obtain ⟨r, hr, h1, h2, h3, h4, h5, h6⟩ := copy_cells_inv fuel n hn hfuel d.table (new_table n)
    (List.length_replicate _ _) (nonZero_new_table n)
    (by intro j hk; rw [cellAt_new_table] at hk; exact absurd rfl hk)
    (by intro i j hk; rw [cellAt_new_table] at hk; exact absurd rfl hk)
    (by
      intro c hc hk
      obtain ⟨j, _, hj⟩ := cellAt_of_mem _ c hc
      have := hnz j
      rw [hj] at this
      exact this hk)
    (distinctList_of_distinct _ hd)
    (by intro c _ _ j hk; rw [cellAt_new_table] at hk; exact absurd rfl hk)
    (by rw [live_count_new_table]; omega)
  refine ⟨⟨d.length, n, r⟩, change_size_of_copy fuel d n r hr, ?_, rfl, rfl, ?_⟩
  · refine ⟨?_, hn, hn32, h2, h3, h4, ?_⟩
    · unfold Shape; exact h1.symm
    · show d.length = live_count r
      rw [h5, live_count_new_table, hlen]; omega
  · intro c hk
    show c ∈ r ↔ _
    rw [h6 c hk]
    constructor
    · rintro (h | h)
      · exfalso
        obtain ⟨j, _, hj⟩ := cellAt_of_mem _ c h
        rw [cellAt_new_table] at hj
        rw [← hj] at hk
        exact hk rfl
      · exact h
    · exact Or.inr

/-! ## The invariant under `insert` and `remove` -/

omit [Inhabited T] in
theorem stop_insert_true {h : Nat} {c : DictCell T} (hs : stop_insert h c = true) :
    c.hash = h ∨ c.key = [] := by
  unfold stop_insert at hs
  simp only [Bool.or_eq_true, beq_iff_eq] at hs
  rcases hs with h1 | h2
  · exact Or.inl h1
  · exact Or.inr (List.length_eq_zero.mp h2)

/-- The probe-and-write part of `insert` returns and keeps the invariant when the
key is not stored and the table has a cell without a key. -/
theorem insert_place_inv (fuel : Nat) (d : Dict T) (key : Key) (value : T)
    (hinv : Inv d) (hk : key ≠ []) (hh : get_hash key ≠ 0)
    (hfresh : ∀ j, (cellAt d.table j).key ≠ [] → (cellAt d.table j).hash ≠ get_hash key)
    (hroom : live_count d.table < d.size) (hfuel : d.size ≤ fuel) :
    ∃ d2, insert_place fuel d key value = .ok d2 ∧ Inv d2 ∧ d2.size = d.size ∧
      d2.length = d.length + 1 ∧
      ∀ c, c.key ≠ [] → (c ∈ d2.table ↔ c = ⟨get_hash key, key, value⟩ ∨ c ∈ d.table) := by
  have hshape : d.size = d.table.length := hinv.shape
  obtain ⟨j0, hj0, hk0⟩ := exists_free d.table (by omega)
  obtain ⟨p, hp⟩ := probe_terminates (stop_insert (get_hash key)) d.table d.size fuel
    (get_hash key % d.size) j0 (by omega) (by simp [stop_insert, hk0])
    (Nat.mod_lt _ hinv.size_pos) hfuel
  have hpn : p < d.table.length := by
    rw [← hshape]; exact probe_ok_lt _ _ _ _ _ _ hp (Nat.mod_lt _ hinv.size_pos)
  have hpk : (cellAt d.table p).key = [] := by
    rcases stop_insert_true (probe_ok_stop _ _ _ _ _ _ hp) with h1 | h2
    · by_contra hne
      exact hfresh p hne h1
    · exact h2
  have hls : live_count (d.table.set p ⟨get_hash key, key, value⟩) = live_count d.table + 1 := by
    rw [live_count_set d.table p _ hpn]
    simp only [hpk, hk, if_true, if_false]
    omega
  have hlen := hinv.length_eq
  have hlt := hinv.size_lt
  refine ⟨⟨(d.length + 1) % 2 ^ 32, d.size, d.table.set p ⟨get_hash key, key, value⟩⟩,
    insert_place_of_probe fuel d key value p (Nat.pos_iff_ne_zero.mp hinv.size_pos) hp,
    ?_, rfl, ?_, ?_⟩
  · refine ⟨?_, hinv.size_pos, hinv.size_lt, nonZero_set _ _ _ hinv.nonZero hh, ?_, ?_, ?_⟩
    · show d.size = (d.table.set p _).length
      rw [List.length_set]; exact hshape
    · intro j hkj
      show Finds (d.table.set p _) d.size j
      by_cases hjp : j = p
      · rw [hjp]
        exact finds_written (stop_insert (get_hash key)) d.table d.size fuel p
          ⟨get_hash key, key, value⟩ hp hpn
          (fun x hx => ⟨hinv.nonZero x (stop_insert_false hx).2, (stop_insert_false hx).1⟩)
      · have hkj2 : (cellAt d.table j).key ≠ [] := by
          have e : cellAt (d.table.set p ⟨get_hash key, key, value⟩) j = cellAt d.table j :=
            cellAt_set_ne _ _ _ _ hjp
          rw [← e]; exact hkj
        exact finds_set d.table d.size j p _ (hinv.finds j hkj2) hjp hh
          (Ne.symm (hfresh j hkj2))
    · exact distinct_set d.table p _ hinv.distinct (fun j _ hkj => hfresh j hkj)
    · show (d.length + 1) % 2 ^ 32 = live_count (d.table.set p _)
      rw [hls, Nat.mod_eq_of_lt (by omega)]
      omega
  · show (d.length + 1) % 2 ^ 32 = d.length + 1
    exact Nat.mod_eq_of_lt (by omega)
  · intro c hc
    exact mem_set_iff_of_free d.table p _ c hpn hpk hc

/-- The method `insert` returns and keeps the invariant when the key is not stored
and the products `3*size` and `size*2` fit in 32 bits. -/
theorem insert_inv (fuel : Nat) (d : Dict T) (key : Key) (value : T)
    (hinv : Inv d) (hk : key ≠ []) (hh : get_hash key ≠ 0)
    (hfresh : ∀ j, (cellAt d.table j).key ≠ [] → (cellAt d.table j).hash ≠ get_hash key)
    (hsz : 3 * d.size < 2 ^ 32) (hfuel : 2 * d.size ≤ fuel) :
    ∃ d2, insert fuel d key value = .ok d2 ∧ Inv d2 ∧
      d2.size = (if d.length ≥ 3 * d.size / 4 then 2 * d.size else d.size) ∧
      d2.length = d.length + 1 ∧
      ∀ c, c.key ≠ [] → (c ∈ d2.table ↔ c = ⟨get_hash key, key, value⟩ ∨ c ∈ d.table) := by
  have hshape : d.size = d.table.length := hinv.shape
  have hle := live_count_le d.table
  have hlen := hinv.length_eq
  have hpos := hinv.size_pos
  have h3 : (3 * d.size) % 2 ^ 32 = 3 * d.size := Nat.mod_eq_of_lt hsz
  have h2 : (d.size * 2) % 2 ^ 32 = 2 * d.size := by
    rw [Nat.mod_eq_of_lt (by omega)]; omega
  by_cases hg : d.length ≥ 3 * d.size / 4
  · obtain ⟨d1, hc, hinv1, hs1, hl1, hm1⟩ := change_size_inv fuel d (2 * d.size)
      hinv.nonZero hinv.distinct hinv.length_eq (by omega) (by omega) hfuel (by omega)
    have hfresh1 : ∀ j, (cellAt d1.table j).key ≠ [] →
        (cellAt d1.table j).hash ≠ get_hash key := by
      intro j hkj
      have hj := lt_of_key_ne _ j hkj
      have hmem := (hm1 _ hkj).mp (cellAt_mem d1.table j hj)
      obtain ⟨i, _, hi⟩ := cellAt_of_mem _ _ hmem
      rw [← hi] at hkj ⊢
      exact hfresh i hkj
    have hlc1 : live_count d1.table = live_count d.table := by
      rw [← hinv1.length_eq, hl1, hlen]
    obtain ⟨d2, hp, hinv2, hs2, hl2, hm2⟩ := insert_place_inv fuel d1 key value hinv1 hk hh
      hfresh1 (by rw [hlc1, hs1]; omega) (by rw [hs1]; exact hfuel)
    refine ⟨d2, ?_, hinv2, ?_, ?_, ?_⟩
    · rw [insert_of_grow fuel d d1 key value (by rw [h3]; exact hg) (by rw [h2]; exact hc)]
      exact hp
    · rw [hs2, hs1, if_pos hg]
    · rw [hl2, hl1]
    · intro c hc
      rw [hm2 c hc, hm1 c hc]
  · obtain ⟨d2, hp, hinv2, hs2, hl2, hm2⟩ := insert_place_inv fuel d key value hinv hk hh
      hfresh (by omega) (by omega)
    refine ⟨d2, ?_, hinv2, ?_, hl2, hm2⟩
    · rw [insert_of_no_grow fuel d key value (by rw [h3]; exact hg)]
      exact hp
    · rw [hs2, if_neg hg]

/-- The method `remove` of a stored key returns and keeps the invariant; the keys
left are those of other hashes. -/
theorem remove_inv (fuel : Nat) (d : Dict T) (key : Key) (value : T)
    (hinv : Inv d) (hst : Stored d key value) (hk : key ≠ []) (hfuel : d.size ≤ fuel) :
    ∃ d2, remove fuel d key = .ok d2 ∧ Inv d2 ∧ d2.length + 1 = d.length ∧
      d2.size ≤ d.size ∧
      ∀ c, c.key ≠ [] → (c ∈ d2.table ↔ c ∈ d.table ∧ c.hash ≠ get_hash key) := by
  obtain ⟨j, hjlt, hj⟩ := cellAt_of_mem _ _ hst
  have hkj : (cellAt d.table j).key ≠ [] := by rw [hj]; exact hk
  have hhj : (cellAt d.table j).hash = get_hash key := by rw [hj]
  have hnzj : (cellAt d.table j).hash ≠ 0 := hinv.nonZero j hkj
  obtain ⟨f0, hf⟩ := hinv.finds j hkj
  rw [hhj] at hf
  have hp := probe_ok_of_size_le _ _ _ f0 fuel _ j hf (Nat.mod_lt _ hinv.size_pos) hfuel
  have hz : d.size ≠ 0 := Nat.pos_iff_ne_zero.mp hinv.size_pos
  have hshape : d.size = d.table.length := hinv.shape
  have hlen := hinv.length_eq
  have hlt := hinv.size_lt
  have hle := live_count_le d.table
  have hpos := live_count_pos_of_key d.table j hkj
  have hdec : (d.length + (2 ^ 32 - 1)) % 2 ^ 32 = d.length - 1 := by
    rw [show d.length + (2 ^ 32 - 1) = (d.length - 1) + 2 ^ 32 by omega, Nat.add_mod_right,
      Nat.mod_eq_of_lt (by omega)]
  have hlc : live_count (clear_cell d.table j) = live_count d.table - 1 := by
    rw [live_count_clear_cell]
    simp [hnzj, hkj]
  have hnz2 : NonZero (clear_cell d.table j) := nonZero_clear_cell _ j hinv.nonZero
  have hdist2 : Distinct (clear_cell d.table j) := by
    intro a b ha hb hab
    have ea := cellAt_clear_cell_of_key d.table j a ha
    have eb := cellAt_clear_cell_of_key d.table j b hb
    rw [ea] at ha hab
    rw [eb] at hb hab
    exact hinv.distinct a b ha hb hab
  have hfinds2 : ∀ x, (cellAt (clear_cell d.table j) x).key ≠ [] →
      Finds (clear_cell d.table j) d.size x := by
    intro x hx
    have ex := cellAt_clear_cell_of_key d.table j x hx
    rw [ex] at hx
    exact finds_of_hash_eq d.table _ d.size x (hash_clear_cell d.table j) (hinv.finds x hx)
  have hmem2 : ∀ c : DictCell T, c.key ≠ [] →
      (c ∈ clear_cell d.table j ↔ c ∈ d.table ∧ c.hash ≠ get_hash key) := by
    intro c hc
    constructor
    · intro h
      obtain ⟨x, hx, hcx⟩ := cellAt_of_mem _ _ h
      rw [length_clear_cell] at hx
      have hxk : (cellAt (clear_cell d.table j) x).key ≠ [] := by rw [hcx]; exact hc
      have ex := cellAt_clear_cell_of_key d.table j x hxk
      rw [ex] at hcx hxk
      refine ⟨by rw [← hcx]; exact cellAt_mem _ x hx, ?_⟩
      intro hch
      have hxj : x = j := hinv.distinct x j hxk hkj (by rw [hcx, hch, hhj])
      rw [hxj, cellAt_clear_cell] at ex
      simp only [hnzj, ne_eq, not_false_eq_true, and_self, if_true] at ex
      rw [← ex] at hkj
      exact hkj rfl
    · rintro ⟨h, hne⟩
      obtain ⟨x, hx, hcx⟩ := cellAt_of_mem _ _ h
      have hxj : x ≠ j := by
        intro e; rw [e, hj] at hcx; rw [← hcx] at hne; exact hne rfl
      rw [← hcx, ← cellAt_clear_cell_ne d.table j x hxj]
      exact cellAt_mem _ x (by rw [length_clear_cell]; exact hx)
  rw [remove_of_probe fuel d key j hz hp, hdec]
  by_cases hc : d.length - 1 ≤ d.size / 8 ∧ d.size > default_size
  · rw [if_pos hc]
    have h8 : 8 < d.size := hc.2
    obtain ⟨d2, hcs, hinv2, hs2, hl2, hm2⟩ := change_size_inv fuel
      ⟨d.length - 1, d.size, clear_cell d.table j⟩ (d.size / 2) hnz2 hdist2
      (by show d.length - 1 = _; rw [hlc, hlen]) (by omega) (by omega) (by omega)
      (by show live_count (clear_cell d.table j) ≤ _; rw [hlc]; omega)
    refine ⟨d2, hcs, hinv2, ?_, ?_, ?_⟩
    · rw [hl2]; show d.length - 1 + 1 = d.length; omega
    · rw [hs2]; omega
    · intro c hck
      rw [hm2 c hck]
      exact hmem2 c hck
  · rw [if_neg hc]
    refine ⟨_, rfl, ⟨?_, hinv.size_pos, hinv.size_lt, hnz2, hfinds2, hdist2, ?_⟩, ?_, ?_, hmem2⟩
    · show d.size = (clear_cell d.table j).length
      rw [length_clear_cell]; exact hshape
    · show d.length - 1 = live_count (clear_cell d.table j)
      rw [hlc, hlen]
    · show d.length - 1 + 1 = d.length; omega
    · exact Nat.le_refl _

/-! ## Sequences of calls -/

theorem run_ops_nil (fuel : Nat) (d : Dict T) : run_ops fuel d [] = .ok d := rfl

theorem run_ops_cons_ok (fuel : Nat) (d d1 : Dict T) (op : Op T) (ops : List (Op T))
    (h : op.run fuel d = .ok d1) : run_ops fuel d (op :: ops) = run_ops fuel d1 ops := by
  conv => lhs; unfold run_ops
  rw [h]

theorem run_ops_append (fuel : Nat) (ops1 ops2 : List (Op T)) :
    ∀ (d d1 : Dict T), run_ops fuel d ops1 = .ok d1 →
      run_ops fuel d (ops1 ++ ops2) = run_ops fuel d1 ops2 := by
  induction ops1 with
  | nil => intro d d1 h; rw [run_ops_nil] at h; injection h with h; rw [h]; rfl
  | cons op ops ih =>
    intro d d1 h
    cases hr : op.run fuel d with
    | error e =>
      unfold run_ops at h
      rw [hr] at h
      simp at h
    | ok dm =>
      rw [run_ops_cons_ok fuel d dm op ops hr] at h
      rw [List.cons_append, run_ops_cons_ok fuel d dm op _ hr]
      exact ih dm d1 h

theorem inv_new : Inv (Dict.new : Dict T) := by
  refine ⟨shape_new, (show 0 < 8 by decide), (show 8 < 2 ^ 32 by decide),
    nonZero_new_table 8, ?_, ?_, ?_⟩
  · intro j hk
    exfalso
    have e : cellAt (Dict.new : Dict T).table j = DictCell.empty := cellAt_new_table 8 j
    rw [e] at hk
    exact hk rfl
  · intro i j hk
    exfalso
    have e : cellAt (Dict.new : Dict T).table i = DictCell.empty := cellAt_new_table 8 i
    rw [e] at hk
    exact hk rfl
  · show 0 = live_count (new_table 8)
    rw [live_count_new_table]

/-- Removing stored keys of pairwise distinct hashes from a table satisfying the
invariant: every call returns, and the keys stored afterwards are those whose hash
is not among the removed ones. -/
theorem run_removes (fuel : Nat) :
    ∀ (rs : List Key) (d : Dict T), Inv d → d.size ≤ fuel →
      (∀ k, k ∈ rs → k ≠ []) → (∀ k, k ∈ rs → ∃ v, Stored d k v) →
      (rs.map get_hash).Nodup →
      ∃ d2, run_ops fuel d (rem_ops rs) = .ok d2 ∧ Inv d2 ∧ d2.size ≤ d.size ∧
        ∀ c, c.key ≠ [] → (c ∈ d2.table ↔ c ∈ d.table ∧ c.hash ∉ rs.map get_hash) := by
  intro rs
  induction rs with
  | nil =>
    intro d hinv _ _ _ _
    refine ⟨d, rfl, hinv, Nat.le_refl _, ?_⟩
    intro c _
    simp
  | cons k rs ih =>
    intro d hinv hfuel hne hst hnd
    rw [List.map_cons, List.nodup_cons] at hnd
    obtain ⟨v, hv⟩ := hst k (List.mem_cons_self _ _)
    obtain ⟨d1, hr1, hinv1, _, hs1, hm1⟩ := remove_inv fuel d k v hinv hv
      (hne k (List.mem_cons_self _ _)) hfuel
    obtain ⟨d2, hr2, hinv2, hs2, hm2⟩ := ih d1 hinv1 (by omega)
      (fun k2 hm => hne k2 (List.mem_cons_of_mem _ hm))
      (by
        intro k2 hm
        obtain ⟨v2, hv2⟩ := hst k2 (List.mem_cons_of_mem _ hm)
        refine ⟨v2, ?_⟩
        unfold Stored at hv2 ⊢
        rw [hm1 _ (hne k2 (List.mem_cons_of_mem _ hm))]
        refine ⟨hv2, ?_⟩
        intro he
        apply hnd.1
        show get_hash k ∈ rs.map get_hash
        rw [← he]
        exact List.mem_map_of_mem _ hm)
      hnd.2
    refine ⟨d2, ?_, hinv2, by omega, ?_⟩
    · show run_ops fuel d (Op.rem k :: rem_ops rs) = _
      rw [run_ops_cons_ok fuel d d1 (Op.rem k) _ hr1]
      exact hr2
    · intro c hk
      rw [hm2 c hk, hm1 c hk, List.map_cons, List.mem_cons]
      constructor
      · rintro ⟨⟨h1, h2⟩, h3⟩
        exact ⟨h1, fun h => h.elim h2 h3⟩
      · rintro ⟨h1, h2⟩
        exact ⟨⟨h1, fun h => h2 (Or.inl h)⟩, fun h => h2 (Or.inr h)⟩

/-! ## Capacity after a call -/

theorem insert_place_size (fuel : Nat) (d d2 : Dict T) (key : Key) (value : T)
    (h : insert_place fuel d key value = .ok d2) :
    d2.size = d.size ∧ d.size ≠ 0 ∧ d2.length = (d.length + 1) % 2 ^ 32 := by
  obtain ⟨hz, p, _, rfl⟩ := insert_place_ok fuel d d2 key value h
  exact ⟨rfl, hz, rfl⟩

/-- The capacity after a returning `insert`, in 32-bit arithmetic. -/
theorem insert_size (fuel : Nat) (d d2 : Dict T) (key : Key) (value : T)
    (h : insert fuel d key value = .ok d2) :
    d2.size = (if d.length ≥ (3 * d.size) % 2 ^ 32 / 4 then (d.size * 2) % 2 ^ 32 else d.size) ∧
    d2.size ≠ 0 ∧ d2.length = (d.length + 1) % 2 ^ 32 := by
  obtain ⟨d1, hp, hg | hg⟩ := insert_ok fuel d d2 key value h
  · obtain ⟨h1, h2, h3⟩ := insert_place_size fuel d1 d2 key value hp
    obtain ⟨h4, h5, _⟩ := change_size_fields fuel d d1 _ hg.2
    rw [if_pos hg.1, h1, h4]
    refine ⟨rfl, ?_, ?_⟩
    · rw [← h4, ← h1]; rw [h1]; exact h2
    · rw [h3, h5]
  · rw [hg.2] at hp
    obtain ⟨h1, h2, h3⟩ := insert_place_size fuel d d2 key value hp
    rw [if_neg hg.1, h1]
    exact ⟨rfl, h2, h3⟩

/-- The capacity after a returning `remove`. -/
theorem remove_size (fuel : Nat) (d d2 : Dict T) (key : Key)
    (h : remove fuel d key = .ok d2) :
    d2.length = (d.length + (2 ^ 32 - 1)) % 2 ^ 32 ∧
    d2.size = (if d2.length ≤ d.size / 8 ∧ d.size > 8 then d.size / 2 else d.size) := by
  obtain ⟨_, p, _, hc | hc⟩ := remove_ok fuel d d2 key h
  · obtain ⟨h1, h2, _⟩ := change_size_fields fuel _ d2 _ hc.2
    have hl : d2.length = (d.length + (2 ^ 32 - 1)) % 2 ^ 32 := h2
    refine ⟨hl, ?_⟩
    have hc1 : (d.length + (2 ^ 32 - 1)) % 2 ^ 32 ≤ d.size / 8 ∧ d.size > 8 := hc.1
    rw [hl, if_pos hc1, h1]
  · rw [hc.2]
    refine ⟨rfl, ?_⟩
    show d.size = if (d.length + (2 ^ 32 - 1)) % 2 ^ 32 ≤ d.size / 8 ∧ d.size > 8 then _ else _
    have hc1 : ¬ ((d.length + (2 ^ 32 - 1)) % 2 ^ 32 ≤ d.size / 8 ∧ d.size > 8) := hc.1
    rw [if_neg hc1]

/-! ## Calls that return on any table with room -/

theorem copy_cells_returns (fuel n : Nat) (hn : 0 < n) (hfuel : n ≤ fuel) :
    ∀ (src dest : List (DictCell T)), dest.length = n →
      live_count dest + live_count src ≤ n →
      ∃ r, copy_cells fuel n src dest = .ok r ∧ r.length = n ∧
        live_count r = live_count dest + live_count src ∧
        ∀ c, c.key ≠ [] → (c ∈ r ↔ c ∈ dest ∨ c ∈ src) := by
  intro src
  induction src with
  | nil =>
    intro dest hlen _
    refine ⟨dest, rfl, hlen, ?_, ?_⟩
    · simp [live_count]
    · intro c _; simp
  | cons c rest ih =>
    intro dest hlen hcount
    by_cases hk : c.key = []
    · rw [copy_cells_cons_skip fuel n c rest dest hk]
      have hlc : live_count (c :: rest) = live_count rest := by
        rw [live_count_cons]; simp [hk]
      obtain ⟨r, hr, h1, h5, h6⟩ := ih dest hlen (by omega)
      refine ⟨r, hr, h1, by omega, ?_⟩
      intro c2 hk2
      rw [h6 c2 hk2, List.mem_cons]
      constructor
      · rintro (h | h)
        · exact Or.inl h
        · exact Or.inr (Or.inr h)
      · rintro (h | h | h)
        · exact Or.inl h
        · rw [h] at hk2; exact absurd hk hk2
        · exact Or.inr h
    · have hlc : live_count (c :: rest) = live_count rest + 1 := by
        rw [live_count_cons]; simp [hk]
      obtain ⟨j0, hj0, hk0⟩ := exists_free dest (by omega)
      obtain ⟨p, hp⟩ := probe_terminates stop_copy dest n fuel (c.hash % n) j0
        (by omega) (by simp [stop_copy, hk0]) (Nat.mod_lt _ hn) hfuel
      have hpn : p < dest.length := by
        rw [hlen]; exact probe_ok_lt _ _ _ _ _ _ hp (Nat.mod_lt _ hn)
      have hpk : (cellAt dest p).key = [] := stop_copy_true (probe_ok_stop _ _ _ _ _ _ hp)
      rw [copy_cells_cons_place fuel n c rest dest p hk (Nat.pos_iff_ne_zero.mp hn) hp]
      have hls : live_count (dest.set p c) = live_count dest + 1 := by
        rw [live_count_set dest p c hpn]
        simp only [hpk, hk, if_true, if_false]
        omega
      obtain ⟨r, hr, h1, h5, h6⟩ := ih (dest.set p c)
        (by rw [List.length_set]; exact hlen) (by omega)
      refine ⟨r, hr, h1, by omega, ?_⟩
      intro c2 hk2
      rw [h6 c2 hk2, mem_set_iff_of_free dest p c c2 hpn hpk hk2, List.mem_cons]
      constructor
      · rintro ((h | h) | h)
        · exact Or.inr (Or.inl h)
        · exact Or.inl h
        · exact Or.inr (Or.inr h)
      · rintro (h | h | h)
        · exact Or.inl (Or.inr h)
        · exact Or.inl (Or.inl h)
        · exact Or.inr h

theorem change_size_returns (fuel : Nat) (d : Dict T) (n : Nat) (hn : 0 < n) (hfuel : n ≤ fuel)
    (hroom : live_count d.table ≤ n) :
    ∃ d1, change_size fuel d n = .ok d1 ∧ Shape d1 ∧ d1.size = n ∧ d1.length = d.length ∧
      live_count d1.table = live_count d.table ∧
      ∀ c, c.key ≠ [] → (c ∈ d1.table ↔ c ∈ d.table) := by
  obtain ⟨r, hr, h1, h5, h6⟩ := copy_cells_returns fuel n hn hfuel d.table (new_table n)
    (List.length_replicate _ _) (by rw [live_count_new_table]; omega)
  refine ⟨⟨d.length, n, r⟩, change_size_of_copy fuel d n r hr, ?_, rfl, rfl, ?_, ?_⟩
  · unfold Shape; exact h1.symm
  · show live_count r = _
    rw [h5, live_count_new_table]; omega
  · intro c hk
    show c ∈ r ↔ _
    rw [h6 c hk]
    constructor
    · rintro (h | h)
      · exfalso
        obtain ⟨j, _, hj⟩ := cellAt_of_mem _ c h
        rw [cellAt_new_table] at hj
        rw [← hj] at hk
        exact hk rfl
      · exact h
    · exact Or.inr

theorem live_count_set_le (t : List (DictCell T)) (p : Nat) (c : DictCell T) :
    live_count (t.set p c) ≤ live_count t + 1 := by
  by_cases hp : p < t.length
  · rw [live_count_set t p c hp]
    split <;> split <;> omega
  · rw [List.set_eq_of_length_le (Nat.le_of_not_lt hp)]
    omega

/-- The probe-and-write part of `insert` returns when some cell of the table has the
hash of the key or has no key. -/
theorem insert_place_returns (fuel : Nat) (d : Dict T) (key : Key) (value : T)
    (hpos : 0 < d.size) (hfuel : d.size ≤ fuel) (j : Nat) (hj : j < d.size)
    (hstop : stop_insert (get_hash key) (cellAt d.table j) = true) :
    ∃ d2, insert_place fuel d key value = .ok d2 ∧ d2.size = d.size ∧
      d2.length = (d.length + 1) % 2 ^ 32 ∧ live_count d2.table ≤ live_count d.table + 1 ∧
      (Shape d → Shape d2) := by
  obtain ⟨p, hp⟩ := probe_terminates (stop_insert (get_hash key)) d.table d.size fuel
    (get_hash key % d.size) j hj hstop (Nat.mod_lt _ hpos) hfuel
  refine ⟨_, insert_place_of_probe fuel d key value p (Nat.pos_iff_ne_zero.mp hpos) hp,
    rfl, rfl, live_count_set_le _ _ _, ?_⟩
  intro hs
  unfold Shape at hs ⊢
  show d.size = (d.table.set p _).length
  rw [List.length_set]; exact hs

theorem exists_stop_of_room (d : Dict T) (hash : Nat) (hs : Shape d)
    (hroom : live_count d.table < d.size) :
    ∃ j, j < d.size ∧ stop_insert hash (cellAt d.table j) = true := by
  have hs2 : d.size = d.table.length := hs
  obtain ⟨j, hj, hk⟩ := exists_free d.table (by omega)
  exact ⟨j, by omega, by simp [stop_insert, hk]⟩

/-- The method `insert` returns on a table that has a cell without a key, or a cell
with the hash of the key, when `size*2` fits in 32 bits. -/
theorem insert_returns (fuel : Nat) (d : Dict T) (key : Key) (value : T)
    (hs : Shape d) (hpos : 0 < d.size) (h32 : 2 * d.size < 2 ^ 32) (hfuel : 2 * d.size ≤ fuel)
    (hstop : live_count d.table < d.size ∨
      ∃ c, c ∈ d.table ∧ c.key ≠ [] ∧ c.hash = get_hash key) :
    ∃ d2, insert fuel d key value = .ok d2 ∧ Shape d2 ∧
      live_count d2.table ≤ live_count d.table + 1 := by
  have hs2 : d.size = d.table.length := hs
  have hle := live_count_le d.table
  by_cases hg : d.length ≥ (3 * d.size) % 2 ^ 32 / 4
  · have h2 : (d.size * 2) % 2 ^ 32 = 2 * d.size := by
      rw [Nat.mod_eq_of_lt (by omega)]; omega
    obtain ⟨d1, hc, hs1, hsz1, _, hlc1, _⟩ := change_size_returns fuel d (2 * d.size)
      (by omega) hfuel (by omega)
    obtain ⟨j, hj, hst⟩ := exists_stop_of_room d1 (get_hash key) hs1 (by rw [hlc1, hsz1]; omega)
    obtain ⟨d2, hp, _, _, hlc2, hsh⟩ := insert_place_returns fuel d1 key value
      (by rw [hsz1]; omega) (by rw [hsz1]; exact hfuel) j hj hst
    refine ⟨d2, ?_, hsh hs1, by omega⟩
    rw [insert_of_grow fuel d d1 key value hg (by rw [h2]; exact hc)]
    exact hp
  · have hex : ∃ j, j < d.size ∧ stop_insert (get_hash key) (cellAt d.table j) = true := by
      rcases hstop with h | ⟨c, hc, _, hh⟩
      · exact exists_stop_of_room d (get_hash key) hs h
      · obtain ⟨j, hj, hcj⟩ := cellAt_of_mem _ c hc
        refine ⟨j, by omega, ?_⟩
        rw [hcj]
        simp [stop_insert, hh]
    obtain ⟨j, hj, hst⟩ := hex
    obtain ⟨d2, hp, _, _, hlc2, hsh⟩ := insert_place_returns fuel d key value hpos
      (by omega) j hj hst
    refine ⟨d2, ?_, hsh hs, hlc2⟩
    rw [insert_of_no_grow fuel d key value hg]
    exact hp

theorem mem_of_insert_place (fuel : Nat) (d d2 : Dict T) (key : Key) (value : T)
    (hs : Shape d) (h : insert_place fuel d key value = .ok d2) :
    (⟨get_hash key, key, value⟩ : DictCell T) ∈ d2.table := by
  obtain ⟨hz, p, hp, rfl⟩ := insert_place_ok fuel d d2 key value h
  have hs2 : d.size = d.table.length := hs
  have hlt : p < d.table.length := by
    rw [← hs2]
    exact probe_ok_lt _ _ _ _ _ _ hp (Nat.mod_lt _ (Nat.pos_of_ne_zero hz))
  have hm := cellAt_mem (d.table.set p ⟨get_hash key, key, value⟩) p
    (by rw [List.length_set]; exact hlt)
  rw [cellAt_set_self _ _ _ hlt] at hm
  exact hm

theorem mem_of_insert (fuel : Nat) (d d2 : Dict T) (key : Key) (value : T)
    (hs : Shape d) (h : insert fuel d key value = .ok d2) :
    (⟨get_hash key, key, value⟩ : DictCell T) ∈ d2.table := by
  obtain ⟨d1, hp, hg | hg⟩ := insert_ok fuel d d2 key value h
  · exact mem_of_insert_place fuel d1 d2 key value (change_size_shape fuel d d1 _ hg.2) hp
  · rw [hg.2] at hp
    exact mem_of_insert_place fuel d d2 key value hs hp

/-! ## A table built by `Dict(start_size)` -/

theorem copy_cells_all_empty (fuel n : Nat) (dest : List (DictCell T)) :
    ∀ (src : List (DictCell T)), (∀ c, c ∈ src → c.key = []) →
      copy_cells fuel n src dest = .ok dest := by
  intro src
  induction src with
  | nil => intro _; rfl
  | cons c rest ih =>
    intro h
    rw [copy_cells_cons_skip fuel n c rest dest (h c (List.mem_cons_self _ _))]
    exact ih (fun c2 hm => h c2 (List.mem_cons_of_mem _ hm))

theorem change_size_new_sized (fuel n m : Nat) :
    change_size fuel (Dict.new_sized n : Dict T) m = .ok ⟨0, m, new_table m⟩ := by
  have h := copy_cells_all_empty fuel m (new_table m : List (DictCell T))
    (new_table n : List (DictCell T))
    (by
      intro c hc
      unfold new_table at hc
      rw [List.eq_of_mem_replicate hc]
      rfl)
  exact change_size_of_copy fuel (Dict.new_sized n) m _ h

theorem insert_place_new_table (fuel m len : Nat) (key : Key) (value : T) (hm : m ≠ 0) :
    insert_place (fuel + 1) (⟨len, m, new_table m⟩ : Dict T) key value =
      .ok ⟨(len + 1) % 2 ^ 32, m,
        (new_table m).set (get_hash key % m) ⟨get_hash key, key, value⟩⟩ := by
  refine insert_place_of_probe (fuel + 1) _ key value _ hm ?_
  show probe _ (new_table m) m (fuel + 1) _ = _
  rw [probe_succ, cellAt_new_table]
  simp [stop_insert, DictCell.empty]

/-! ## Reachable states -/

theorem reachableFrom_run_ops (P : Key → Prop) (fuel : Nat) (d0 : Dict T) :
    ∀ (ops : List (Op T)) (d d2 : Dict T), ReachableFrom P d0 d →
      (∀ op, op ∈ ops → P op.key) → run_ops fuel d ops = .ok d2 → ReachableFrom P d0 d2 := by
  intro ops
  induction ops with
  | nil => intro d d2 hr _ h; rw [run_ops_nil] at h; injection h with h; rw [← h]; exact hr
  | cons op ops ih =>
    intro d d2 hr hP h
    cases hrun : op.run fuel d with
    | error e =>
      unfold run_ops at h
      rw [hrun] at h
      simp at h
    | ok dm =>
      rw [run_ops_cons_ok fuel d dm op ops hrun] at h
      refine ih dm d2 ?_ (fun o ho => hP o (List.mem_cons_of_mem _ ho)) h
      have hPop := hP op (List.mem_cons_self _ _)
      cases op with
      | ins key value => exact ReachableFrom.insert fuel d dm key value hr hPop hrun
      | rem key => exact ReachableFrom.remove fuel d dm key hr hPop hrun

theorem get_diverges (d : Dict T) (key : Key) (hz : d.size ≠ 0)
    (hall : ∀ j, j < d.size → stop_lookup (get_hash key) (cellAt d.table j) = false)
    (fuel : Nat) : get fuel d key = .error .fuel := by
  unfold get
  simp only [hz, if_false]
  rw [probe_never _ _ _ hall fuel _ (Nat.mod_lt _ (Nat.pos_of_ne_zero hz))]

theorem remove_diverges (d : Dict T) (key : Key) (hz : d.size ≠ 0)
    (hall : ∀ j, j < d.size → stop_lookup (get_hash key) (cellAt d.table j) = false)
    (fuel : Nat) : remove fuel d key = .error .fuel := by
  unfold remove
  simp only [hz, if_false]
  rw [probe_never _ _ _ hall fuel _ (Nat.mod_lt _ (Nat.pos_of_ne_zero hz))]

theorem insert_diverges (d : Dict T) (key : Key) (value : T) (hz : d.size ≠ 0)
    (hg : ¬ d.length ≥ (3 * d.size) % 2 ^ 32 / 4)
    (hall : ∀ j, j < d.size → stop_insert (get_hash key) (cellAt d.table j) = false)
    (fuel : Nat) : insert fuel d key value = .error .fuel := by
  rw [insert_of_no_grow fuel d key value hg]
  unfold insert_place
  simp only [hz, if_false]
  rw [probe_never _ _ _ hall fuel _ (Nat.mod_lt _ (Nat.pos_of_ne_zero hz))]

/-! ## Capacities of the form `8 * 2^j` -/

theorem powCap_le (n : Nat) (h : PowCap n) : 8 ≤ n := by
  obtain ⟨j, hj, _⟩ := h
  have : 1 ≤ 2 ^ j := Nat.one_le_two_pow
  omega

theorem powCap_double (n : Nat) (h : PowCap n) (hz : (n * 2) % 2 ^ 32 ≠ 0) :
    PowCap ((n * 2) % 2 ^ 32) := by
  obtain ⟨j, hj, hlt⟩ := h
  have hj28 : j ≤ 28 := by
    by_contra hc
    have : 2 ^ 29 ≤ 2 ^ j := Nat.pow_le_pow_right (by decide) (by omega)
    omega
  rcases Nat.lt_or_ge j 28 with h1 | h1
  · have : 2 ^ j ≤ 2 ^ 27 := Nat.pow_le_pow_right (by decide) (by omega)
    have e : (n * 2) % 2 ^ 32 = n * 2 := Nat.mod_eq_of_lt (by omega)
    rw [e]
    exact ⟨j + 1, by rw [Nat.pow_succ]; omega, by omega⟩
  · exfalso
    have e : j = 28 := by omega
    subst e
    apply hz
    rw [hj]
    decide

theorem powCap_half (n : Nat) (h : PowCap n) (h8 : n > 8) : PowCap (n / 2) := by
  obtain ⟨j, hj, hlt⟩ := h
  cases j with
  | zero => simp at hj; omega
  | succ k =>
    refine ⟨k, ?_, by omega⟩
    rw [Nat.pow_succ] at hj
    omega

theorem reachableFrom_powCap (P : Key → Prop) (d0 d : Dict T) (h0 : PowCap d0.size)
    (h : ReachableFrom P d0 d) : PowCap d.size := by
  induction h with
  | init => exact h0
  | insert fuel d d2 key value _ _ hi ih =>
    obtain ⟨h1, h2, _⟩ := insert_size fuel d d2 key value hi
    by_cases hg : d.length ≥ (3 * d.size) % 2 ^ 32 / 4
    · rw [if_pos hg] at h1
      rw [h1] at h2 ⊢
      exact powCap_double d.size ih h2
    · rw [if_neg hg] at h1
      rw [h1]; exact ih
  | remove fuel d d2 key _ _ hr ih =>
    obtain ⟨_, h2⟩ := remove_size fuel d d2 key hr
    by_cases hc : d2.length ≤ d.size / 8 ∧ d.size > 8
    · rw [if_pos hc] at h2
      rw [h2]; exact powCap_half d.size ih hc.2
    · rw [if_neg hc] at h2
      rw [h2]; exact ih

/-! ## More fuel does not change a result -/

theorem copy_cells_mono (n f f2 : Nat) (hf : f ≤ f2) :
    ∀ (src dest r : List (DictCell T)), copy_cells f n src dest = .ok r →
      copy_cells f2 n src dest = .ok r := by
  intro src
  induction src with
  | nil => intro dest r h; exact h
  | cons c rest ih =>
    intro dest r h
    rcases copy_cells_cons_ok f n c rest dest r h with ⟨hk, h2⟩ | ⟨hk, hn, p, hp, h2⟩
    · rw [copy_cells_cons_skip f2 n c rest dest hk]
      exact ih dest r h2
    · rw [copy_cells_cons_place f2 n c rest dest p hk hn (probe_mono _ _ _ f f2 _ p hp hf)]
      exact ih _ r h2

theorem change_size_mono (f f2 : Nat) (hf : f ≤ f2) (d d1 : Dict T) (n : Nat)
    (h : change_size f d n = .ok d1) : change_size f2 d n = .ok d1 := by
  obtain ⟨t, ht, rfl⟩ := change_size_ok f d d1 n h
  exact change_size_of_copy f2 d n t (copy_cells_mono n f f2 hf _ _ t ht)

theorem insert_place_mono (f f2 : Nat) (hf : f ≤ f2) (d d2 : Dict T) (key : Key) (value : T)
    (h : insert_place f d key value = .ok d2) : insert_place f2 d key value = .ok d2 := by
  obtain ⟨hz, p, hp, rfl⟩ := insert_place_ok f d d2 key value h
  exact insert_place_of_probe f2 d key value p hz (probe_mono _ _ _ f f2 _ p hp hf)

theorem insert_mono (f f2 : Nat) (hf : f ≤ f2) (d d2 : Dict T) (key : Key) (value : T)
    (h : insert f d key value = .ok d2) : insert f2 d key value = .ok d2 := by
  obtain ⟨d1, hp, hg | hg⟩ := insert_ok f d d2 key value h
  · rw [insert_of_grow f2 d d1 key value hg.1 (change_size_mono f f2 hf d d1 _ hg.2)]
    exact insert_place_mono f f2 hf d1 d2 key value hp
  · rw [hg.2] at hp
    rw [insert_of_no_grow f2 d key value hg.1]
    exact insert_place_mono f f2 hf d d2 key value hp

theorem remove_mono (f f2 : Nat) (hf : f ≤ f2) (d d2 : Dict T) (key : Key)
    (h : remove f d key = .ok d2) : remove f2 d key = .ok d2 := by
  obtain ⟨hz, p, hp, hc | hc⟩ := remove_ok f d d2 key h
  · rw [remove_of_probe f2 d key p hz (probe_mono _ _ _ f f2 _ p hp hf), if_pos hc.1]
    exact change_size_mono f f2 hf _ d2 _ hc.2
  · rw [remove_of_probe f2 d key p hz (probe_mono _ _ _ f f2 _ p hp hf), if_neg hc.1, hc.2]

theorem run_ops_mono (f f2 : Nat) (hf : f ≤ f2) :
    ∀ (ops : List (Op T)) (d d2 : Dict T), run_ops f d ops = .ok d2 →
      run_ops f2 d ops = .ok d2 := by
  intro ops
  induction ops with
  | nil => intro d d2 h; exact h
  | cons op ops ih =>
    intro d d2 h
    cases hrun : op.run f d with
    | error e =>
      unfold run_ops at h
      rw [hrun] at h
      simp at h
    | ok dm =>
      rw [run_ops_cons_ok f d dm op ops hrun] at h
      have hrun2 : op.run f2 d = .ok dm := by
        cases op with
        | ins key value => exact insert_mono f f2 hf d dm key value hrun
        | rem key => exact remove_mono f f2 hf d dm key hrun
      rw [run_ops_cons_ok f2 d dm op ops hrun2]
      exact ih dm d2 h

/-! ## Inserts that are known to return -/

theorem powCap_cases (n : Nat) (h : PowCap n) : 3 * n < 2 ^ 32 ∨ n = 2 ^ 31 := by
  obtain ⟨j, hj, hlt⟩ := h
  have hj28 : j ≤ 28 := by
    by_contra hc
    have : 2 ^ 29 ≤ 2 ^ j := Nat.pow_le_pow_right (by decide) (by omega)
    omega
  rcases Nat.lt_or_ge j 28 with h1 | h1
  · left
    have : 2 ^ j ≤ 2 ^ 27 := Nat.pow_le_pow_right (by decide) (by omega)
    omega
  · right
    have e : j = 28 := by omega
    subst e
    rw [hj]
    decide

/-- A returning `insert` of a key that is not stored keeps the invariant, on a table
whose capacity is 8 times a power of two. -/
theorem insert_inv_of_ok (fuel : Nat) (d d2 : Dict T) (key : Key) (value : T)
    (hinv : Inv d) (hcap : PowCap d.size) (hk : key ≠ []) (hh : get_hash key ≠ 0)
    (hfresh : ∀ j, (cellAt d.table j).key ≠ [] → (cellAt d.table j).hash ≠ get_hash key)
    (hi : insert fuel d key value = .ok d2) :
    Inv d2 ∧ PowCap d2.size ∧ d2.length = d.length + 1 ∧
      ∀ c, c.key ≠ [] → (c ∈ d2.table ↔ c = ⟨get_hash key, key, value⟩ ∨ c ∈ d.table) := by
  have hcap2 : PowCap d2.size := by
    obtain ⟨h1, h2, _⟩ := insert_size fuel d d2 key value hi
    by_cases hg : d.length ≥ (3 * d.size) % 2 ^ 32 / 4
    · rw [if_pos hg] at h1
      rw [h1] at h2 ⊢
      exact powCap_double d.size hcap h2
    · rw [if_neg hg] at h1
      rw [h1]; exact hcap
  have hlen := hinv.length_eq
  have hle := live_count_le d.table
  have hshape : d.size = d.table.length := hinv.shape
  rcases powCap_cases d.size hcap with h3 | h31
  · obtain ⟨d3, hi3, hinv3, _, hl3, hm3⟩ := insert_inv (max fuel (2 * d.size)) d key value hinv
      hk hh hfresh h3 (le_max_right _ _)
    have e := insert_mono fuel (max fuel (2 * d.size)) (le_max_left _ _) d d2 key value hi
    rw [hi3] at e
    injection e with e
    rw [← e]
    exact ⟨hinv3, by rw [e]; exact hcap2, hl3, hm3⟩
  · have hthr : (3 * d.size) % 2 ^ 32 / 4 = 2 ^ 29 := by rw [h31]; decide
    have hdbl : (d.size * 2) % 2 ^ 32 = 0 := by rw [h31]; decide
    obtain ⟨h1, h2, _⟩ := insert_size fuel d d2 key value hi
    have hg : ¬ d.length ≥ (3 * d.size) % 2 ^ 32 / 4 := by
      intro hg
      rw [if_pos hg, hdbl] at h1
      exact h2 h1
    rw [insert_of_no_grow fuel d key value hg] at hi
    rw [hthr] at hg
    obtain ⟨d3, hi3, hinv3, _, hl3, hm3⟩ := insert_place_inv (max fuel d.size) d key value hinv
      hk hh hfresh (by omega) (le_max_right _ _)
    have e := insert_place_mono fuel (max fuel d.size) (le_max_left _ _) d d2 key value hi
    rw [hi3] at e
    injection e with e
    rw [← e]
    exact ⟨hinv3, by rw [e]; exact hcap2, hl3, hm3⟩

/-- Returning inserts of keys that are not stored, of pairwise distinct non-zero
hashes, keep the invariant and store exactly the inserted pairs beside the old
ones. -/
theorem run_inserts_of_ok (fuel : Nat) :
    ∀ (ps : List (Key × T)) (d d2 : Dict T), Inv d → PowCap d.size →
      (∀ kv, kv ∈ ps → kv.1 ≠ []) → (∀ kv, kv ∈ ps → get_hash kv.1 ≠ 0) →
      (ps.map (fun kv => get_hash kv.1)).Nodup →
      (∀ c, c ∈ d.table → c.key ≠ [] → c.hash ∉ ps.map (fun kv => get_hash kv.1)) →
      run_ops fuel d (ins_ops ps) = .ok d2 →
      Inv d2 ∧ PowCap d2.size ∧
        ∀ c, c.key ≠ [] → (c ∈ d2.table ↔ c ∈ d.table ∨ ∃ kv, kv ∈ ps ∧ c = cell_of kv) := by
  intro ps
  induction ps with
  | nil =>
    intro d d2 hinv hcap _ _ _ _ hr
    rw [show ins_ops ([] : List (Key × T)) = [] from rfl, run_ops_nil] at hr
    injection hr with hr
    rw [← hr]
    refine ⟨hinv, hcap, ?_⟩
    intro c _
    simp
  | cons kv ps ih =>
    intro d d2 hinv hcap hne hnz hnd hfresh hr
    rw [List.map_cons, List.nodup_cons] at hnd
    have hfr : ∀ j, (cellAt d.table j).key ≠ [] → (cellAt d.table j).hash ≠ get_hash kv.1 := by
      intro j hkj he
      have hj := lt_of_key_ne _ j hkj
      exact hfresh _ (cellAt_mem d.table j hj) hkj (by rw [he]; simp)
    cases hi : insert fuel d kv.1 kv.2 with
    | error e =>
      exfalso
      have hr2 : run_ops fuel d (Op.ins kv.1 kv.2 :: ins_ops ps) = .ok d2 := hr
      unfold run_ops at hr2
      have hrun : (Op.ins kv.1 kv.2).run fuel d = .error e := hi
      rw [hrun] at hr2
      simp at hr2
    | ok d1 =>
      have hr2 : run_ops fuel d (Op.ins kv.1 kv.2 :: ins_ops ps) = .ok d2 := hr
      rw [run_ops_cons_ok fuel d d1 (Op.ins kv.1 kv.2) _ hi] at hr2
      obtain ⟨hinv1, hcap1, _, hm1⟩ := insert_inv_of_ok fuel d d1 kv.1 kv.2 hinv hcap
        (hne kv (List.mem_cons_self _ _)) (hnz kv (List.mem_cons_self _ _)) hfr hi
      obtain ⟨hinv2, hcap2, hm2⟩ := ih d1 d2 hinv1 hcap1
        (fun kv2 hm => hne kv2 (List.mem_cons_of_mem _ hm))
        (fun kv2 hm => hnz kv2 (List.mem_cons_of_mem _ hm))
        hnd.2
        (by
          intro c hc hk
          rcases (hm1 c hk).mp hc with h | h
          · rw [h]; exact hnd.1
          · intro hmem
            exact hfresh c h hk (by rw [List.map_cons]; exact List.mem_cons_of_mem _ hmem))
        hr2
      refine ⟨hinv2, hcap2, ?_⟩
      intro c hk
      rw [hm2 c hk, hm1 c hk]
      constructor
      · rintro ((h | h) | ⟨kv2, h2, h3⟩)
        · exact Or.inr ⟨kv, List.mem_cons_self _ _, h⟩
        · exact Or.inl h
        · exact Or.inr ⟨kv2, List.mem_cons_of_mem _ h2, h3⟩
      · rintro (h | ⟨kv2, h2, h3⟩)
        · exact Or.inl (Or.inr h)
        · rcases List.mem_cons.mp h2 with e | e
          · rw [e] at h3; exact Or.inl (Or.inl h3)
          · exact Or.inr ⟨kv2, e, h3⟩

/-- Inserting keys that are not stored, of pairwise distinct non-zero hashes, into a
table satisfying the invariant: every call returns as long as the number of stored
keys stays at most `3 * 2^28 + 1`, which keeps the capacity within 32 bits, and the
keys stored afterwards are the old ones and the inserted ones. -/
theorem run_inserts (fuel : Nat) (hfuel : 2 ^ 32 ≤ fuel) :
    ∀ (ps : List (Key × T)) (d : Dict T), Inv d → PowCap d.size →
      (d.size = 8 ∨ 3 * d.size + 8 ≤ 8 * d.length) →
      d.length + ps.length ≤ 3 * 2 ^ 28 + 1 →
      (∀ kv, kv ∈ ps → kv.1 ≠ []) → (∀ kv, kv ∈ ps → get_hash kv.1 ≠ 0) →
      (ps.map (fun kv => get_hash kv.1)).Nodup →
      (∀ c, c ∈ d.table → c.key ≠ [] → c.hash ∉ ps.map (fun kv => get_hash kv.1)) →
      ∃ d2, run_ops fuel d (ins_ops ps) = .ok d2 ∧ Inv d2 ∧
        d2.length = d.length + ps.length ∧
        ∀ c, c.key ≠ [] → (c ∈ d2.table ↔ c ∈ d.table ∨ ∃ kv, kv ∈ ps ∧ c = cell_of kv) := by
  intro ps
  induction ps with
  | nil =>
    intro d hinv _ _ _ _ _ _ _
    refine ⟨d, rfl, hinv, rfl, ?_⟩
    intro c _
    simp
  | cons kv ps ih =>
    intro d hinv hcap hsz hlen hne hnz hnd hfresh
    have hlt := hinv.size_lt
    rw [List.length_cons] at hlen
    rw [List.map_cons, List.nodup_cons] at hnd
    have hfr : ∀ j, (cellAt d.table j).key ≠ [] → (cellAt d.table j).hash ≠ get_hash kv.1 := by
      intro j hkj he
      have hj := lt_of_key_ne _ j hkj
      exact hfresh _ (cellAt_mem d.table j hj) hkj (by rw [he]; simp)
    have h3 : 3 * d.size < 2 ^ 32 := by
      rcases powCap_cases d.size hcap with h | h
      · exact h
      · exfalso
        rw [h] at hsz
        omega
    obtain ⟨d1, hi, hinv1, hs1, hl1, hm1⟩ := insert_inv fuel d kv.1 kv.2 hinv
      (hne kv (List.mem_cons_self _ _)) (hnz kv (List.mem_cons_self _ _)) hfr
      h3 (by omega)
    have hcap1 := (insert_inv_of_ok fuel d d1 kv.1 kv.2 hinv hcap
      (hne kv (List.mem_cons_self _ _)) (hnz kv (List.mem_cons_self _ _)) hfr hi).2.1
    obtain ⟨d2, hr, hinv2, hl2, hm2⟩ := ih d1 hinv1 hcap1
      (by
        obtain ⟨j, hj, _⟩ := hcap
        rw [hs1, hl1]
        by_cases hg : d.length ≥ 3 * d.size / 4
        · rw [if_pos hg]; right; omega
        · rw [if_neg hg]; omega)
      (by omega)
      (fun kv2 hm => hne kv2 (List.mem_cons_of_mem _ hm))
      (fun kv2 hm => hnz kv2 (List.mem_cons_of_mem _ hm))
      hnd.2
      (by
        intro c hc hk
        rcases (hm1 c hk).mp hc with h | h
        · rw [h]; exact hnd.1
        · intro hmem
          exact hfresh c h hk (by rw [List.map_cons]; exact List.mem_cons_of_mem _ hmem))
    refine ⟨d2, ?_, hinv2, by rw [List.length_cons]; omega, ?_⟩
    · show run_ops fuel d (Op.ins kv.1 kv.2 :: ins_ops ps) = _
      rw [run_ops_cons_ok fuel d d1 (Op.ins kv.1 kv.2) _ hi]
      exact hr
    · intro c hk
      rw [hm2 c hk, hm1 c hk]
      constructor
      · rintro ((h | h) | ⟨kv2, h2, h3⟩)
        · exact Or.inr ⟨kv, List.mem_cons_self _ _, h⟩
        · exact Or.inl h
        · exact Or.inr ⟨kv2, List.mem_cons_of_mem _ h2, h3⟩
      · rintro (h | ⟨kv2, h2, h3⟩)
        · exact Or.inl (Or.inr h)
        · rcases List.mem_cons.mp h2 with e | e
          · rw [e] at h3; exact Or.inl (Or.inl h3)
          · exact Or.inr ⟨kv2, e, h3⟩

theorem powCap_new : PowCap (Dict.new : Dict T).size :=
  ⟨0, rfl, (show 8 < 2 ^ 32 by decide)⟩

theorem no_key_new (c : DictCell T) (hc : c ∈ (Dict.new : Dict T).table) (hk : c.key ≠ []) :
    False := by
  obtain ⟨j, _, hj⟩ := cellAt_of_mem _ c hc
  have e : cellAt (Dict.new : Dict T).table j = DictCell.empty := cellAt_new_table 8 j
  rw [e] at hj
  rw [← hj] at hk
  exact hk rfl

/-- Inserts into a fresh table of at most `3 * 2^28 + 1` keys of pairwise distinct
non-zero hashes all return, keep the invariant and store the inserted pairs. -/
theorem run_inserts_new (ps : List (Key × T))
    (hne : ∀ kv, kv ∈ ps → kv.1 ≠ []) (hnz : ∀ kv, kv ∈ ps → get_hash kv.1 ≠ 0)
    (hnd : (ps.map (fun kv => get_hash kv.1)).Nodup) (hlen : ps.length ≤ 3 * 2 ^ 28 + 1) :
    ∃ d, run_ops (2 ^ 32) Dict.new (ins_ops ps) = .ok d ∧ Inv d ∧
      ∀ c, c.key ≠ [] → (c ∈ d.table ↔ ∃ kv, kv ∈ ps ∧ c = cell_of kv) := by
  obtain ⟨d, hr, hinv, _, hm⟩ := run_inserts (2 ^ 32) (Nat.le_refl _) ps
    (Dict.new : Dict T) inv_new powCap_new (Or.inl rfl)
    (by show 0 + ps.length ≤ _; omega) hne hnz hnd
    (fun c hc hk => (no_key_new c hc hk).elim)
  refine ⟨d, hr, hinv, ?_⟩
  intro c hk
  rw [hm c hk]
  constructor
  · rintro (h | h)
    · exact (no_key_new c h hk).elim
    · exact h
  · exact Or.inr

/-- Inserts into a fresh table of keys of pairwise distinct non-zero hashes that
have returned left the invariant in place and stored the inserted pairs. -/
theorem run_inserts_new_of_ok (fuel : Nat) (ps : List (Key × T)) (d : Dict T)
    (hne : ∀ kv, kv ∈ ps → kv.1 ≠ []) (hnz : ∀ kv, kv ∈ ps → get_hash kv.1 ≠ 0)
    (hnd : (ps.map (fun kv => get_hash kv.1)).Nodup)
    (hr : run_ops fuel Dict.new (ins_ops ps) = .ok d) :
    Inv d ∧ ∀ c, c.key ≠ [] → (c ∈ d.table ↔ ∃ kv, kv ∈ ps ∧ c = cell_of kv) := by
  obtain ⟨hinv, _, hm⟩ := run_inserts_of_ok fuel ps (Dict.new : Dict T) d inv_new powCap_new
    hne hnz hnd (fun c hc hk => (no_key_new c hc hk).elim) hr
  refine ⟨hinv, ?_⟩
  intro c hk
  rw [hm c hk]
  constructor
  · rintro (h | h)
    · exact (no_key_new c h hk).elim
    · exact h
  · exact Or.inr

/-- On a table that stores the pairs of `ps`, of pairwise distinct hashes, the removes
of some of their keys, each once, return and leave the other pairs stored. -/
theorem run_removes_stored (ps : List (Key × T)) (rs : List Key) (d1 : Dict T)
    (hinv1 : Inv d1)
    (hm1 : ∀ c : DictCell T, c.key ≠ [] → (c ∈ d1.table ↔ ∃ kv, kv ∈ ps ∧ c = cell_of kv))
    (hne : ∀ kv, kv ∈ ps → kv.1 ≠ [])
    (hnd : (ps.map (fun kv => get_hash kv.1)).Nodup)
    (hrs : rs.Nodup) (hsub : ∀ k, k ∈ rs → k ∈ ps.map Prod.fst) :
    ∃ d, run_ops (2 ^ 32) d1 (rem_ops rs) = .ok d ∧ Inv d ∧
      ∀ kv, kv ∈ ps → kv.1 ∉ rs → Stored d kv.1 kv.2 := by
  have hinj : ∀ a, a ∈ ps → ∀ b, b ∈ ps → get_hash a.1 = get_hash b.1 → a = b :=
    fun a ha b hb he => List.inj_on_of_nodup_map hnd ha hb he
  have hstored : ∀ kv, kv ∈ ps → Stored d1 kv.1 kv.2 := by
    intro kv hkv
    unfold Stored
    rw [hm1 _ (hne kv hkv)]
    exact ⟨kv, hkv, rfl⟩
  have hrs_mem : ∀ k, k ∈ rs → ∃ kv, kv ∈ ps ∧ kv.1 = k := by
    intro k hk
    obtain ⟨kv, h1, h2⟩ := List.mem_map.mp (hsub k hk)
    exact ⟨kv, h1, h2⟩
  have hnd2 : (rs.map get_hash).Nodup := by
    refine List.Nodup.map_on ?_ hrs
    intro a ha b hb he
    obtain ⟨ka, hka, rfl⟩ := hrs_mem a ha
    obtain ⟨kb, hkb, rfl⟩ := hrs_mem b hb
    rw [hinj ka hka kb hkb he]
  obtain ⟨d2, hr2, hinv2, _, hm2⟩ := run_removes (2 ^ 32) rs d1 hinv1
    (Nat.le_of_lt hinv1.size_lt)
    (by
      intro k hk
      obtain ⟨kv, hkv, rfl⟩ := hrs_mem k hk
      exact hne kv hkv)
    (by
      intro k hk
      obtain ⟨kv, hkv, rfl⟩ := hrs_mem k hk
      exact ⟨kv.2, hstored kv hkv⟩)
    hnd2
  refine ⟨d2, hr2, hinv2, ?_⟩
  intro kv hkv hnr
  unfold Stored
  rw [hm2 _ (hne kv hkv)]
  refine ⟨hstored kv hkv, ?_⟩
  intro hmem
  obtain ⟨k, hk, he⟩ := List.mem_map.mp hmem
  obtain ⟨kv2, hkv2, rfl⟩ := hrs_mem k hk
  have := hinj kv2 hkv2 kv hkv he
  rw [this] at hk
  exact hnr hk

/-- Removing a key and looking it up, when the remove does not resize the table:
`get` returns the default value. -/
theorem get_remove_no_resize (fuel : Nat) (d d2 : Dict T) (key : Key)
    (hr : remove fuel d key = .ok d2)
    (hno : ¬ ((d.length + (2 ^ 32 - 1)) % 2 ^ 32 ≤ d.size / 8 ∧ d.size > default_size)) :
    get fuel d2 key = .ok default := by
  obtain ⟨hz, p, hp, hc | hc⟩ := remove_ok fuel d d2 key hr
  · exact absurd hc.1 hno
  · rw [hc.2]
    have hp2 : probe (stop_lookup (get_hash key)) (clear_cell d.table p) d.size fuel
        (get_hash key % d.size) = .ok p := by
      refine probe_transfer _ _ d.table _ d.size p ?_ ?_ fuel _ hp
      · have := probe_ok_stop _ _ _ _ _ _ hp
        unfold stop_lookup at this ⊢
        rw [hash_clear_cell]; exact this
      · intro x hx
        unfold stop_lookup at hx ⊢
        rw [hash_clear_cell]; exact hx
    rw [get_of_probe fuel ⟨_, d.size, clear_cell d.table p⟩ key p hz hp2]
    show (if (cellAt (clear_cell d.table p) p).hash = 0 then _ else _) = _
    by_cases h0 : (cellAt (clear_cell d.table p) p).hash = 0
    · rw [if_pos h0]
    · rw [if_neg h0]
      have hk : (cellAt (clear_cell d.table p) p).key = [] := by
        rw [hash_clear_cell] at h0
        rw [cellAt_clear_cell]
        simp [h0]
      simp [hk]

/-! ## The first inserts into a fresh table -/

/-- Any six or fewer inserts into a table built by `Dict()` return and leave the
capacity at 8. -/
theorem run_few_inserts (fuel : Nat) (hfuel : 16 ≤ fuel) :
    ∀ (ps : List (Key × T)) (d : Dict T), Shape d → d.size = 8 →
      live_count d.table ≤ d.length → d.length + ps.length ≤ 6 →
      ∃ d2, run_ops fuel d (ins_ops ps) = .ok d2 ∧ Shape d2 ∧ d2.size = 8 ∧
        live_count d2.table ≤ d2.length ∧ d2.length = d.length + ps.length := by
  intro ps
  induction ps with
  | nil =>
    intro d hs h8 hlc _
    exact ⟨d, rfl, hs, h8, hlc, rfl⟩
  | cons kv ps ih =>
    intro d hs h8 hlc hlen
    rw [List.length_cons] at hlen
    obtain ⟨d1, hi, hs1, hlc1⟩ := insert_returns fuel d kv.1 kv.2 hs (by omega)
      (by rw [h8]; decide) (by omega) (Or.inl (by omega))
    obtain ⟨hsz, _, hl⟩ := insert_size fuel d d1 kv.1 kv.2 hi
    have hg : ¬ d.length ≥ (3 * d.size) % 2 ^ 32 / 4 := by
      rw [h8]
      have : (3 * 8) % 2 ^ 32 / 4 = 6 := by decide
      rw [this]; omega
    rw [if_neg hg] at hsz
    have hl1 : d1.length = d.length + 1 := by
      rw [hl]; exact Nat.mod_eq_of_lt (by omega)
    obtain ⟨d2, hr, hs2, hsz2, hlc2, hl2⟩ := ih d1 hs1 (by omega) (by omega) (by omega)
    refine ⟨d2, ?_, hs2, hsz2, hlc2, by rw [List.length_cons]; omega⟩
    show run_ops fuel d (Op.ins kv.1 kv.2 :: ins_ops ps) = _
    rw [run_ops_cons_ok fuel d d1 (Op.ins kv.1 kv.2) _ hi]
    exact hr

/-! ## The hash function -/

theorem multiplier_odd (ch : UInt8) : multiplier ch % 2 = 1 := by
  unfold multiplier
  omega

theorem mul_mod_ne_zero_of_odd (h m : Nat) (hm : m % 2 = 1) (h0 : h ≠ 0) (hlt : h < 2 ^ 64) :
    (h * m) % 2 ^ 64 ≠ 0 := by
  intro hz
  have hdvd : 2 ^ 64 ∣ h * m := Nat.dvd_of_mod_eq_zero hz
  have hodd : Odd m := Nat.odd_iff.mpr hm
  have hcop : Nat.Coprime (2 ^ 64) m := Nat.Coprime.pow_left 64 (Nat.coprime_two_left.mpr hodd)
  have hdvd2 : 2 ^ 64 ∣ h := hcop.dvd_of_dvd_mul_right hdvd
  have := Nat.le_of_dvd (Nat.pos_of_ne_zero h0) hdvd2
  omega

/-! ## A table without keys -/

theorem change_size_new_table (fuel len n m : Nat) :
    change_size fuel (⟨len, n, new_table n⟩ : Dict T) m = .ok ⟨len, m, new_table m⟩ := by
  have h := copy_cells_all_empty fuel m (new_table m : List (DictCell T))
    (new_table n : List (DictCell T))
    (by
      intro c hc
      unfold new_table at hc
      rw [List.eq_of_mem_replicate hc]
      rfl)
  exact change_size_of_copy fuel ⟨len, n, new_table n⟩ m _ h

theorem probe_new_table (stop : DictCell T → Bool) (hstop : stop DictCell.empty = true)
    (m fuel i : Nat) : probe stop (new_table m) m (fuel + 1) i = .ok i := by
  rw [probe_succ, cellAt_new_table, hstop]
  rfl

theorem get_new_table (fuel len m : Nat) (key : Key) (hm : m ≠ 0) :
    get (fuel + 1) (⟨len, m, new_table m⟩ : Dict T) key = .ok default := by
  rw [get_of_probe (fuel + 1) ⟨len, m, new_table m⟩ key (get_hash key % m) hm
    (probe_new_table _ (by simp [stop_lookup, DictCell.empty]) m fuel _)]
  show (if (cellAt (new_table m) _).hash = 0 then _ else _) = _
  rw [cellAt_new_table]
  simp [DictCell.empty]

theorem clear_cell_new_table (m p : Nat) :
    clear_cell (new_table m : List (DictCell T)) p = new_table m := by
  unfold clear_cell
  rw [cellAt_new_table]
  simp [DictCell.empty]

theorem remove_new_table (fuel len m : Nat) (key : Key) (hm : m ≠ 0) :
    ∃ len2 m2, m2 ≠ 0 ∧
      remove (fuel + 1) (⟨len, m, new_table m⟩ : Dict T) key = .ok ⟨len2, m2, new_table m2⟩ := by
  rw [remove_of_probe (fuel + 1) ⟨len, m, new_table m⟩ key (get_hash key % m) hm
    (probe_new_table _ (by simp [stop_lookup, DictCell.empty]) m fuel _)]
  show ∃ len2 m2, m2 ≠ 0 ∧
    (if (len + (2 ^ 32 - 1)) % 2 ^ 32 ≤ m / 8 ∧ m > default_size then
      change_size (fuel + 1) ⟨(len + (2 ^ 32 - 1)) % 2 ^ 32, m, clear_cell (new_table m) _⟩ (m / 2)
    else .ok ⟨(len + (2 ^ 32 - 1)) % 2 ^ 32, m, clear_cell (new_table m) _⟩) =
      .ok ⟨len2, m2, new_table m2⟩
  rw [clear_cell_new_table]
  by_cases hc : (len + (2 ^ 32 - 1)) % 2 ^ 32 ≤ m / 8 ∧ m > default_size
  · rw [if_pos hc, change_size_new_table]
    have h8 : m > 8 := hc.2
    exact ⟨_, m / 2, by omega, rfl⟩
  · rw [if_neg hc]
    exact ⟨_, m, hm, rfl⟩

theorem run_removes_new_table (fuel : Nat) :
    ∀ (rs : List Key) (len m : Nat), m ≠ 0 →
      ∃ len2 m2, m2 ≠ 0 ∧
        run_ops (fuel + 1) (⟨len, m, new_table m⟩ : Dict T) (rem_ops rs) =
          .ok ⟨len2, m2, new_table m2⟩ := by
  intro rs
  induction rs with
  | nil => intro len m hm; exact ⟨len, m, hm, rfl⟩
  | cons k rs ih =>
    intro len m hm
    obtain ⟨len1, m1, hm1, hr1⟩ := remove_new_table (T := T) fuel len m k hm
    obtain ⟨len2, m2, hm2, hr2⟩ := ih len1 m1 hm1
    refine ⟨len2, m2, hm2, ?_⟩
    show run_ops (fuel + 1) _ (Op.rem k :: rem_ops rs) = _
    rw [run_ops_cons_ok (fuel + 1) _ _ (Op.rem k) _ hr1]
    exact hr2

/-! ## The counter `length` -/

theorem run_ops_length (fuel : Nat) :
    ∀ (ops : List (Op T)) (d dfin : Dict T), d.length < 2 ^ 32 →
      run_ops fuel d ops = .ok dfin →
      (dfin.length : Int) = ((d.length : Int) + count_ins ops - count_rem ops) % 2 ^ 32 := by
  intro ops
  induction ops with
  | nil =>
    intro d dfin hlt h
    rw [run_ops_nil] at h
    injection h with h
    rw [← h]
    simp only [count_ins, count_rem, List.countP_nil]
    omega
  | cons op ops ih =>
    intro d dfin hlt h
    cases hrun : op.run fuel d with
    | error e =>
      unfold run_ops at h
      rw [hrun] at h
      simp at h
    | ok dm =>
      rw [run_ops_cons_ok fuel d dm op ops hrun] at h
      cases op with
      | ins key value =>
        have hl := (insert_size fuel d dm key value hrun).2.2
        have hlt2 : dm.length < 2 ^ 32 := by rw [hl]; exact Nat.mod_lt _ (by decide)
        have e := ih dm dfin hlt2 h
        have c1 : count_ins (Op.ins key value :: ops) = count_ins ops + 1 := by
          simp [count_ins, Op.is_ins]
        have c2 : count_rem (Op.ins key value :: ops) = count_rem ops := by
          simp [count_rem, Op.is_ins]
        rw [c1, c2, e, hl]
        omega
      | rem key =>
        have hl := (remove_size fuel d dm key hrun).1
        have hlt2 : dm.length < 2 ^ 32 := by rw [hl]; exact Nat.mod_lt _ (by decide)
        have e := ih dm dfin hlt2 h
        have c1 : count_ins (Op.rem key :: ops) = count_ins ops := by
          simp [count_ins, Op.is_ins]
        have c2 : count_rem (Op.rem key :: ops) = count_rem ops + 1 := by
          simp [count_rem, Op.is_ins]
        rw [c1, c2, e, hl]
        omega

/-! ## The cell where a probe stops -/

/-- A probe stops at the first cell of its sequence that passes the test. -/
theorem probe_ok_first (stop : DictCell T → Bool) (t : List (DictCell T)) (size : Nat) :
    ∀ (fuel i p : Nat), probe stop t size fuel i = .ok p → i < size →
      ∃ m, m < fuel ∧ (i + m) % size = p ∧ stop (cellAt t p) = true ∧
        ∀ m2, m2 < m → stop (cellAt t ((i + m2) % size)) = false := by
  intro fuel
  induction fuel with
  | zero => intro i p h; simp [probe_zero] at h
  | succ n ih =>
    intro i p h hi
    rw [probe_succ] at h
    by_cases hs : stop (cellAt t i) = true
    · simp [hs] at h
      subst h
      exact ⟨0, by omega, Nat.mod_eq_of_lt hi, hs, fun m2 hm2 => by omega⟩
    · simp [hs] at h
      have hpos : 0 < size := by omega
      obtain ⟨m, hm, hp, hst, hall⟩ := ih _ p h (Nat.mod_lt _ hpos)
      refine ⟨m + 1, by omega, ?_, hst, ?_⟩
      · rw [← hp, Nat.mod_add_mod]
        congr 1
        omega
      · intro m2 hm2
        cases m2 with
        | zero => simpa [Nat.mod_eq_of_lt hi] using hs
        | succ k =>
          have := hall k (by omega)
          rw [Nat.mod_add_mod] at this
          rw [show i + (k + 1) = i + 1 + k by omega]
          exact this

/-! ## The cells copied by a resize -/

theorem filter_set_perm (c : DictCell T) (hc : c.key ≠ []) :
    ∀ (t : List (DictCell T)) (p : Nat), p < t.length → (cellAt t p).key = [] →
      ((t.set p c).filter is_live).Perm (c :: t.filter is_live) := by
  have hcl : is_live c = true := (is_live_iff c).mpr hc
  intro t
  induction t with
  | nil => intro p hp; simp at hp
  | cons x xs ih =>
    intro p hp hk
    cases p with
    | zero =>
      have hx : is_live x = false := (is_live_false_iff x).mpr hk
      simp [List.filter_cons, hcl, hx]
    | succ k =>
      have hk2 : (cellAt xs k).key = [] := hk
      have hperm := ih k (by simpa using hp) hk2
      rw [List.set_cons_succ]
      by_cases hx : is_live x = true
      · rw [List.filter_cons_of_pos hx, List.filter_cons_of_pos hx]
        exact (List.Perm.cons x hperm).trans (List.Perm.swap c x _)
      · rw [List.filter_cons_of_neg hx, List.filter_cons_of_neg hx]
        exact hperm

theorem copy_cells_perm (fuel n : Nat) :
    ∀ (src dest r : List (DictCell T)), dest.length = n →
      copy_cells fuel n src dest = .ok r →
      (r.filter is_live).Perm (dest.filter is_live ++ src.filter is_live) := by
  intro src
  induction src with
  | nil =>
    intro dest r _ h
    rw [copy_cells_nil] at h
    injection h with h
    rw [h]
    simp
  | cons c rest ih =>
    intro dest r hlen h
    rcases copy_cells_cons_ok fuel n c rest dest r h with ⟨hk, h2⟩ | ⟨hk, hn, p, hp, h2⟩
    · have hx : is_live c = false := (is_live_false_iff c).mpr hk
      rw [List.filter_cons_of_neg (by simp [hx])]
      exact ih dest r hlen h2
    · have hcl : is_live c = true := (is_live_iff c).mpr hk
      have hpos : 0 < n := Nat.pos_of_ne_zero hn
      have hpn : p < dest.length := by
        rw [hlen]; exact probe_ok_lt _ _ _ _ _ _ hp (Nat.mod_lt _ hpos)
      have hpk : (cellAt dest p).key = [] := stop_copy_true (probe_ok_stop _ _ _ _ _ _ hp)
      have h3 := ih (dest.set p c) r (by rw [List.length_set]; exact hlen) h2
      rw [List.filter_cons_of_pos hcl]
      refine h3.trans ?_
      refine (List.Perm.append_right _ (filter_set_perm c hk dest p hpn hpk)).trans ?_
      exact (List.perm_middle).symm

omit [Inhabited T] in
theorem key_empty_of_live_count_zero (t : List (DictCell T)) (h : live_count t = 0)
    (c : DictCell T) (hc : c ∈ t) : c.key = [] := by
  unfold live_count at h
  rw [List.countP_eq_zero] at h
  have := h c hc
  exact (is_live_false_iff c).mp (by simpa using this)

omit [Inhabited T] in
theorem filter_live_eq_nil (t : List (DictCell T)) (h : ∀ c, c ∈ t → c.key = []) :
    t.filter is_live = [] := by
  rw [List.filter_eq_nil_iff]
  intro c hc
  rw [(is_live_false_iff c).mpr (h c hc)]
  simp

/-! ## Well-formed use -/

theorem occupied_count_eq (t : List (DictCell T)) (hnz : NonZero t) :
    occupied_count t = live_count t := by
  unfold occupied_count live_count
  apply List.countP_congr
  intro c hc
  obtain ⟨j, _, hj⟩ := cellAt_of_mem t c hc
  have h := hnz j
  rw [hj] at h
  unfold is_live
  by_cases hk : c.key = []
  · simp [hk]
  · have hl : c.key.length ≠ 0 := fun e => hk (List.length_eq_zero.mp e)
    simp [hl, h hk]

/-- A returning `remove` of a stored key keeps the invariant. -/
theorem remove_inv_of_ok (fuel : Nat) (d d2 : Dict T) (key : Key) (value : T)
    (hinv : Inv d) (hst : Stored d key value) (hk : key ≠ [])
    (hr : remove fuel d key = .ok d2) :
    Inv d2 ∧ d2.length + 1 = d.length ∧
      ∀ c, c.key ≠ [] → (c ∈ d2.table ↔ c ∈ d.table ∧ c.hash ≠ get_hash key) := by
  obtain ⟨d3, hr3, hinv3, hl3, _, hm3⟩ := remove_inv (max fuel d.size) d key value hinv hst hk
    (le_max_right _ _)
  have e := remove_mono fuel (max fuel d.size) (le_max_left _ _) d d2 key hr
  rw [hr3] at e
  injection e with e
  rw [← e]
  exact ⟨hinv3, hl3, hm3⟩

theorem keysFrom_new (P : Key → Prop) : KeysFrom P (Dict.new : Dict T).table :=
  fun c hc hk => (no_key_new c hc hk).elim

/-- The invariant of well-formed use: the representation invariant, a capacity of the
form `8 * 2^j`, stored keys from `P` under their hashes, and `length` within 3/4 of the
capacity. -/
theorem wellFormed_inv (P : Key → Prop) (hP : ∀ k, P k → k ≠ [] ∧ get_hash k ≠ 0)
    (hinj : ∀ k k2, P k → P k2 → get_hash k = get_hash k2 → k = k2)
    (d : Dict T) (hw : WellFormed P d) :
    Inv d ∧ PowCap d.size ∧ KeysFrom P d.table ∧ d.length ≤ 3 * d.size / 4 := by
  induction hw with
  | init =>
    exact ⟨inv_new, powCap_new, keysFrom_new P, by show 0 ≤ 3 * 8 / 4; omega⟩
  | insert fuel d d2 key value _ hPk hns hi ih =>
    obtain ⟨hinv, hcap, hkeys, hbound⟩ := ih
    have hfresh : ∀ j, (cellAt d.table j).key ≠ [] →
        (cellAt d.table j).hash ≠ get_hash key := by
      intro j hkj he
      have hmem := cellAt_mem d.table j (lt_of_key_ne _ j hkj)
      obtain ⟨hPc, hhc⟩ := hkeys _ hmem hkj
      rw [hhc] at he
      exact hns _ hmem (hinj _ _ hPc hPk he)
    obtain ⟨hinv2, hcap2, hl2, hm2⟩ := insert_inv_of_ok fuel d d2 key value hinv hcap
      (hP key hPk).1 (hP key hPk).2 hfresh hi
    refine ⟨hinv2, hcap2, ?_, ?_⟩
    · intro c hc hk
      rcases (hm2 c hk).mp hc with h | h
      · rw [h]; exact ⟨hPk, rfl⟩
      · exact hkeys c h hk
    · obtain ⟨hsz, hz2, _⟩ := insert_size fuel d d2 key value hi
      have h8 := powCap_le d.size hcap
      rcases powCap_cases d.size hcap with h3 | h31
      · have e3 : (3 * d.size) % 2 ^ 32 = 3 * d.size := Nat.mod_eq_of_lt h3
        have e2 : (d.size * 2) % 2 ^ 32 = d.size * 2 := Nat.mod_eq_of_lt (by omega)
        rw [e3, e2] at hsz
        by_cases hg : d.length ≥ 3 * d.size / 4
        · rw [if_pos hg] at hsz
          rw [hl2, hsz]; omega
        · rw [if_neg hg] at hsz
          rw [hl2, hsz]; omega
      · have hthr : (3 * d.size) % 2 ^ 32 / 4 = 2 ^ 29 := by rw [h31]; decide
        have hdbl : (d.size * 2) % 2 ^ 32 = 0 := by rw [h31]; decide
        rw [hthr, hdbl] at hsz
        by_cases hg : d.length ≥ 2 ^ 29
        · rw [if_pos hg] at hsz
          exact absurd hsz hz2
        · rw [if_neg hg] at hsz
          rw [hl2, hsz, h31]; omega
  | remove fuel d d2 key _ hPk hst hr ih =>
    obtain ⟨hinv, hcap, hkeys, hbound⟩ := ih
    obtain ⟨c, hc, hck⟩ := hst
    have hk : key ≠ [] := (hP key hPk).1
    have hcne : c.key ≠ [] := by rw [hck]; exact hk
    have hstored : Stored d key c.value := by
      unfold Stored
      have hh := (hkeys c hc hcne).2
      rw [hck] at hh
      have e : (⟨get_hash key, key, c.value⟩ : DictCell T) = c := by
        cases c
        simp only [DictCell.mk.injEq] at *
        exact ⟨hh.symm, hck.symm, trivial⟩
      rw [e]; exact hc
    obtain ⟨hinv2, hl2, hm2⟩ := remove_inv_of_ok fuel d d2 key c.value hinv hstored hk hr
    obtain ⟨hlen, hsz⟩ := remove_size fuel d d2 key hr
    have h8 := powCap_le d.size hcap
    refine ⟨hinv2, ?_, ?_, ?_⟩
    · by_cases hcnd : d2.length ≤ d.size / 8 ∧ d.size > 8
      · rw [if_pos hcnd] at hsz
        rw [hsz]; exact powCap_half d.size hcap hcnd.2
      · rw [if_neg hcnd] at hsz
        rw [hsz]; exact hcap
    · intro c2 hc2 hk2
      exact hkeys c2 ((hm2 c2 hk2).mp hc2).1 hk2
    · by_cases hcnd : d2.length ≤ d.size / 8 ∧ d.size > 8
      · rw [if_pos hcnd] at hsz
        rw [hsz]; omega
      · rw [if_neg hcnd] at hsz
        rw [hsz]; omega

/-! ## A resize without room, and calls that fail -/

theorem copy_cells_cons_probe_error (fuel n : Nat) (c : DictCell T)
    (rest dest : List (DictCell T)) (e : Fault) (hk : c.key ≠ []) (hn : n ≠ 0)
    (hp : probe stop_copy dest n fuel (c.hash % n) = .error e) :
    copy_cells fuel n (c :: rest) dest = .error e := by
  conv => lhs; unfold copy_cells
  have hk2 : ¬ c.key.length = 0 := by
    intro hl; exact hk (List.length_eq_zero.mp hl)
  simp only [beq_iff_eq, hk2, if_false, hn, hp]

/-- With a destination of non-zero size the copy loop fails only by running out of
fuel. -/
theorem copy_cells_error (fuel n : Nat) (hn : n ≠ 0) :
    ∀ (src dest : List (DictCell T)) (e : Fault),
      copy_cells fuel n src dest = .error e → e = .fuel := by
  intro src
  induction src with
  | nil => intro dest e h; rw [copy_cells_nil] at h; cases h
  | cons c rest ih =>
    intro dest e h
    by_cases hk : c.key = []
    · rw [copy_cells_cons_skip fuel n c rest dest hk] at h
      exact ih dest e h
    · cases hp : probe stop_copy dest n fuel (c.hash % n) with
      | error e2 =>
        rw [copy_cells_cons_probe_error fuel n c rest dest e2 hk hn hp] at h
        injection h with h
        rw [← h]
        exact probe_error _ _ _ _ _ _ hp
      | ok p =>
        rw [copy_cells_cons_place fuel n c rest dest p hk hn hp] at h
        exact ih _ e h

theorem change_size_error (fuel : Nat) (d : Dict T) (n : Nat) (e : Fault) (hn : n ≠ 0)
    (h : change_size fuel d n = .error e) : e = .fuel := by
  unfold change_size copy_in_table at h
  cases hc : copy_cells fuel n d.table (new_table n) with
  | error e2 =>
    rw [hc] at h
    injection h with h
    rw [← h]
    exact copy_cells_error fuel n hn _ _ _ hc
  | ok t => rw [hc] at h; cases h

/-- A resize that returns had room for every cell holding a key. -/
theorem change_size_room (fuel : Nat) (d d1 : Dict T) (n : Nat)
    (h : change_size fuel d n = .ok d1) : live_count d.table ≤ n := by
  obtain ⟨t, ht, _⟩ := change_size_ok fuel d d1 n h
  have hperm := copy_cells_perm fuel n d.table (new_table n) t (List.length_replicate _ _) ht
  have hlen := copy_cells_length fuel n _ _ t ht
  have hl := hperm.length_eq
  rw [List.length_append] at hl
  have h1 : live_count t = (t.filter is_live).length := List.countP_eq_length_filter _ _
  have h2 : live_count d.table = (d.table.filter is_live).length :=
    List.countP_eq_length_filter _ _
  have h3 := live_count_le t
  have h4 : (new_table n : List (DictCell T)).length = n := List.length_replicate _ _
  omega

theorem remove_error (fuel : Nat) (d : Dict T) (key : Key) (e : Fault) (hz : d.size ≠ 0)
    (hz2 : d.size / 2 ≠ 0) (h : remove fuel d key = .error e) : e = .fuel := by
  unfold remove at h
  simp only [hz, if_false] at h
  cases hp : probe (stop_lookup (get_hash key)) d.table d.size fuel (get_hash key % d.size) with
  | error e2 =>
    rw [hp] at h
    injection h with h
    rw [← h]
    exact probe_error _ _ _ _ _ _ hp
  | ok p =>
    rw [hp] at h
    by_cases hc : (d.length + (2 ^ 32 - 1)) % 2 ^ 32 ≤ d.size / 8 ∧ d.size > default_size
    · simp only [hc, and_self, if_true] at h
      exact change_size_error fuel _ _ e hz2 h
    · simp only [hc, if_false] at h
      cases h

theorem run_ops_cons_error (fuel : Nat) (d : Dict T) (op : Op T) (ops : List (Op T))
    (e : Fault) (h : op.run fuel d = .error e) : run_ops fuel d (op :: ops) = .error e := by
  conv => lhs; unfold run_ops
  rw [h]

end Basic

/-! ## The contract of the table -/

/-- C1, as stated, fails for the empty string: on a fresh table `insert("", 1)`
returns, and the following `get("")` returns the default value 0, not 1. -/
theorem round_trip_empty_key :
    ∃ d, insert 8 (Dict.new : Dict Nat) [] 1 = .ok d ∧ get 8 d [] = .ok 0 :=
  ⟨_, rfl, rfl⟩

/-- C1, amended: on every state reachable from a fresh default table by calls whose
keys have a non-zero hash, for every non-empty key of non-zero hash and every value,
when `insert(key, value)` returns, the following `get(key)` returns `value`. -/
theorem round_trip (T : Type) [Inhabited T] (fuel : Nat) (d d2 : Dict T) (key : Key)
    (value : T) (hr : Reachable (fun k => get_hash k ≠ 0) d) (hk : key ≠ [])
    (hh : get_hash key ≠ 0) (hi : insert fuel d key value = .ok d2) :
    get fuel d2 key = .ok value :=
  get_insert fuel d d2 key value (reachableFrom_shape _ _ d shape_new hr)
    (reachableFrom_nonZero _ (fun _ h => h) _ d (nonZero_new_table 8) hr) hk hh hi

/-- The round trip for the key "cat" on the table of the demonstration program after
its seven inserts and five removes. -/
theorem round_trip_witness :
    run_ops 16 Dict.new (ins_ops demo_pairs ++ rem_ops demo_removed) = .ok demo_state ∧
    ∃ d2, insert 16 demo_state [99, 97, 116] 1 = .ok d2 ∧ get 16 d2 [99, 97, 116] = .ok 1 := by
  have hd : run_ops 16 Dict.new (ins_ops demo_pairs ++ rem_ops demo_removed) = .ok demo_state := by
    rfl
  have hreach : Reachable (fun k => get_hash k ≠ 0) demo_state :=
    reachableFrom_run_ops _ 16 _ (ins_ops demo_pairs ++ rem_ops demo_removed) _ _
      ReachableFrom.init (by decide) hd
  obtain ⟨d2, h2, _, _⟩ := insert_returns 16 demo_state [99, 97, 116] 1 (by rfl) (by decide)
    (by decide) (by decide) (Or.inl (by decide))
  exact ⟨hd, d2, h2,
    round_trip Nat 16 demo_state d2 [99, 97, 116] 1 hreach (by decide) (by decide) h2⟩

/-- C2: a `remove` that triggers a shrink brings back an older value of the removed
key.  After "i" was written into two cells (its first cell lies behind the cell that
"a" freed, so its second insert stopped at the freed cell), `remove("i")` clears one
of them, halves the table from 16 to 8 cells, and `get("i")` returns the value 10 of
the other cell. -/
theorem remove_shrink_stale :
    Reachable (fun _ => True) stale_state ∧
    run_ops 16 Dict.new stale_ops = .ok stale_state ∧
    remove 16 stale_state [105] = .ok stale_removed ∧
    stale_state.size = 16 ∧ stale_removed.size = 8 ∧
    get 16 stale_removed [105] = .ok 10 := by
  have hd : run_ops 16 Dict.new stale_ops = .ok stale_state := by rfl
  refine ⟨reachableFrom_run_ops _ 16 _ stale_ops _ _ ReachableFrom.init (fun _ _ => trivial) hd,
    hd, ?_, rfl, rfl, ?_⟩
  · rfl
  · rfl

/-- Overwrite where the first insert returns.  On a state reachable from a fresh default
table by calls with non-empty keys of non-zero hash, after `insert(key, v1)` has
returned, every returning `insert(key, v2)` is followed by a `get(key)` that returns
`v2`, with or without a growth; and the second insert does return when twice the
capacity fits in 32 bits. -/
theorem overwrite (T : Type) [Inhabited T] (fuel : Nat) (d d1 : Dict T) (key : Key)
    (v1 v2 : T) (hr : Reachable (fun k => k ≠ [] ∧ get_hash k ≠ 0) d) (hk : key ≠ [])
    (hh : get_hash key ≠ 0) (h1 : insert fuel d key v1 = .ok d1) :
    (∀ d2, insert fuel d1 key v2 = .ok d2 → get fuel d2 key = .ok v2) ∧
    (2 * d1.size < 2 ^ 32 → 2 * d1.size ≤ fuel →
      ∃ d2, insert fuel d1 key v2 = .ok d2 ∧ get fuel d2 key = .ok v2) := by
  have hr1 : Reachable (fun k => k ≠ [] ∧ get_hash k ≠ 0) d1 :=
    ReachableFrom.insert fuel d d1 key v1 hr ⟨hk, hh⟩ h1
  have hs1 : Shape d1 := reachableFrom_shape _ _ d1 shape_new hr1
  have hnz1 : NonZero d1.table :=
    reachableFrom_nonZero _ (fun _ h => h.2) _ d1 (nonZero_new_table 8) hr1
  have hpart : ∀ d2, insert fuel d1 key v2 = .ok d2 → get fuel d2 key = .ok v2 :=
    fun d2 h2 => get_insert fuel d1 d2 key v2 hs1 hnz1 hk hh h2
  refine ⟨hpart, ?_⟩
  intro h32 hfuel
  have hpos : 0 < d1.size := Nat.pos_of_ne_zero (insert_size fuel d d1 key v1 h1).2.1
  have hmem := mem_of_insert fuel d d1 key v1 (reachableFrom_shape _ _ d shape_new hr) h1
  obtain ⟨d2, h2, _, _⟩ := insert_returns fuel d1 key v2 hs1 hpos h32 hfuel
    (Or.inr ⟨_, hmem, hk, rfl⟩)
  exact ⟨d2, h2, hpart d2 h2⟩

/-- The overwrite of "dolphin" on the table of the demonstration program after its
first six inserts: the first insert grows the table, the second returns, and `get`
returns the second value. -/
theorem overwrite_witness :
    run_ops 16 Dict.new (ins_ops (demo_pairs.take 6)) = .ok demo_six ∧
    ∃ d1, insert 32 demo_six [100, 111, 108, 112, 104, 105, 110] 7 = .ok d1 ∧ d1.size = 16 ∧
      ∃ d2, insert 32 d1 [100, 111, 108, 112, 104, 105, 110] 8 = .ok d2 ∧
        get 32 d2 [100, 111, 108, 112, 104, 105, 110] = .ok 8 := by
  have hd : run_ops 16 Dict.new (ins_ops (demo_pairs.take 6)) = .ok demo_six := by rfl
  have hreach : Reachable (fun k => k ≠ [] ∧ get_hash k ≠ 0) demo_six :=
    reachableFrom_run_ops _ 16 _ (ins_ops (demo_pairs.take 6)) _ _
      ReachableFrom.init (by decide) hd
  obtain ⟨d1, h1, _, _⟩ := insert_returns 32 demo_six [100, 111, 108, 112, 104, 105, 110] 7
    (by rfl) (by decide) (by decide) (by decide) (Or.inl (by decide))
  have hsz : d1.size = 16 := by
    rw [(insert_size 32 demo_six d1 _ 7 h1).1]
    decide
  exact ⟨hd, d1, h1, hsz,
    (overwrite Nat 32 demo_six d1 [100, 111, 108, 112, 104, 105, 110] 7 8 hreach (by decide)
      (by decide) h1).2 (by rw [hsz]; decide) (by rw [hsz])⟩

/-- C4: none of the three methods terminates on every reachable state.  Eight rounds
of `insert(k)`, `remove(k)` with the keys "a" to "h", whose hashes start in the eight
different slots, leave a tombstone in every cell of the table of capacity 8 (no resize
happens); the lookup loop of `get("i")` and of `remove("i")` then never meets a cell of
hash 0 or of the hash of "i", for any number of iterations.  And when the inserts of
"a" to "h" alternate with removes of the key "z", which is not stored, `length` stays
below the growth threshold while every cell gets a key, and the loop of `insert("i", 9)`
never meets a cell to write. -/
theorem lookup_diverges :
    Reachable (fun k => k ≠ [] ∧ get_hash k ≠ 0) tombstone_state ∧
    run_ops 8 Dict.new tombstone_ops = .ok tombstone_state ∧
    (∀ fuel, get fuel tombstone_state [105] = .error .fuel) ∧
    (∀ fuel, remove fuel tombstone_state [105] = .error .fuel) ∧
    Reachable (fun k => k ≠ [] ∧ get_hash k ≠ 0) full_state ∧
    run_ops 8 Dict.new full_ops = .ok full_state ∧
    (∀ fuel, insert fuel full_state [105] 9 = .error .fuel) := by
  have hd : run_ops 8 Dict.new tombstone_ops = .ok tombstone_state := by rfl
  have hf : run_ops 8 Dict.new full_ops = .ok full_state := by rfl
  refine ⟨reachableFrom_run_ops _ 8 _ tombstone_ops _ _ ReachableFrom.init (by decide) hd,
    hd, ?_, ?_,
    reachableFrom_run_ops _ 8 _ full_ops _ _ ReachableFrom.init (by decide) hf, hf, ?_⟩
  · exact get_diverges _ _ (by decide) (by decide)
  · exact remove_diverges _ _ (by decide) (by decide)
  · exact insert_diverges _ _ _ (by decide) (by decide) (by decide)

/-- C5: starting from a fresh default table, the inserts of any list of pairs whose
keys are non-empty and have pairwise distinct non-zero hashes, of at most
`3 * 2^28 + 1` pairs (beyond that `size*2` no longer fits in 32 bits), all return,
and afterwards `get` of every inserted key returns its value. -/
theorem growth_keeps_keys (T : Type) [Inhabited T] (ps : List (Key × T))
    (hne : ∀ kv, kv ∈ ps → kv.1 ≠ []) (hnz : ∀ kv, kv ∈ ps → get_hash kv.1 ≠ 0)
    (hnd : (ps.map (fun kv => get_hash kv.1)).Nodup) (hlen : ps.length ≤ 3 * 2 ^ 28 + 1) :
    ∃ d, run_ops (2 ^ 32) Dict.new (ins_ops ps) = .ok d ∧
      ∀ kv, kv ∈ ps → get (2 ^ 32) d kv.1 = .ok kv.2 := by
  obtain ⟨d, hr, hinv, hm⟩ := run_inserts_new ps hne hnz hnd hlen
  refine ⟨d, hr, ?_⟩
  intro kv hkv
  refine get_of_stored (2 ^ 32) d kv.1 kv.2 hinv ?_ (hne kv hkv) (Nat.le_of_lt hinv.size_lt)
  unfold Stored
  rw [hm _ (hne kv hkv)]
  exact ⟨kv, hkv, rfl⟩

/-- The seven keys of the demonstration program stay retrievable across the growth
to 16 cells. -/
theorem growth_keeps_keys_witness :
    ∃ d, run_ops (2 ^ 32) Dict.new (ins_ops demo_pairs) = .ok d ∧
      ∀ kv, kv ∈ demo_pairs → get (2 ^ 32) d kv.1 = .ok kv.2 :=
  growth_keeps_keys Nat demo_pairs (by decide) (by decide) (by decide) (by decide)

/-- C6: starting from a fresh default table, once the inserts of pairs whose keys are
non-empty with pairwise distinct non-zero hashes have returned, the removes of some
of these keys, each at most once, all return, and `get` of every key that was not
removed returns its inserted value, whatever halvings the removes trigger.  The
inserts do return for at most `3 * 2^28 + 1` pairs. -/
theorem shrink_keeps_keys (T : Type) [Inhabited T] (ps : List (Key × T)) (rs : List Key)
    (hne : ∀ kv, kv ∈ ps → kv.1 ≠ []) (hnz : ∀ kv, kv ∈ ps → get_hash kv.1 ≠ 0)
    (hnd : (ps.map (fun kv => get_hash kv.1)).Nodup)
    (hrs : rs.Nodup) (hsub : ∀ k, k ∈ rs → k ∈ ps.map Prod.fst) :
    (∀ fuel d1, run_ops fuel Dict.new (ins_ops ps) = .ok d1 →
      ∃ d, run_ops (2 ^ 32) d1 (rem_ops rs) = .ok d ∧
        ∀ kv, kv ∈ ps → kv.1 ∉ rs → get (2 ^ 32) d kv.1 = .ok kv.2) ∧
    (ps.length ≤ 3 * 2 ^ 28 + 1 →
      ∃ d, run_ops (2 ^ 32) Dict.new (ins_ops ps ++ rem_ops rs) = .ok d ∧
        ∀ kv, kv ∈ ps → kv.1 ∉ rs → get (2 ^ 32) d kv.1 = .ok kv.2) := by
  constructor
  · intro fuel d1 hins
    obtain ⟨hinv1, hm1⟩ := run_inserts_new_of_ok fuel ps d1 hne hnz hnd hins
    obtain ⟨d, hr, hinv, hst⟩ := run_removes_stored ps rs d1 hinv1 hm1 hne hnd hrs hsub
    exact ⟨d, hr, fun kv hkv hnr =>
      get_of_stored (2 ^ 32) d kv.1 kv.2 hinv (hst kv hkv hnr) (hne kv hkv)
        (Nat.le_of_lt hinv.size_lt)⟩
  · intro hlen
    obtain ⟨d1, hr1, hinv1, hm1⟩ := run_inserts_new ps hne hnz hnd hlen
    obtain ⟨d, hr, hinv, hst⟩ := run_removes_stored ps rs d1 hinv1 hm1 hne hnd hrs hsub
    refine ⟨d, ?_, fun kv hkv hnr =>
      get_of_stored (2 ^ 32) d kv.1 kv.2 hinv (hst kv hkv hnr) (hne kv hkv)
        (Nat.le_of_lt hinv.size_lt)⟩
    rw [run_ops_append (2 ^ 32) _ _ _ d1 hr1]
    exact hr

/-- The demonstration program: its seven inserts return `demo_seven`, its five
removes then return, and "dog" and "tiger" stay retrievable. -/
theorem shrink_keeps_keys_witness :
    run_ops 16 Dict.new (ins_ops demo_pairs) = .ok demo_seven ∧
    (∃ d, run_ops (2 ^ 32) demo_seven (rem_ops demo_removed) = .ok d ∧
      ∀ kv, kv ∈ demo_pairs → kv.1 ∉ demo_removed → get (2 ^ 32) d kv.1 = .ok kv.2) ∧
    (∃ d, run_ops (2 ^ 32) Dict.new (ins_ops demo_pairs ++ rem_ops demo_removed) = .ok d ∧
      ∀ kv, kv ∈ demo_pairs → kv.1 ∉ demo_removed → get (2 ^ 32) d kv.1 = .ok kv.2) :=
  ⟨by rfl,
    (shrink_keeps_keys Nat demo_pairs demo_removed (by decide) (by decide) (by decide)
      (by decide) (by decide)).1 16 demo_seven (by rfl),
    (shrink_keeps_keys Nat demo_pairs demo_removed (by decide) (by decide) (by decide)
      (by decide) (by decide)).2 (by decide)⟩

/-- C7: on a fresh default table, for two non-empty keys of distinct non-zero hashes
with the same initial probe slot, `insert(k1, v1)`, `insert(k2, v2)` and `remove(k1)`
return, and `get(k2)` then returns `v2`. -/
theorem tombstone_transparency (T : Type) [Inhabited T] (k1 k2 : Key) (v1 v2 : T)
    (h1 : k1 ≠ []) (h2 : k2 ≠ []) (hz1 : get_hash k1 ≠ 0) (hz2 : get_hash k2 ≠ 0)
    (hne : get_hash k1 ≠ get_hash k2)
    (hslot : get_hash k1 % default_size = get_hash k2 % default_size) :
    ∃ d, run_ops (2 ^ 32) Dict.new [.ins k1 v1, .ins k2 v2, .rem k1] = .ok d ∧
      get (2 ^ 32) d k2 = .ok v2 := by
  have _ := hslot
  have hk12 : k1 ≠ k2 := fun e => hne (by rw [e])
  have hne2 : ∀ kv, kv ∈ [(k1, v1), (k2, v2)] → kv.1 ≠ [] := by
    intro kv hkv
    simp only [List.mem_cons, List.mem_singleton, List.not_mem_nil, or_false] at hkv
    rcases hkv with e | e <;> rw [e] <;> assumption
  have hnz2 : ∀ kv, kv ∈ [(k1, v1), (k2, v2)] → get_hash kv.1 ≠ 0 := by
    intro kv hkv
    simp only [List.mem_cons, List.mem_singleton, List.not_mem_nil, or_false] at hkv
    rcases hkv with e | e <;> rw [e] <;> assumption
  have hnd2 : ([(k1, v1), (k2, v2)].map (fun kv => get_hash kv.1)).Nodup := by simp [hne]
  obtain ⟨d1, hr1, hinv1, hm1⟩ := run_inserts_new [(k1, v1), (k2, v2)] hne2 hnz2 hnd2 (by simp)
  obtain ⟨d, hr, hinv, hst⟩ := run_removes_stored [(k1, v1), (k2, v2)] [k1] d1 hinv1 hm1 hne2
    hnd2 (by simp) (by simp)
  refine ⟨d, ?_, ?_⟩
  · have e : ([.ins k1 v1, .ins k2 v2, .rem k1] : List (Op T)) =
        ins_ops [(k1, v1), (k2, v2)] ++ rem_ops [k1] := rfl
    rw [e, run_ops_append (2 ^ 32) _ _ _ d1 hr1]
    exact hr
  · refine get_of_stored (2 ^ 32) d k2 v2 hinv (hst (k2, v2) (by simp) ?_) h2
      (Nat.le_of_lt hinv.size_lt)
    simp only [List.mem_singleton]
    exact fun e => hk12 e.symm

/-- The keys "a" and "i" both start their probe in slot 1 of the 8 cells. -/
theorem tombstone_transparency_witness :
    get_hash [97] % default_size = 1 ∧ get_hash [105] % default_size = 1 ∧
    ∃ d, run_ops (2 ^ 32) (Dict.new : Dict Nat) [.ins [97] 1, .ins [105] 2, .rem [97]] = .ok d ∧
      get (2 ^ 32) d [105] = .ok 2 :=
  ⟨by decide, by decide,
    tombstone_transparency Nat [97] [105] 1 2 (by decide) (by decide) (by decide)
      (by decide) (by decide) (by decide)⟩

/-- C8: the growth test of `insert` overflows its 32-bit arithmetic.  On the fresh table
built by `Dict(1431655766)` the product `3*size` wraps around to 2, so the threshold
computed is 0 and the first `insert` doubles the capacity to 2863311532 although the
length 0 is below `3*size/4 = 1073741824`, three quarters of the capacity. -/
theorem growth_rule_wraps :
    ∃ d2, insert 1 (Dict.new_sized 1431655766 : Dict Nat) [97] 1 = .ok d2 ∧
      d2.size = 2 * 1431655766 ∧
      ¬ (Dict.new_sized 1431655766 : Dict Nat).length ≥ 3 * 1431655766 / 4 ∧
      (3 * (Dict.new_sized 1431655766 : Dict Nat).size) % 2 ^ 32 = 2 := by
  have hc := change_size_new_sized (T := Nat) 1 1431655766 2863311532
  have hp := insert_place_new_table (T := Nat) 0 2863311532 0 [97] 1 (by decide)
  have hi : insert 1 (Dict.new_sized 1431655766 : Dict Nat) [97] 1 =
      .ok ⟨(0 + 1) % 2 ^ 32, 2863311532,
        (new_table 2863311532).set (get_hash [97] % 2863311532) ⟨get_hash [97], [97], 1⟩⟩ := by
    rw [insert_of_grow 1 (Dict.new_sized 1431655766) ⟨0, 2863311532, new_table 2863311532⟩
      [97] 1 (by show 0 ≥ 3 * 1431655766 % 2 ^ 32 / 4; decide)
      (by show change_size 1 _ (1431655766 * 2 % 2 ^ 32) = _; exact hc)]
    exact hp
  refine ⟨_, hi, ?_, ?_, ?_⟩
  · show 2863311532 = 2 * 1431655766
    decide
  · show ¬ 0 ≥ 3 * 1431655766 / 4
    decide
  · show 3 * 1431655766 % 2 ^ 32 = 2
    decide

/-- The capacity after a returning `insert` is the one the test in the source gives,
computed in 32 bits; when `3*size` fits in 32 bits the capacity is doubled exactly when
`length >= 3*size/4`.  On a fresh default table any six inserts return, each leaving
the capacity at 8, and any seventh insert returns and raises it to 16. -/
theorem growth_rule (T : Type) [Inhabited T] (fuel : Nat) (d d2 : Dict T) (key : Key)
    (value : T) (hi : insert fuel d key value = .ok d2) :
    (d2.size = if d.length ≥ (3 * d.size) % 2 ^ 32 / 4 then (d.size * 2) % 2 ^ 32
      else d.size) ∧
    (3 * d.size < 2 ^ 32 →
      (d2.size = if d.length ≥ 3 * d.size / 4 then 2 * d.size else d.size) ∧
      (d2.size = 2 * d.size ↔ d.length ≥ 3 * d.size / 4)) ∧
    (∀ (ps : List (Key × T)), ps.length = 6 →
      ∃ d6, run_ops 16 Dict.new (ins_ops ps) = .ok d6 ∧ d6.size = 8 ∧
        (∀ n, n ≤ 6 → ∃ dn, run_ops 16 Dict.new (ins_ops (ps.take n)) = .ok dn ∧ dn.size = 8) ∧
        ∀ (k : Key) (v : T), ∃ d7, insert 16 d6 k v = .ok d7 ∧ d7.size = 16) := by
  have hsz := (insert_size fuel d d2 key value hi).1
  have hz2 := (insert_size fuel d d2 key value hi).2.1
  refine ⟨hsz, ?_, ?_⟩
  · intro h3
    have e3 : (3 * d.size) % 2 ^ 32 = 3 * d.size := Nat.mod_eq_of_lt h3
    have e2 : (d.size * 2) % 2 ^ 32 = 2 * d.size := by
      rw [Nat.mod_eq_of_lt (by omega)]; omega
    rw [e3, e2] at hsz
    refine ⟨hsz, ?_⟩
    by_cases hg : d.length ≥ 3 * d.size / 4
    · rw [if_pos hg] at hsz
      exact ⟨fun _ => hg, fun _ => hsz⟩
    · rw [if_neg hg] at hsz
      constructor
      · intro h; omega
      · intro h; exact absurd h hg
  · intro ps hps
    have hl0 : (Dict.new : Dict T).length = 0 := rfl
    have hc0 : live_count (Dict.new : Dict T).table = 0 := live_count_new_table 8
    obtain ⟨d6, hr, hs6, h8, hlc, hl⟩ := run_few_inserts 16 (Nat.le_refl _) ps
      (Dict.new : Dict T) shape_new rfl (by rw [hl0, hc0]) (by rw [hl0]; omega)
    refine ⟨d6, hr, h8, ?_, ?_⟩
    · intro n hn
      obtain ⟨dn, hrn, _, hn8, _, _⟩ := run_few_inserts 16 (Nat.le_refl _) (ps.take n)
        (Dict.new : Dict T) shape_new rfl (by rw [hl0, hc0])
        (by rw [hl0, List.length_take]; omega)
      exact ⟨dn, hrn, hn8⟩
    · intro k v
      have hl6 : d6.length = 6 := by rw [hl, hps, hl0]
      obtain ⟨d7, h7, _, _⟩ := insert_returns 16 d6 k v hs6 (by omega) (by rw [h8]; decide)
        (by omega) (Or.inl (by omega))
      refine ⟨d7, h7, ?_⟩
      rw [(insert_size 16 d6 d7 k v h7).1, h8, hl6]
      decide

/-- The seventh insert of the demonstration program, of "dolphin": the capacity goes
from 8 to 16. -/
theorem growth_rule_witness :
    run_ops 16 Dict.new (ins_ops (demo_pairs.take 6)) = .ok demo_six ∧ demo_six.size = 8 ∧
    ∃ d2, insert 16 demo_six [100, 111, 108, 112, 104, 105, 110] 7 = .ok d2 ∧ d2.size = 16 := by
  obtain ⟨d2, h2, _, _⟩ := insert_returns 16 demo_six [100, 111, 108, 112, 104, 105, 110] 7
    (by rfl) (by decide) (by decide) (by decide) (Or.inl (by decide))
  have h := (growth_rule Nat 16 demo_six d2 [100, 111, 108, 112, 104, 105, 110] 7 h2).1
  refine ⟨by rfl, rfl, d2, h2, ?_⟩
  rw [h]
  decide

/-- The capacity after a `remove` that returns: it is halved exactly when the
decremented length is at most `size/8` and `size > 8`, and unchanged otherwise; a
table of capacity 8 keeps its capacity. -/
theorem shrink_rule (T : Type) [Inhabited T] (fuel : Nat) (d d2 : Dict T) (key : Key)
    (hr : remove fuel d key = .ok d2) :
    d2.length = (d.length + (2 ^ 32 - 1)) % 2 ^ 32 ∧
    (d2.size = d.size / 2 ↔ d2.length ≤ d.size / 8 ∧ d.size > 8) ∧
    (¬ (d2.length ≤ d.size / 8 ∧ d.size > 8) → d2.size = d.size) ∧
    (d.size = 8 → d2.size = 8) := by
  obtain ⟨hl, hs⟩ := remove_size fuel d d2 key hr
  have hz : d.size ≠ 0 := (remove_ok fuel d d2 key hr).1
  refine ⟨hl, ?_, ?_, ?_⟩
  · by_cases hc : d2.length ≤ d.size / 8 ∧ d.size > 8
    · rw [if_pos hc] at hs
      exact ⟨fun _ => hc, fun _ => hs⟩
    · rw [if_neg hc] at hs
      constructor
      · intro h; omega
      · intro h; exact absurd h hc
  · intro hc; rw [hs, if_neg hc]
  · intro h8
    rw [hs, if_neg (by omega)]
    exact h8

/-- The fifth remove of the demonstration program, of "dolphin", leaves 2 of 16 cells
in use and halves the table. -/
theorem shrink_rule_witness :
    run_ops 16 Dict.new (ins_ops demo_pairs ++ rem_ops (demo_removed.take 4)) =
      .ok demo_four_removed ∧
    remove 16 demo_four_removed [100, 111, 108, 112, 104, 105, 110] = .ok demo_state ∧
    demo_four_removed.size = 16 ∧ demo_state.length = 2 ∧ demo_state.size = 8 :=
  ⟨by rfl, by rfl, rfl, rfl,
    (shrink_rule Nat 16 demo_four_removed demo_state [100, 111, 108, 112, 104, 105, 110]
      (by rfl)).2.1.mpr (by decide)⟩

/-- An explicit capacity of at least 8 does not keep the floor either: the table
built by `Dict(9)` has capacity 4 after `insert("a", 1)` and `remove("a")`. -/
theorem new_sized_nine_shrinks :
    run_ops 16 (Dict.new_sized 9 : Dict Nat) [.ins [97] 1, .rem [97]] =
      .ok ⟨0, 4, [⟨0, [], 0⟩, ⟨0, [], 0⟩, ⟨0, [], 0⟩, ⟨0, [], 0⟩]⟩ := by
  rfl

/-- C10, as stated, fails for the constructor with an explicit capacity: `Dict(4)`
builds a table of capacity 4. -/
theorem capacity_floor_explicit : (Dict.new_sized 4 : Dict Nat).size < 8 := by
  decide

/-- C10, amended: a table built by `Dict()`, or by `Dict(start_size)` with
`start_size = 8 * 2^j < 2^32`, has capacity at least 8 at construction and after
every sequence of returning `insert` and `remove` calls. -/
theorem capacity_floor (T : Type) [Inhabited T] (d0 d : Dict T)
    (h0 : d0 = Dict.new ∨ ∃ j, 8 * 2 ^ j < 2 ^ 32 ∧ d0 = Dict.new_sized (8 * 2 ^ j))
    (hr : ReachableFrom (fun _ => True) d0 d) : 8 ≤ d0.size ∧ 8 ≤ d.size := by
  have hp0 : PowCap d0.size := by
    rcases h0 with h | ⟨j, hj, h⟩
    · rw [h]; exact ⟨0, rfl, (show 8 < 2 ^ 32 by decide)⟩
    · rw [h]; exact ⟨j, rfl, hj⟩
  exact ⟨powCap_le _ hp0, powCap_le _ (reachableFrom_powCap _ d0 d hp0 hr)⟩

/-- The table of the demonstration program after its seven inserts and five removes
has capacity 8. -/
theorem capacity_floor_witness :
    run_ops 16 Dict.new (ins_ops demo_pairs ++ rem_ops demo_removed) = .ok demo_state ∧
    8 ≤ (Dict.new : Dict Nat).size ∧ 8 ≤ demo_state.size :=
  ⟨by rfl,
    capacity_floor Nat Dict.new demo_state (Or.inl rfl)
      (reachableFrom_run_ops _ 16 _ (ins_ops demo_pairs ++ rem_ops demo_removed) _ _
        ReachableFrom.init (fun _ _ => trivial) (by rfl))⟩

/-- C20: for every character the multiplier `(ch << 1) + 1` of `get_hash` is odd, hence
non-zero, and the product of a non-zero 64-bit accumulator with it is non-zero modulo
`2^64`. -/
theorem multiplier_keeps_nonzero (ch : UInt8) (hash : Nat) (h0 : hash ≠ 0)
    (hlt : hash < 2 ^ 64) :
    multiplier ch % 2 = 1 ∧ multiplier ch ≠ 0 ∧ (hash * multiplier ch) % 2 ^ 64 ≠ 0 := by
  have hodd := multiplier_odd ch
  refine ⟨hodd, ?_, mul_mod_ne_zero_of_odd hash (multiplier ch) hodd h0 hlt⟩
  intro hz
  rw [hz] at hodd
  omega

/-- The first step of `get_hash` on "cat": the seed 17 times the multiplier 199 of `c`. -/
theorem multiplier_keeps_nonzero_witness :
    multiplier 99 = 199 ∧ (17 * multiplier 99) % 2 ^ 64 ≠ 0 :=
  ⟨by decide, (multiplier_keeps_nonzero 99 17 (by decide) (by decide)).2.2⟩

/-- C11: on a table built by `Dict()` or by `Dict(n)` with `n >= 1`, with no insert
performed, `get` of every key returns after one test of its loop with the default
value; this also holds after any removes on such a table. -/
theorem default_on_empty (T : Type) [Inhabited T] (n : Nat) (hn : 1 ≤ n) (rs : List Key)
    (key : Key) :
    get 1 (Dict.new : Dict T) key = .ok default ∧
    get 1 (Dict.new_sized n : Dict T) key = .ok default ∧
    ∃ d, run_ops 1 (Dict.new_sized n : Dict T) (rem_ops rs) = .ok d ∧
      get 1 d key = .ok default := by
  refine ⟨get_new_table 0 0 8 key (by decide), get_new_table 0 0 n key (by omega), ?_⟩
  obtain ⟨len2, m2, hm2, hr⟩ := run_removes_new_table (T := T) 0 rs 0 n (by omega)
  exact ⟨_, hr, get_new_table 0 len2 m2 key hm2⟩

/-- On a table built by `Dict(3)`, `get("cat")` returns 0, also after the removes of
"cat" and "dog". -/
theorem default_on_empty_witness :
    get 1 (Dict.new_sized 3 : Dict Nat) [99, 97, 116] = .ok 0 ∧
    ∃ d, run_ops 1 (Dict.new_sized 3 : Dict Nat) (rem_ops [[99, 97, 116], [100, 111, 103]]) =
        .ok d ∧ get 1 d [99, 97, 116] = .ok 0 :=
  (default_on_empty Nat 3 (by decide) [[99, 97, 116], [100, 111, 103]] [99, 97, 116]).2

/-- C17: every returning `insert` sets `length` to `(length + 1) mod 2^32`, also when it
overwrites a cell of equal hash, and every returning `remove` sets it to
`(length - 1) mod 2^32`, also when no cell matches; so after a sequence of calls with
`i` inserts and `r` removes on a fresh table `length` is `(i - r) mod 2^32`. -/
theorem length_bookkeeping (T : Type) [Inhabited T] (fuel : Nat) (n : Nat) (ops : List (Op T))
    (dfin : Dict T) (hr : run_ops fuel (Dict.new_sized n) ops = .ok dfin) :
    (dfin.length : Int) = ((count_ins ops : Int) - count_rem ops) % 2 ^ 32 ∧
    (∀ (d d2 : Dict T) (key : Key) (value : T), insert fuel d key value = .ok d2 →
      d2.length = (d.length + 1) % 2 ^ 32) ∧
    (∀ (d d2 : Dict T) (key : Key), remove fuel d key = .ok d2 →
      d2.length = (d.length + (2 ^ 32 - 1)) % 2 ^ 32) := by
  refine ⟨?_, ?_, ?_⟩
  · have h := run_ops_length fuel ops (Dict.new_sized n) dfin (by show 0 < 2 ^ 32; decide) hr
    have h0 : ((Dict.new_sized n : Dict T).length : Int) = 0 := rfl
    rw [h, h0, zero_add]
  · intro d d2 key value h
    exact (insert_size fuel d d2 key value h).2.2
  · intro d d2 key h
    exact (remove_size fuel d d2 key h).1

/-- Two inserts of "cat" and one remove of the absent "dog" on a fresh table leave one
key stored and `length = (2 - 1) mod 2^32 = 1`. -/
theorem length_bookkeeping_witness :
    run_ops 8 (Dict.new_sized 8) bookkeeping_ops = .ok bookkeeping_state ∧
    live_count bookkeeping_state.table = 1 ∧
    (bookkeeping_state.length : Int) = ((2 : Int) - 1) % 2 ^ 32 :=
  ⟨by rfl, by decide,
    (length_bookkeeping Nat 8 8 bookkeeping_ops bookkeeping_state (by rfl)).1⟩

/-- C12: an `insert` of another key, without resize, makes a removed key retrievable
again.  On `removed_state`, reached by storing "i" in two cells and removing it,
`get("i")` returns the default 0; `insert("a", 5)`, of a different hash, takes the
tombstone of "i" and leaves the capacity at 8, and `get("i")` then returns the value
10 of the older cell. -/
theorem insert_resurrects :
    Reachable (fun k => k ≠ [] ∧ get_hash k ≠ 0) removed_state ∧
    run_ops 8 Dict.new (duplicate_ops ++ [.rem [105]]) = .ok removed_state ∧
    get_hash [97] ≠ get_hash [105] ∧
    get 8 removed_state [105] = .ok 0 ∧
    insert 8 removed_state [97] 5 = .ok resurrected_state ∧
    resurrected_state.size = removed_state.size ∧
    get 8 resurrected_state [105] = .ok 10 := by
  have hd : run_ops 8 Dict.new (duplicate_ops ++ [.rem [105]]) = .ok removed_state := by rfl
  exact ⟨reachableFrom_run_ops _ 8 _ (duplicate_ops ++ [.rem [105]]) _ _ ReachableFrom.init
    (by decide) hd, hd, by decide, by rfl, by rfl, rfl, by rfl⟩

/-- C13: a reachable state in which a key is held by two Occupied cells.  After
`insert("a")`, `insert("i")`, `remove("a")`, `insert("i")`, all with non-empty keys of
non-zero hash, the cells 1 and 2 both hold "i". -/
theorem two_cells_one_key :
    Reachable (fun k => k ≠ [] ∧ get_hash k ≠ 0) duplicate_state ∧
    run_ops 8 Dict.new duplicate_ops = .ok duplicate_state ∧
    cellAt duplicate_state.table 1 = ⟨get_hash [105], [105], 20⟩ ∧
    cellAt duplicate_state.table 2 = ⟨get_hash [105], [105], 10⟩ ∧
    holders duplicate_state.table [105] = 2 := by
  have hd : run_ops 8 Dict.new duplicate_ops = .ok duplicate_state := by rfl
  exact ⟨reachableFrom_run_ops _ 8 _ duplicate_ops _ _ ReachableFrom.init (by decide) hd,
    hd, by decide, by decide, by decide⟩

/-- C14, as stated, fails: `insert` writes into a tombstone of another hash.  After
`insert("a", 1)` and `remove("a")` cell 1 is a tombstone with the hash of "a" and cell
2 is Empty; `insert("i", 2)`, whose probe starts at cell 1, writes cell 1. -/
theorem insert_takes_tombstone :
    run_ops 8 Dict.new [.ins [97] 1, .rem [97]] = .ok one_tombstone ∧
    get_hash [105] % one_tombstone.size = 1 ∧
    cellAt one_tombstone.table 1 = ⟨get_hash [97], [], 0⟩ ∧
    get_hash [97] ≠ 0 ∧ get_hash [97] ≠ get_hash [105] ∧
    cellAt one_tombstone.table 2 = ⟨0, [], 0⟩ ∧
    insert 8 one_tombstone [105] 2 = .ok tombstone_reused ∧
    cellAt tombstone_reused.table 1 = ⟨get_hash [105], [105], 2⟩ ∧
    cellAt tombstone_reused.table 2 = ⟨0, [], 0⟩ := by
  exact ⟨by rfl, by decide, by decide, by decide, by decide, by decide, by rfl, by decide,
    by decide⟩

/-- C14, amended: where the first cell on the probe sequence of the key (in the table
probed, the resized one after a growth) that has the hash of the key or an empty key
has the hash of the key, or where no cell holding a key has the hash of the key, a
returning `insert(key, value)` writes into that first cell, be it a cell of that hash,
an Empty cell or a tombstone of any hash, and changes no other cell.  Nothing is said
of a cell without a key that comes before a cell holding the hash of the key.  The
insert does return when a cell is free or one holds the hash of the key, twice the
capacity fits in 32 bits and the loops may run that many iterations. -/
theorem insert_placement (T : Type) [Inhabited T] (fuel : Nat) (d : Dict T) (key : Key)
    (value : T) (hs : Shape d) :
    (∀ d2, insert fuel d key value = .ok d2 →
      ∃ d1 m,
        ((¬ d.length ≥ (3 * d.size) % 2 ^ 32 / 4 ∧ d1 = d) ∨
          (d.length ≥ (3 * d.size) % 2 ^ 32 / 4 ∧
            change_size fuel d ((d.size * 2) % 2 ^ 32) = .ok d1)) ∧
        m < d1.size ∧
        ((cellAt d1.table ((get_hash key % d1.size + m) % d1.size)).hash = get_hash key ∨
          (cellAt d1.table ((get_hash key % d1.size + m) % d1.size)).key = []) ∧
        (∀ m2, m2 < m →
          (cellAt d1.table ((get_hash key % d1.size + m2) % d1.size)).hash ≠ get_hash key ∧
          (cellAt d1.table ((get_hash key % d1.size + m2) % d1.size)).key ≠ []) ∧
        (((cellAt d1.table ((get_hash key % d1.size + m) % d1.size)).hash = get_hash key ∨
            ∀ j, (cellAt d1.table j).key ≠ [] → (cellAt d1.table j).hash ≠ get_hash key) →
          cellAt d2.table ((get_hash key % d1.size + m) % d1.size) =
            ⟨get_hash key, key, value⟩ ∧
          (∀ j, j ≠ (get_hash key % d1.size + m) % d1.size →
            cellAt d2.table j = cellAt d1.table j) ∧
          d2.size = d1.size)) ∧
    (0 < d.size → 2 * d.size < 2 ^ 32 → 2 * d.size ≤ fuel →
      (live_count d.table < d.size ∨
        ∃ c, c ∈ d.table ∧ c.key ≠ [] ∧ c.hash = get_hash key) →
      ∃ d2, insert fuel d key value = .ok d2) := by
  constructor
  · intro d2 hi
    obtain ⟨d1, hp, hg⟩ := insert_ok fuel d d2 key value hi
    have hs1 : Shape d1 := by
      rcases hg with hg | hg
      · exact change_size_shape fuel d d1 _ hg.2
      · rw [hg.2]; exact hs
    have hs1e : d1.size = d1.table.length := hs1
    obtain ⟨hz, p, hpr, hd2⟩ := insert_place_ok fuel d1 d2 key value hp
    have hpos : 0 < d1.size := Nat.pos_of_ne_zero hz
    have hi0 : get_hash key % d1.size < d1.size := Nat.mod_lt _ hpos
    obtain ⟨f0, hf0⟩ : ∃ f0, probe (stop_insert (get_hash key)) d1.table d1.size f0
        (get_hash key % d1.size) = .ok p ∧ f0 = d1.size :=
      ⟨d1.size, probe_ok_of_size_le _ _ _ fuel d1.size _ p hpr hi0 (Nat.le_refl _), rfl⟩
    obtain ⟨m, hm, hmp, hst, hall⟩ := probe_ok_first _ _ _ _ _ p hf0.1 hi0
    have hplt : p < d1.table.length := by
      rw [← hs1e]; exact probe_ok_lt _ _ _ _ _ _ hpr hi0
    refine ⟨d1, m, ?_, by rw [← hf0.2]; exact hm, ?_, ?_, fun _ => ⟨?_, ?_, ?_⟩⟩
    · rcases hg with hg | hg
      · exact Or.inr hg
      · exact Or.inl hg
    · rw [hmp]; exact stop_insert_true hst
    · intro m2 hm2
      have := stop_insert_false (hall m2 hm2)
      exact this
    · rw [hmp, hd2]
      exact cellAt_set_self _ _ _ hplt
    · intro j hj
      rw [hmp] at hj
      rw [hd2]
      exact cellAt_set_ne _ _ _ _ hj
    · rw [hd2]
  · intro hpos h32 hfuel hstop
    obtain ⟨d2, h2, _, _⟩ := insert_returns fuel d key value hs hpos h32 hfuel hstop
    exact ⟨d2, h2⟩

/-- The insert of "i" on the table with one tombstone, where no cell holds a key: the
first cell of its probe sequence, cell 1, has an empty key and is written, and cell 2
stays Empty. -/
theorem insert_placement_witness :
    Shape one_tombstone ∧
    insert 8 one_tombstone [105] 2 = .ok tombstone_reused ∧
    (∀ j, (cellAt one_tombstone.table j).key = []) ∧
    ∃ d1 m, d1 = one_tombstone ∧ m < d1.size ∧
      cellAt tombstone_reused.table ((get_hash [105] % d1.size + m) % d1.size) =
        ⟨get_hash [105], [105], 2⟩ ∧
      ∀ j, j ≠ (get_hash [105] % d1.size + m) % d1.size →
        cellAt tombstone_reused.table j = cellAt d1.table j := by
  have hkeys : ∀ j, (cellAt one_tombstone.table j).key = [] := by
    intro j
    by_cases hj : j < 8
    · have h8 : ∀ i, i < 8 → (cellAt one_tombstone.table i).key = [] := by decide
      exact h8 j hj
    · rw [cellAt_of_le one_tombstone.table j (by
        show one_tombstone.table.length ≤ j
        have : one_tombstone.table.length = 8 := by rfl
        omega)]
      rfl
  obtain ⟨d1, m, hg, hm, _, _, hw⟩ :=
    (insert_placement Nat 8 one_tombstone [105] 2 (by rfl)).1 tombstone_reused (by rfl)
  rcases hg with hg | hg
  · have hw2 := hw (Or.inr (fun j hk => absurd (by rw [hg.2]; exact hkeys j) hk))
    exact ⟨by rfl, by rfl, hkeys, d1, m, hg.2, hm, hw2.1, hw2.2.1⟩
  · exact absurd hg.1 (by decide)

/-- C15: `length` exceeds the capacity after `remove("a")` on a fresh default table:
the counter wraps from 0 to `2^32 - 1` while the capacity stays 8. -/
theorem length_underflow :
    Reachable (fun k => k ≠ [] ∧ get_hash k ≠ 0) underflow_state ∧
    remove 8 Dict.new [97] = .ok underflow_state ∧
    underflow_state.length = 2 ^ 32 - 1 ∧ underflow_state.size = 8 ∧
    ¬ underflow_state.length ≤ underflow_state.size := by
  have hd : remove 8 Dict.new [97] = .ok underflow_state := by rfl
  exact ⟨ReachableFrom.remove 8 Dict.new underflow_state [97] ReachableFrom.init (by decide) hd,
    hd, by decide, rfl, by decide⟩

/-- C19, as stated, fails when no cell matches and the remove triggers a shrink.  On
the table built by `Dict(16)` holding "i" in cell 9, the probe of `remove("z")` starts
at the Empty cell 10 and finds no cell of the hash of "z"; `length` drops to 0, the
table is halved, and "i" moves from cell 9 to cell 1. -/
theorem remove_absent_shrinks :
    insert 16 (Dict.new_sized 16) [105] 1 = .ok sixteen_one ∧
    cellAt sixteen_one.table (get_hash [122] % sixteen_one.size) = ⟨0, [], 0⟩ ∧
    remove 16 sixteen_one [122] = .ok sixteen_halved ∧
    sixteen_halved.size = 8 ∧
    cellAt sixteen_one.table 9 = ⟨get_hash [105], [105], 1⟩ ∧
    cellAt sixteen_halved.table 9 = ⟨0, [], 0⟩ ∧
    cellAt sixteen_one.table 1 = ⟨0, [], 0⟩ ∧
    cellAt sixteen_halved.table 1 = ⟨get_hash [105], [105], 1⟩ ∧
    sixteen_halved.table ≠ sixteen_one.table := by
  exact ⟨by rfl, by decide, by rfl, rfl, by decide, by decide, by decide, by decide, by decide⟩

/-- C19, amended: when a returning `remove(key)` triggers no shrink, the capacity is
unchanged and, with `p` the first cell on the probe sequence whose hash is 0 or the
hash of the key: if the hash of cell `p` is not 0, it is the hash of the key, and
afterwards cell `p` has the same hash, an empty key and the default value and every
other cell is unchanged; if the hash of cell `p` is 0, no cell changes. -/
theorem remove_frame (T : Type) [Inhabited T] (fuel : Nat) (d d2 : Dict T) (key : Key)
    (hr : remove fuel d key = .ok d2)
    (hno : ¬ ((d.length + (2 ^ 32 - 1)) % 2 ^ 32 ≤ d.size / 8 ∧ d.size > 8)) :
    ∃ m, m < d.size ∧
      (∀ m2, m2 < m →
        (cellAt d.table ((get_hash key % d.size + m2) % d.size)).hash ≠ 0 ∧
        (cellAt d.table ((get_hash key % d.size + m2) % d.size)).hash ≠ get_hash key) ∧
      d2.size = d.size ∧
      ((cellAt d.table ((get_hash key % d.size + m) % d.size)).hash ≠ 0 →
        (cellAt d.table ((get_hash key % d.size + m) % d.size)).hash = get_hash key ∧
        cellAt d2.table ((get_hash key % d.size + m) % d.size) = ⟨get_hash key, [], default⟩ ∧
        ∀ j, j ≠ (get_hash key % d.size + m) % d.size →
          cellAt d2.table j = cellAt d.table j) ∧
      ((cellAt d.table ((get_hash key % d.size + m) % d.size)).hash = 0 →
        d2.table = d.table) := by
  obtain ⟨hz, p, hp, hc | hc⟩ := remove_ok fuel d d2 key hr
  · exact absurd hc.1 hno
  · have hpos : 0 < d.size := Nat.pos_of_ne_zero hz
    have hi0 : get_hash key % d.size < d.size := Nat.mod_lt _ hpos
    have hps := probe_ok_of_size_le _ _ _ fuel d.size _ p hp hi0 (Nat.le_refl _)
    obtain ⟨m, hm, hmp, hst, hall⟩ := probe_ok_first _ _ _ _ _ p hps hi0
    have hd2 : d2.table = clear_cell d.table p := by rw [hc.2]
    refine ⟨m, hm, ?_, by rw [hc.2], ?_, ?_⟩
    · intro m2 hm2
      exact stop_lookup_false_iff.mp (hall m2 hm2)
    · intro hne
      rw [hmp] at hne ⊢
      have hh : (cellAt d.table p).hash = get_hash key := by
        unfold stop_lookup at hst
        simp only [Bool.or_eq_true, beq_iff_eq] at hst
        rcases hst with h | h
        · exact absurd h hne
        · exact h
      refine ⟨hh, ?_, ?_⟩
      · rw [hd2, cellAt_clear_cell, hh]
        simp [hne, hh ▸ hne]
      · intro j hj
        rw [hd2]
        exact cellAt_clear_cell_ne _ _ _ hj
    · intro h0
      rw [hmp] at h0
      rw [hd2]
      unfold clear_cell
      rw [if_pos h0]

/-- The first remove of the demonstration program, of "cat": cell 4 keeps its hash and
loses key and value; the capacity stays 16. -/
theorem remove_frame_witness :
    remove 16 demo_seven [99, 97, 116] = .ok demo_cat_removed ∧
    demo_cat_removed.size = demo_seven.size ∧
    cellAt demo_seven.table 4 = ⟨get_hash [99, 97, 116], [99, 97, 116], 1⟩ ∧
    cellAt demo_cat_removed.table 4 = ⟨get_hash [99, 97, 116], [], 0⟩ ∧
    ∀ j, j ≠ 4 → cellAt demo_cat_removed.table j = cellAt demo_seven.table j := by
  have hr : remove 16 demo_seven [99, 97, 116] = .ok demo_cat_removed := by rfl
  obtain ⟨m, _, hbefore, hsz, hA, _⟩ :=
    remove_frame Nat 16 demo_seven demo_cat_removed [99, 97, 116] hr (by decide)
  have hm0 : m = 0 := by
    by_contra hne
    exact (hbefore 0 (by omega)).2 (by decide)
  subst hm0
  obtain ⟨_, h2, h3⟩ := hA (by decide)
  have e : (get_hash [99, 97, 116] % demo_seven.size + 0) % demo_seven.size = 4 := by decide
  rw [e] at h2 h3
  exact ⟨hr, hsz, by decide, h2, h3⟩

/-- C18: for every table and every new capacity `n` at least the number of cells with
a non-empty key, `change_size` returns (its loops need at most `n` iterations each);
the cells with a non-empty key of the new array are those of the old array, as
multisets of (hash, key, value); every other new cell is Empty, with hash 0, no key
and the default value, so no tombstone survives; `length` is unchanged and the
capacity is `n`. -/
theorem resize_copies (T : Type) [Inhabited T] (fuel : Nat) (d : Dict T) (n : Nat)
    (hroom : live_count d.table ≤ n) (hfuel : n ≤ fuel) :
    ∃ d1, change_size fuel d n = .ok d1 ∧ d1.size = n ∧ d1.table.length = n ∧
      d1.length = d.length ∧
      (d1.table.filter is_live).Perm (d.table.filter is_live) ∧
      ∀ j, (cellAt d1.table j).key = [] → cellAt d1.table j = DictCell.empty := by
  have hex : ∃ d1, change_size fuel d n = .ok d1 := by
    rcases Nat.eq_zero_or_pos n with h0 | hpos
    · have hall := key_empty_of_live_count_zero d.table (by omega)
      exact ⟨_, change_size_of_copy fuel d n _
        (copy_cells_all_empty fuel n (new_table n) d.table hall)⟩
    · obtain ⟨d1, h1, _⟩ := change_size_returns fuel d n hpos hfuel hroom
      exact ⟨d1, h1⟩
  obtain ⟨d1, h1⟩ := hex
  obtain ⟨hsz, hlen, htl⟩ := change_size_fields fuel d d1 n h1
  obtain ⟨t, ht, hd1⟩ := change_size_ok fuel d d1 n h1
  have hperm := copy_cells_perm fuel n d.table (new_table n) t (List.length_replicate _ _) ht
  have hnil : (new_table n : List (DictCell T)).filter is_live = [] := by
    refine filter_live_eq_nil _ ?_
    intro c hc
    unfold new_table at hc
    rw [List.eq_of_mem_replicate hc]
    rfl
  rw [hnil, List.nil_append] at hperm
  refine ⟨d1, h1, hsz, htl, hlen, by rw [hd1]; exact hperm, ?_⟩
  rw [hd1]
  exact copy_cells_forall (fun c => c.key = [] → c = DictCell.empty) fuel n _ _ t ht
    (fun c _ hk hk2 => absurd hk2 hk)
    (fun j _ => cellAt_new_table n j)

/-- The shrink of the demonstration program: the table of 16 cells with three keys and
four tombstones is copied into 8 cells. -/
theorem resize_copies_witness :
    live_count demo_four_removed.table = 3 ∧
    ∃ d1, change_size 8 demo_four_removed 8 = .ok d1 ∧ d1.size = 8 ∧ d1.table.length = 8 ∧
      d1.length = demo_four_removed.length ∧
      (d1.table.filter is_live).Perm (demo_four_removed.table.filter is_live) ∧
      ∀ j, (cellAt d1.table j).key = [] → cellAt d1.table j = DictCell.empty :=
  ⟨by decide, resize_copies Nat 8 demo_four_removed 8 (by decide) (by decide)⟩

/-- C16: under well-formed use from a fresh default table (every insert of a key not
stored, every remove of a stored key, keys non-empty with pairwise distinct non-zero
hashes), after every returning call `length` is the number of Occupied cells and at
most `3*size/4`, and whenever an `insert` reaches its probe loop the table it probes
(the resized one after a growth) has a cell with an empty key. -/
theorem length_well_formed (T : Type) [Inhabited T] (P : Key → Prop)
    (hP : ∀ k, P k → k ≠ [] ∧ get_hash k ≠ 0)
    (hinj : ∀ k k2, P k → P k2 → get_hash k = get_hash k2 → k = k2)
    (d : Dict T) (hw : WellFormed P d) :
    d.length = occupied_count d.table ∧ d.length ≤ 3 * d.size / 4 ∧
    ∀ (fuel : Nat) (d1 : Dict T),
      ((¬ d.length ≥ (3 * d.size) % 2 ^ 32 / 4 ∧ d1 = d) ∨
        (d.length ≥ (3 * d.size) % 2 ^ 32 / 4 ∧
          change_size fuel d ((d.size * 2) % 2 ^ 32) = .ok d1)) →
      d1.size ≠ 0 → ∃ j, j < d1.size ∧ (cellAt d1.table j).key = [] := by
  obtain ⟨hinv, hcap, _, hbound⟩ := wellFormed_inv P hP hinj d hw
  have hlen := hinv.length_eq
  have hshape : d.size = d.table.length := hinv.shape
  have hpos := hinv.size_pos
  refine ⟨by rw [occupied_count_eq d.table hinv.nonZero]; exact hlen, hbound, ?_⟩
  intro fuel d1 hg hz
  rcases hg with hg | hg
  · rw [hg.2]
    obtain ⟨j, hj, hk⟩ := exists_free d.table (by omega)
    exact ⟨j, by omega, hk⟩
  · have hn : (d.size * 2) % 2 ^ 32 = 2 * d.size := by
      rcases powCap_cases d.size hcap with h3 | h31
      · rw [Nat.mod_eq_of_lt (by omega)]; omega
      · exfalso
        apply hz
        rw [(change_size_fields fuel d d1 _ hg.2).1, h31]
        decide
    rw [hn] at hg
    obtain ⟨d3, hc3, hs3, hsz3, _, hlc3, _⟩ := change_size_returns (max fuel (2 * d.size)) d
      (2 * d.size) (by omega) (le_max_right _ _) (by omega)
    have e := change_size_mono fuel (max fuel (2 * d.size)) (le_max_left _ _) d d1 _ hg.2
    rw [hc3] at e
    injection e with e
    rw [← e]
    have hs3e : d3.size = d3.table.length := hs3
    obtain ⟨j, hj, hk⟩ := exists_free d3.table (by omega)
    exact ⟨j, by omega, hk⟩

/-- The calls `insert("cat", 1)`, `insert("dog", 2)`, `remove("cat")` are well-formed
use; afterwards one cell is Occupied and `length` is 1. -/
theorem length_well_formed_witness :
    insert 8 Dict.new [99, 97, 116] 1 = .ok cat_state ∧
    insert 8 cat_state [100, 111, 103] 2 = .ok cat_dog_state ∧
    remove 8 cat_dog_state [99, 97, 116] = .ok dog_state ∧
    occupied_count dog_state.table = 1 ∧
    dog_state.length = occupied_count dog_state.table ∧
    dog_state.length ≤ 3 * dog_state.size / 4 := by
  have h1 : insert 8 Dict.new [99, 97, 116] 1 = .ok cat_state := by rfl
  have h2 : insert 8 cat_state [100, 111, 103] 2 = .ok cat_dog_state := by rfl
  have h3 : remove 8 cat_dog_state [99, 97, 116] = .ok dog_state := by rfl
  have hw : WellFormed (fun k => k ∈ demo_pairs.map Prod.fst) dog_state :=
    WellFormed.remove 8 cat_dog_state dog_state [99, 97, 116]
      (WellFormed.insert 8 cat_state cat_dog_state [100, 111, 103] 2
        (WellFormed.insert 8 Dict.new cat_state [99, 97, 116] 1 WellFormed.init
          (by decide) (by decide) h1)
        (by decide) (by decide) h2)
      (by decide) (by decide) h3
  have hnd : ((demo_pairs.map Prod.fst).map get_hash).Nodup := by decide
  obtain ⟨ha, hb, _⟩ := length_well_formed Nat (fun k => k ∈ demo_pairs.map Prod.fst)
    (by decide) (fun k k2 hk hk2 he => List.inj_on_of_nodup_map hnd hk hk2 he) dog_state hw
  exact ⟨h1, h2, h3, by decide, ha, hb⟩

/-- C3: on a reachable state the first of the two inserts never returns, so no `get`
follows.  When the inserts of "a" to "h" alternate with removes of the key "z", which
is not stored (all keys non-empty, of non-zero hash), every cell of the 8 holds a key
while `length` is 1; `insert("i", 1)` then triggers no growth and its loop meets
neither the hash of "i" nor a cell without a key, for any number of iterations. -/
theorem overwrite_never_returns :
    Reachable (fun k => k ≠ [] ∧ get_hash k ≠ 0) full_state ∧
    run_ops 8 Dict.new full_ops = .ok full_state ∧
    ([105] : Key) ≠ [] ∧ get_hash [105] ≠ 0 ∧
    (∀ fuel, insert fuel full_state [105] 1 = .error .fuel) ∧
    (∀ fuel, run_ops fuel full_state [.ins [105] 1, .ins [105] 2] = .error .fuel) := by
  have hf : run_ops 8 Dict.new full_ops = .ok full_state := by rfl
  have hdiv : ∀ fuel, insert fuel full_state [105] 1 = .error .fuel :=
    insert_diverges _ _ _ (by decide) (by decide) (by decide)
  exact ⟨reachableFrom_run_ops _ 8 _ full_ops _ _ ReachableFrom.init (by decide) hf, hf,
    by decide, by decide, hdiv,
    fun fuel => run_ops_cons_error fuel full_state (Op.ins [105] 1) _ _ (hdiv fuel)⟩

/-- C9: on a reachable state the shrink condition holds after the decrement, yet
`remove` never returns and the capacity is never halved.  After the inserts of "a" to
"i" and six removes of "z", which is not stored, nine cells of the 16 hold a key and
`length` is 3; the next `remove("z")` decrements `length` to 2, which is at most 16/8,
and `change_size(8)` has to place nine keys in eight cells: the loop looking for a cell
without a key runs for any number of iterations. -/
theorem remove_never_halves :
    Reachable (fun k => k ≠ [] ∧ get_hash k ≠ 0) hang_state ∧
    run_ops 16 Dict.new hang_ops = .ok hang_state ∧
    ((hang_state.length + (2 ^ 32 - 1)) % 2 ^ 32 ≤ hang_state.size / 8 ∧ hang_state.size > 8) ∧
    live_count hang_state.table = 9 ∧
    (∀ fuel, remove fuel hang_state [122] = .error .fuel) := by
  have hf : run_ops 16 Dict.new hang_ops = .ok hang_state := by rfl
  refine ⟨reachableFrom_run_ops _ 16 _ hang_ops _ _ ReachableFrom.init (by decide) hf, hf,
    by decide, by decide, ?_⟩
  intro fuel
  cases h : remove fuel hang_state [122] with
  | error e => rw [remove_error fuel hang_state [122] e (by decide) (by decide) h]
  | ok d2 =>
    exfalso
    obtain ⟨_, p, hp, hc | hc⟩ := remove_ok fuel hang_state d2 [122] h
    · have hstop := probe_ok_stop _ _ _ _ _ _ hp
      have hplt : p < hang_state.size :=
        probe_ok_lt _ _ _ _ _ _ hp (Nat.mod_lt _ (by decide))
      have hnone : ∀ j, j < hang_state.size →
          (cellAt hang_state.table j).hash ≠ get_hash [122] := by decide
      have h0 : (cellAt hang_state.table p).hash = 0 := by
        unfold stop_lookup at hstop
        simp only [Bool.or_eq_true, beq_iff_eq] at hstop
        rcases hstop with h1 | h1
        · exact h1
        · exact absurd h1 (hnone p hplt)
      have hclear : clear_cell hang_state.table p = hang_state.table := by
        unfold clear_cell
        rw [if_pos h0]
      have hroom := change_size_room fuel _ d2 _ hc.2
      rw [show (⟨(hang_state.length + (2 ^ 32 - 1)) % 2 ^ 32, hang_state.size,
        clear_cell hang_state.table p⟩ : Dict Nat).table = clear_cell hang_state.table p
        from rfl, hclear] at hroom
      have h9 : live_count hang_state.table = 9 := by decide
      have h16 : hang_state.size = 16 := rfl
      omega
    · exact hc.1 (by decide)

end Hashtable
